import Mathlib

/-!
# vulnmap-ls: converter, file watcher, code actions, command factory

Further down: construction of code actions, the CLI environment, the issue
store of a folder, folders and the workspace, the code bundle (shard key,
issue actions, the two polling loops), the scrubbing log writer, the range
finder, the CLI initializer and the hovers.

A shallow embedding of the parts of the language server that the checked
properties talk about.

Conventions of the embedding

* A Go slice is a `Slice`: `Slice.nil` is the nil slice, `Slice.items xs` a
  non-nil slice holding `xs` (`Slice.items []` is the empty, non-nil slice).
  `Slice.append` is Go's `append` with one element, `Slice.toList` is what a
  `for ... range` loop visits.
* A Go pointer `*T` is an `Option T` (`none` is the nil pointer).
* A Go `int` is an `Int`.
* A Go `map[string]V` is an association list; a `range` loop over it visits
  the entries in list order, and since a property is stated for every list,
  it is stated for every iteration order.
-/

namespace VulnmapLs

/-! ## Go slices -/

/-- A Go slice: nil, or non-nil with its elements. -/
inductive Slice (α : Type) where
  | nil : Slice α
  | items (xs : List α) : Slice α
  deriving DecidableEq, Repr

namespace Slice

/-- The elements a `for ... range` loop visits. -/
def toList {α : Type} : Slice α → List α
  | nil => []
  | items xs => xs

/-- Go's `append(s, x)`: the result is never nil. -/
def append {α : Type} (s : Slice α) (x : α) : Slice α :=
  items (s.toList ++ [x])

/-- Go's `s == nil`. -/
def isNil {α : Type} : Slice α → Bool
  | nil => true
  | items _ => false

/-- Go's `len(s)`. -/
def len {α : Type} (s : Slice α) : Nat := s.toList.length

end Slice

/-! ## domain/vulnmap: the data model -/

/-- `vulnmap.Position`. -/
structure Position where
  Line : Int
  Character : Int
  deriving DecidableEq, Repr

/-- `vulnmap.Range`. -/
structure Range where
  Start : Position
  End : Position
  deriving DecidableEq, Repr

/-- Modelled from the spec: the declaration of `vulnmap.Severity` is in
domain/vulnmap/issues.go, which is not among the sources. It is an integer
enumeration with the four named constants the converter switches on;
`other n` stands for every value that is none of the four. -/
inductive Severity where
  | Critical
  | High
  | Medium
  | Low
  | other (n : Nat)
  deriving DecidableEq, Repr

/-- `uuid.UUID`, a 128-bit value. -/
structure UUID where
  val : Nat
  deriving DecidableEq, Repr

/-- A value of Go's `any`, as far as command arguments use it. -/
inductive GoAny where
  | str (s : String)
  | int (n : Int)
  | bool (b : Bool)
  | uuid (u : UUID)
  | range (r : Range)
  deriving DecidableEq, Repr

/-- `vulnmap.CommandData` (domain/vulnmap/command.go). -/
structure CommandData where
  Title : String
  CommandId : String
  Arguments : Slice GoAny
  deriving DecidableEq, Repr

/-- `vulnmap.TextEdit`. -/
structure TextEdit where
  Range : Range
  NewText : String
  deriving DecidableEq, Repr

/-- `vulnmap.WorkspaceEdit`: `Changes` is a `map[string][]TextEdit`. -/
structure WorkspaceEdit where
  Changes : List (String × Slice TextEdit)
  deriving DecidableEq, Repr

/-- `vulnmap.CodeAction`. The deferred fields are pointers to zero-argument
producers. -/
structure CodeAction where
  Title : String
  IsPreferred : Option Bool
  Edit : Option WorkspaceEdit
  DeferredEdit : Option (Unit → Option WorkspaceEdit)
  Command : Option CommandData
  DeferredCommand : Option (Unit → Option CommandData)
  Uuid : Option UUID

/-- `vulnmap.Reference`. -/
structure Reference where
  Title : String
  Url : String
  deriving DecidableEq, Repr

/-- `url.URL`, kept as the text `String()` renders. -/
structure URL where
  raw : String
  deriving DecidableEq, Repr

/-- `(*url.URL).String()`. -/
def URL.String (u : URL) : String := u.raw

/-- `vulnmap.CodeIssueData`, the additional data of a code issue. -/
structure CodeIssueData where
  Title : String
  IsAutofixable : Bool
  deriving DecidableEq, Repr

/-- The dynamic type of `Issue.AdditionalData`: code issue data, or some
other product's data. -/
inductive IssueAdditionalData where
  | code (d : CodeIssueData)
  | otherData (tag : String)
  deriving DecidableEq, Repr

/-- `vulnmap.Issue`, with the fields the embedded code reads or writes. -/
structure Issue where
  ID : String
  Severity : Severity
  Range : Range
  Message : String
  FormattedMessage : String
  AffectedFilePath : String
  Product : String
  References : Slice Reference
  IssueDescriptionURL : Option URL
  CodeActions : Slice CodeAction
  CodelensCommands : Slice CommandData
  AdditionalData : Option IssueAdditionalData

/-! ## internal/lsp and go-lsp: the wire types -/

/-- `lsp.DiagnosticSeverity`. -/
inductive DiagnosticSeverity where
  | DiagnosticsSeverityError
  | DiagnosticsSeverityWarning
  | DiagnosticsSeverityInformation
  | DiagnosticsSeverityHint
  deriving DecidableEq, Repr

/-- `sglsp.Position`. -/
structure LspPosition where
  Line : Int
  Character : Int
  deriving DecidableEq, Repr

/-- `sglsp.Range`. -/
structure LspRange where
  Start : LspPosition
  End : LspPosition
  deriving DecidableEq, Repr

/-- `lsp.Diagnostic`; `Href` is the `CodeDescription.Href` field. -/
structure Diagnostic where
  Range : LspRange
  Severity : DiagnosticSeverity
  Code : String
  Source : String
  Message : String
  Href : String
  deriving DecidableEq, Repr

/-- `sglsp.TextEdit`. -/
structure LspTextEdit where
  Range : LspRange
  NewText : String
  deriving DecidableEq, Repr

/-- `sglsp.WorkspaceEdit`: `Changes` is a `map[string][]TextEdit`, kept as
an association list with one entry per key. -/
structure LspWorkspaceEdit where
  Changes : List (String × Slice LspTextEdit)
  deriving DecidableEq, Repr

/-- `sglsp.Command`. -/
structure LspCommand where
  Title : String
  Command : String
  Arguments : Slice GoAny
  deriving DecidableEq, Repr

/-- `lsp.CodeActionKind`; the converter only uses `QuickFix`. -/
inductive CodeActionKind where
  | QuickFix
  | Empty
  deriving DecidableEq, Repr

/-- `lsp.CodeAction`; `Data` is a `*lsp.CodeActionData`, a UUID. -/
structure LspCodeAction where
  Title : String
  Kind : CodeActionKind
  Diagnostics : Slice Diagnostic
  IsPreferred : Option Bool
  Edit : Option LspWorkspaceEdit
  Command : Option LspCommand
  Data : Option UUID
  deriving DecidableEq, Repr

/-! ## domain/ide/converter -/

/-- `converter.FromPosition`. -/
def FromPosition (pos : LspPosition) : Position :=
  { Line := pos.Line, Character := pos.Character }

/-- `converter.FromRange`. -/
def FromRange (lspRange : LspRange) : Range :=
  { Start := FromPosition lspRange.Start, End := FromPosition lspRange.End }

/-- `converter.ToPosition`. -/
def ToPosition (p : Position) : LspPosition :=
  { Line := p.Line, Character := p.Character }

/-- `converter.ToRange`. -/
def ToRange (r : Range) : LspRange :=
  { Start := ToPosition r.Start, End := ToPosition r.End }

/-- `converter.ToSeverity`: the switch, case by case, with its default. -/
def ToSeverity (severity : Severity) : DiagnosticSeverity :=
  match severity with
  | .Critical => .DiagnosticsSeverityError
  | .High => .DiagnosticsSeverityError
  | .Medium => .DiagnosticsSeverityWarning
  | .Low => .DiagnosticsSeverityInformation
  | _ => .DiagnosticsSeverityHint

/-- The diagnostic the loop body of `converter.ToDiagnostics` builds for
one issue; `s` is the text of the description URL, empty when there is none. -/
def ToDiagnostic (issue : Issue) : Diagnostic :=
  let s := match issue.IssueDescriptionURL with
    | none => ""
    | some u => u.String
  { Range := ToRange issue.Range
    Severity := ToSeverity issue.Severity
    Code := issue.ID
    Source := issue.Product
    Message := issue.Message
    Href := s }

/-- `converter.ToDiagnostics`: starts from the empty, non-nil slice and
appends one diagnostic per issue. -/
def ToDiagnostics (issues : Slice Issue) : Slice Diagnostic :=
  issues.toList.foldl (fun diagnostics issue => diagnostics.append (ToDiagnostic issue))
    (Slice.items [])

/-- `converter.ToCommand`. -/
def ToCommand (command : Option CommandData) : Option LspCommand :=
  match command with
  | none => none
  | some c => some { Title := c.Title, Command := c.CommandId, Arguments := c.Arguments }

/-- `converter.ToTextEdit`. -/
def ToTextEdit (edit : TextEdit) : LspTextEdit :=
  { Range := ToRange edit.Range, NewText := edit.NewText }

/-- `converter.ToTextEdits`: the named result starts nil and grows by
`append`. -/
def ToTextEdits (edits : Slice TextEdit) : Slice LspTextEdit :=
  edits.toList.foldl (fun lspEdits edit => lspEdits.append (ToTextEdit edit)) Slice.nil

/-- Go's `m[k] = v` on a map kept as an association list: the entry of an
existing key is replaced in place, a new key is added at the end. -/
def mapSet {K V : Type} [DecidableEq K] (m : List (K × V)) (k : K) (v : V) : List (K × V) :=
  match m with
  | [] => [(k, v)]
  | (k', v') :: rest => if k' = k then (k, v) :: rest else (k', v') :: mapSet rest k v

/-- Go's `m[k]` with the comma-ok form. -/
def mapGet {K V : Type} [DecidableEq K] (m : List (K × V)) (k : K) : Option V :=
  match m with
  | [] => none
  | (k', v') :: rest => if k' = k then some v' else mapGet rest k

/-- `converter.ToWorkspaceEdit`. `PathToUri` is `uri.PathToUri`
(internal/uri, not among the sources), taken as a parameter. -/
def ToWorkspaceEdit (PathToUri : String → String) (edit : Option WorkspaceEdit) :
    Option LspWorkspaceEdit :=
  match edit with
  | none => none
  | some e =>
    let lspMap := e.Changes.foldl
      (fun lspMap kv => mapSet lspMap (PathToUri kv.1) (ToTextEdits kv.2)) []
    some { Changes := lspMap }

/-- `converter.ToCodeAction`. -/
def ToCodeAction (PathToUri : String → String) (issue : Issue) (action : CodeAction) :
    LspCodeAction :=
  let id : Option UUID := match action.Uuid with
    | none => none
    | some u => some u
  { Title := action.Title
    Kind := .QuickFix
    Diagnostics := ToDiagnostics (Slice.items [issue])
    IsPreferred := action.IsPreferred
    Edit := ToWorkspaceEdit PathToUri action.Edit
    Command := ToCommand action.Command
    Data := id }

/-- `converter.ToCodeActions`: the named result `actions` starts nil; the
two nested loops append one converted action per issue and code action. -/
def ToCodeActions (PathToUri : String → String) (issues : Slice Issue) : Slice LspCodeAction :=
  issues.toList.foldl
    (fun actions issue =>
      issue.CodeActions.toList.foldl
        (fun actions action => actions.append (ToCodeAction PathToUri issue action))
        actions)
    Slice.nil

/-! ## Go errors -/

/-- A Go `error` value, as far as the embedded code builds one: the
`missingKeyError` of the code-action service, or an error made from a text
(`errors.New`, `fmt.Errorf`). -/
inductive GoError where
  | missingKeyError
  | errorString (msg : String)
  deriving DecidableEq, Repr

/-- `err.Error()`. -/
def GoError.Error : GoError → String
  | .missingKeyError => "code action lookup key is missing"
  | .errorString msg => msg

/-- Go's `strings.Contains(s, substr)`, as a proposition on the characters. -/
def Contains (s substr : String) : Prop := substr.data <:+: s.data

instance (s substr : String) : Decidable (Contains s substr) := by
  unfold Contains
  infer_instance

/-! ## application/watcher -/

/-- Modelled from the spec: application/watcher/file_watcher.go is not among
the sources (only its tests are). The spec: "A file is dirty from the first
changed notification until the next saved notification for the same URI;
unseen URIs are clean", the state being "scoped per URI string". The state is
the collection of URIs currently dirty. -/
structure FileWatcher where
  changedFiles : List String
  deriving DecidableEq, Repr

/-- Modelled from the spec: `watcher.NewFileWatcher`, no URI seen yet. -/
def NewFileWatcher : FileWatcher := { changedFiles := [] }

namespace FileWatcher

/-- Modelled from the spec: `IsDirty(uri)`. -/
def IsDirty (w : FileWatcher) (uri : String) : Bool :=
  w.changedFiles.contains uri

/-- Modelled from the spec: `SetFileAsChanged(uri)` marks the URI dirty. -/
def SetFileAsChanged (w : FileWatcher) (uri : String) : FileWatcher :=
  if w.changedFiles.contains uri then w else { changedFiles := uri :: w.changedFiles }

/-- Modelled from the spec: `SetFileAsSaved(uri)` makes the URI clean again. -/
def SetFileAsSaved (w : FileWatcher) (uri : String) : FileWatcher :=
  { changedFiles := w.changedFiles.filter (fun u => u != uri) }

end FileWatcher

/-- One notification sent to the file watcher. -/
inductive WatcherCall where
  | changed (uri : String)
  | saved (uri : String)
  deriving DecidableEq, Repr

/-- The URI a notification is about. -/
def WatcherCall.uri : WatcherCall → String
  | .changed u => u
  | .saved u => u

/-- The watcher after one notification. -/
def FileWatcher.call (w : FileWatcher) : WatcherCall → FileWatcher
  | .changed u => w.SetFileAsChanged u
  | .saved u => w.SetFileAsSaved u

/-- The watcher after a sequence of notifications, first to last. -/
def FileWatcher.calls (w : FileWatcher) (cs : List WatcherCall) : FileWatcher :=
  cs.foldl FileWatcher.call w

/-! ## domain/vulnmap/command.go: the command identifiers -/

def NavigateToRangeCommand : String := "vulnmap.navigateToRange"
def WorkspaceScanCommand : String := "vulnmap.workspace.scan"
def WorkspaceFolderScanCommand : String := "vulnmap.workspaceFolder.scan"
def OpenBrowserCommand : String := "vulnmap.openBrowser"
def LoginCommand : String := "vulnmap.login"
def CopyAuthLinkCommand : String := "vulnmap.copyAuthLink"
def LogoutCommand : String := "vulnmap.logout"
def TrustWorkspaceFoldersCommand : String := "vulnmap.trustWorkspaceFolders"
def OpenLearnLesson : String := "vulnmap.openLearnLesson"
def GetLearnLesson : String := "vulnmap.getLearnLesson"
def GetSettingsSastEnabled : String := "vulnmap.getSettingsSastEnabled"
def GetActiveUserCommand : String := "vulnmap.getActiveUser"
def ReportAnalyticsCommand : String := "vulnmap.reportAnalytics"
def CodeFixCommand : String := "vulnmap.code.fix"
def CodeSubmitFixFeedback : String := "vulnmap.code.submitFixFeedback"

/-- Every identifier of the `const` block of domain/vulnmap/command.go, in
the order of declaration. -/
def declaredCommandIds : List String :=
  [NavigateToRangeCommand, WorkspaceScanCommand, WorkspaceFolderScanCommand,
   OpenBrowserCommand, LoginCommand, CopyAuthLinkCommand, LogoutCommand,
   TrustWorkspaceFoldersCommand, OpenLearnLesson, GetLearnLesson,
   GetSettingsSastEnabled, GetActiveUserCommand, ReportAnalyticsCommand,
   CodeFixCommand, CodeSubmitFixFeedback]

/-! ## domain/ide/command/command_factory.go -/

/-- A value of one of the interface types handed to the factory (server,
authentication service, learn service, notifier, issue provider, HTTP
client): only its identity matters here. -/
abbrev Handle := Nat

/-- The collaborators `CreateFromCommandData` receives, and the API client
the `GetSettingsSastEnabled` case builds from the current configuration. -/
structure CommandDeps where
  srv : Handle
  authService : Handle
  learnService : Handle
  notifier : Handle
  issueProvider : Handle
  codeApiClient : Handle
  newVulnmapApiClient : Handle
  deriving DecidableEq, Repr

/-- The command structs of package `command`, one constructor per struct
with the fields the factory fills in. -/
inductive Command where
  | navigateToRangeCommand (command : CommandData) (srv : Handle)
  | workspaceScanCommand (command : CommandData) (srv : Handle)
  | workspaceFolderScanCommand (command : CommandData) (srv : Handle)
  | openBrowserCommand (command : CommandData)
  | loginCommand (command : CommandData) (authService notifier : Handle)
  | copyAuthLinkCommand (command : CommandData) (authService notifier : Handle)
  | logoutCommand (command : CommandData) (authService : Handle)
  | trustWorkspaceFoldersCommand (command : CommandData) (notifier : Handle)
  | getLearnLesson (command : CommandData) (srv learnService : Handle)
  | openLearnLesson (command : CommandData) (srv learnService : Handle)
  | sastEnabled (command : CommandData) (apiClient : Handle)
  | getActiveUser (command : CommandData) (authService notifier : Handle)
  | reportAnalyticsCommand (command : CommandData)
  | fixCodeIssue (command : CommandData) (issueProvider notifier : Handle)
  | codeFixFeedback (command : CommandData) (apiClient : Handle)
  deriving DecidableEq, Repr

/-- `command.CreateFromCommandData`: the switch over `commandData.CommandId`,
case by case in source order, then the `fmt.Errorf` after it. `sprintV` is
the rendering of the command data by the `%v` verb of package fmt. -/
def CreateFromCommandData (sprintV : CommandData → String) (commandData : CommandData)
    (d : CommandDeps) : Except GoError Command :=
  if commandData.CommandId = NavigateToRangeCommand then
    .ok (.navigateToRangeCommand commandData d.srv)
  else if commandData.CommandId = WorkspaceScanCommand then
    .ok (.workspaceScanCommand commandData d.srv)
  else if commandData.CommandId = WorkspaceFolderScanCommand then
    .ok (.workspaceFolderScanCommand commandData d.srv)
  else if commandData.CommandId = OpenBrowserCommand then
    .ok (.openBrowserCommand commandData)
  else if commandData.CommandId = LoginCommand then
    .ok (.loginCommand commandData d.authService d.notifier)
  else if commandData.CommandId = CopyAuthLinkCommand then
    .ok (.copyAuthLinkCommand commandData d.authService d.notifier)
  else if commandData.CommandId = LogoutCommand then
    .ok (.logoutCommand commandData d.authService)
  else if commandData.CommandId = TrustWorkspaceFoldersCommand then
    .ok (.trustWorkspaceFoldersCommand commandData d.notifier)
  else if commandData.CommandId = GetLearnLesson then
    .ok (.getLearnLesson commandData d.srv d.learnService)
  else if commandData.CommandId = OpenLearnLesson then
    .ok (.openLearnLesson commandData d.srv d.learnService)
  else if commandData.CommandId = GetSettingsSastEnabled then
    .ok (.sastEnabled commandData d.newVulnmapApiClient)
  else if commandData.CommandId = GetActiveUserCommand then
    .ok (.getActiveUser commandData d.authService d.notifier)
  else if commandData.CommandId = ReportAnalyticsCommand then
    .ok (.reportAnalyticsCommand commandData)
  else if commandData.CommandId = CodeFixCommand then
    .ok (.fixCodeIssue commandData d.issueProvider d.notifier)
  else if commandData.CommandId = CodeSubmitFixFeedback then
    .ok (.codeFixFeedback commandData d.codeApiClient)
  else
    .error (.errorString ("unknown command " ++ sprintV commandData))

/-! ## application/codeaction -/

/-- `lsp.CodeActionParams`, with the fields the service reads: the URI of
`TextDocument` and the requested range. -/
structure CodeActionParams where
  URI : String
  Range : LspRange
  deriving DecidableEq, Repr

/-- An entry of the resolution table: the code action and the issue it
belongs to. -/
structure cachedAction where
  issue : Issue
  action : CodeAction

/-- Modelled from the spec: application/codeaction/codeaction.go is not among
the sources (only its tests are). The service holds the IssueProvider
capability (`IssuesFor(path, range)`) and the resolution table, "a mapping
from action identifier (UUID) to the originating Issue", filled from the
IssueProvider query of a listing. The FileWatcher is shared with the editor
event handlers, so it is passed to the listing as the state it has at the
time of the call. -/
structure CodeActionsService where
  IssuesProvider : String → Range → Slice Issue
  actionsCache : List (UUID × cachedAction)

/-- Modelled from the spec: `codeaction.NewService`, with an empty
resolution table. -/
def NewService (issuesProvider : String → Range → Slice Issue) : CodeActionsService :=
  { IssuesProvider := issuesProvider, actionsCache := [] }

/-- Modelled from the spec: the resolution table after a listing, with one
entry per listed code action that has an identifier. -/
def stashActions (cache : List (UUID × cachedAction)) (issues : Slice Issue) :
    List (UUID × cachedAction) :=
  issues.toList.foldl
    (fun cache issue =>
      issue.CodeActions.toList.foldl
        (fun cache action =>
          match action.Uuid with
          | none => cache
          | some u => mapSet cache u { issue := issue, action := action })
        cache)
    cache

/-- Modelled from the spec: `CodeActionsService.GetCodeActions`, section 4.6:
"1. fails closed (returns nil) if the target file is currently dirty per
FileWatcher; 2. queries the IssueProvider for issues intersecting the
requested range; 3. converts each Issue's CodeActions into the wire
representation, stashing an opaque identifier". The conversion is
`converter.ToCodeActions` of the sources; `PathFromUri` is `uri.PathFromUri`.
The result is the listing and the service with its table updated. -/
def CodeActionsService.GetCodeActions (PathToUri PathFromUri : String → String)
    (c : CodeActionsService) (fileWatcher : FileWatcher) (params : CodeActionParams) :
    Slice LspCodeAction × CodeActionsService :=
  if fileWatcher.IsDirty params.URI then
    (Slice.nil, c)
  else
    let path := PathFromUri params.URI
    let r := FromRange params.Range
    let issues := c.IssuesProvider path r
    let actions := ToCodeActions PathToUri issues
    (actions, { c with actionsCache := stashActions c.actionsCache issues })

/-- The zero value `lsp.CodeAction{}`. -/
def LspCodeAction.zero : LspCodeAction :=
  { Title := "", Kind := .Empty, Diagnostics := Slice.nil, IsPreferred := none,
    Edit := none, Command := none, Data := none }

/-- Modelled from the spec: `codeaction.IsMissingKeyError`, true exactly for
the "missing key" classification. -/
def IsMissingKeyError (err : GoError) : Bool :=
  match err with
  | .missingKeyError => true
  | .errorString _ => false

/-- Modelled from the spec: `CodeActionsService.ResolveCodeAction`, section
4.6: "1. fails with MissingKeyError if the action carries no identifier;
2. fails with key does not exist if the identifier cannot be matched back to
a live deferred edit/command; 3. if the action references a Command instead
of a deferred edit, dispatches to the command-execution layer; 4. on success,
materializes the deferred edit by invoking its producer function exactly
once, attaches it to the resolved action, and returns it". The tests
Test_ResolveCodeAction_UnknownCommandIsReported and
Test_ResolveCodeAction_CommandIsExecuted pass an identifier that is in no
table together with a Command and expect the outcome of the command, so the
dispatch of step 3 comes before the lookup of step 2. `commandService` is
the command-execution layer (`ExecuteCommandData`); the spec does not say
what is returned next to a nil error on that path, the zero action is used. -/
def CodeActionsService.ResolveCodeAction (PathToUri : String → String)
    (c : CodeActionsService) (commandService : CommandData → Except GoError Unit)
    (action : LspCodeAction) : Except GoError LspCodeAction :=
  match action.Data with
  | none => .error .missingKeyError
  | some key =>
    match action.Command with
    | some cmd =>
      match commandService
          { Title := cmd.Title, CommandId := cmd.Command, Arguments := cmd.Arguments } with
      | .error err => .error err
      | .ok _ => .ok LspCodeAction.zero
    | none =>
      match mapGet c.actionsCache key with
      | none => .error (.errorString "key does not exist")
      | some cached =>
        match cached.action.DeferredEdit with
        | none => .error (.errorString "key does not exist")
        | some producer =>
          let edit := producer ()
          let resolvedAction := ToCodeAction PathToUri cached.issue cached.action
          .ok { resolvedAction with Edit := ToWorkspaceEdit PathToUri edit }

/-- Modelled from the spec: the command-execution layer behind
`ExecuteCommandData` (command_service.go is not among the sources): the
command is created by `CreateFromCommandData` of the sources, an unknown
identifier is reported as its error, and a created command is run by
`execute`. -/
def ExecuteCommandData (sprintV : CommandData → String) (d : CommandDeps)
    (execute : Command → Except GoError Unit) (commandData : CommandData) :
    Except GoError Unit :=
  match CreateFromCommandData sprintV commandData d with
  | .error err => .error err
  | .ok cmd => execute cmd

/-- The notifications of `cs` end, as far as `u` is concerned, with a
"changed": there is a `changed u` in `cs` and no later call is about `u`. -/
def LastCallIsChanged (u : String) (cs : List WatcherCall) : Prop :=
  ∃ pre post, cs = pre ++ WatcherCall.changed u :: post ∧ ∀ c ∈ post, c.uri ≠ u

/-- Go's `append(s, xs...)`: appending nothing leaves the slice as it is,
nil included. -/
def Slice.appendAll {α : Type} (s : Slice α) (xs : List α) : Slice α :=
  match xs with
  | [] => s
  | _ :: _ => Slice.items (s.toList ++ xs)

/-- Every (issue, code action) pair of an issue list, in issue order and
then action order. -/
def actionPairs (issues : Slice Issue) : List (Issue × CodeAction) :=
  issues.toList.flatMap (fun issue => issue.CodeActions.toList.map (fun action => (issue, action)))

/-! ## Example values, taken from the tests -/

/-- `exampleRange` of codeaction_test.go. -/
def exampleRange : Range :=
  { Start := { Line := 10, Character := 0 }, End := { Line := 10, Character := 8 } }

/-- `fakeRange` of fake_vulnmap_code_api_service.go. -/
def fakeRange : Range :=
  { Start := { Line := 0, Character := 3 }, End := { Line := 0, Character := 7 } }

/-- `code.FakeCommand` (fake_vulnmap_code_api_service.go). -/
def FakeCommand : CommandData :=
  { Title := "Code Flow blah blah fake"
    CommandId := NavigateToRangeCommand
    Arguments := Slice.items [GoAny.str "path", GoAny.range fakeRange] }

/-- An issue with empty texts, the zero range and no code action. -/
def emptyIssue : Issue :=
  { ID := "", Severity := .Critical, Range := ⟨⟨0, 0⟩, ⟨0, 0⟩⟩, Message := "",
    FormattedMessage := "", AffectedFilePath := "", Product := "", References := Slice.nil,
    IssueDescriptionURL := none, CodeActions := Slice.nil, CodelensCommands := Slice.nil,
    AdditionalData := none }

/-- The code action of Test_GetCodeActions_ReturnsCorrectActions: a title
and an immediate command. -/
def fixThisCommandAction : CodeAction :=
  { Title := "Fix this", IsPreferred := none, Edit := none, DeferredEdit := none,
    Command := some FakeCommand, DeferredCommand := none, Uuid := none }

/-- The issue of Test_GetCodeActions_ReturnsCorrectActions. -/
def issueWithCommandAction : Issue :=
  { emptyIssue with CodeActions := Slice.items [fixThisCommandAction] }

/-- `mockEdit` of the tests: one text edit for "someUri". -/
def mockEdit : WorkspaceEdit :=
  { Changes := [("someUri",
      Slice.items [{ Range := ⟨⟨1, 2⟩, ⟨3, 4⟩⟩, NewText := "someText" }])] }

/-- The code action of Test_ResolveCodeAction_ReturnsCorrectEdit: a deferred
edit and an identifier. -/
def deferredEditAction : CodeAction :=
  { Title := "Fix this", IsPreferred := none, Edit := none,
    DeferredEdit := some (fun _ => some mockEdit),
    Command := none, DeferredCommand := none, Uuid := some ⟨42⟩ }

/-- The issue of Test_ResolveCodeAction_ReturnsCorrectEdit. -/
def issueWithDeferredAction : Issue :=
  { emptyIssue with CodeActions := Slice.items [deferredEditAction] }

/-- `documentUriExample` of codeaction_test.go with `exampleRange`. -/
def exampleParams : CodeActionParams :=
  { URI := "file:///path/to/file", Range := ToRange exampleRange }

/-- The action "Made up CA" of the resolve tests of codeaction_test.go, with
the identifier and command the test gives it. -/
def madeUpAction (data : Option UUID) (command : Option LspCommand) : LspCodeAction :=
  { Title := "Made up CA", Kind := .Empty, Diagnostics := Slice.nil, IsPreferred := none,
    Edit := none, Command := command, Data := data }

/-- The command data of Test_ResolveCodeAction_UnknownCommandIsReported. -/
def testCommandData : CommandData :=
  { Title := "test", CommandId := "test", Arguments := Slice.items [GoAny.str "test"] }

/-- Collaborators for the examples: only their identity matters. -/
def exampleDeps : CommandDeps :=
  { srv := 1, authService := 2, learnService := 3, notifier := 4, issueProvider := 5,
    codeApiClient := 6, newVulnmapApiClient := 7 }

/-! ## Code-action resolution with its producer invocations -/

/-- Modelled from the spec: `CodeActionsService.ResolveCodeAction` run in a
world that the producers act on. A Go producer is a `func()` that may have
effects; `invoke producer s` is one call of it in the world `s`, what it
returns and the world after the call, and a producer that is called again is
called in the world the call before left. The control flow is that of
`ResolveCodeAction`, which is this function for producers without effects;
the result is what is returned, the service after the call and the world
after the call. -/
def CodeActionsService.ResolveCodeActionIn {σ : Type} (PathToUri : String → String)
    (c : CodeActionsService) (commandService : CommandData → Except GoError Unit)
    (invoke : (Unit → Option WorkspaceEdit) → σ → Option WorkspaceEdit × σ)
    (action : LspCodeAction) (s : σ) :
    Except GoError LspCodeAction × CodeActionsService × σ :=
  match action.Data with
  | none => (.error .missingKeyError, c, s)
  | some key =>
    match action.Command with
    | some cmd =>
      match commandService
          { Title := cmd.Title, CommandId := cmd.Command, Arguments := cmd.Arguments } with
      | .error err => (.error err, c, s)
      | .ok _ => (.ok LspCodeAction.zero, c, s)
    | none =>
      match mapGet c.actionsCache key with
      | none => (.error (.errorString "key does not exist"), c, s)
      | some cached =>
        match cached.action.DeferredEdit with
        | none => (.error (.errorString "key does not exist"), c, s)
        | some producer =>
          let called := invoke producer s
          let resolvedAction := ToCodeAction PathToUri cached.issue cached.action
          (.ok { resolvedAction with Edit := ToWorkspaceEdit PathToUri called.1 }, c, called.2)

/-- A world that counts the calls of producers. -/
def countingInvoke (producer : Unit → Option WorkspaceEdit) (calls : Nat) :
    Option WorkspaceEdit × Nat :=
  (producer (), calls + 1)

/-- The resolution table files every entry under the Uuid of its own code
action. -/
def WellKeyed (cache : List (UUID × cachedAction)) : Prop :=
  ∀ (k : UUID) (cached : cachedAction), mapGet cache k = some cached →
    cached.action.Uuid = some k

/-! ## domain/vulnmap: construction of code actions -/

/-- Modelled from the spec: `vulnmap.NewCodeAction` (domain/vulnmap/codeaction.go
is not among the sources, only its tests are). "A CodeAction must have at
least one of {edit, command, deferred-edit, deferred-command}; construction
fails otherwise"; an immediate action has no deferred field and no
identifier. -/
def NewCodeAction (title : String) (edit : Option WorkspaceEdit)
    (command : Option CommandData) : Except GoError CodeAction :=
  match edit, command with
  | none, none =>
    .error (.errorString "a non-deferred action must have either an edit or a command")
  | _, _ =>
    .ok { Title := title, IsPreferred := none, Edit := edit, DeferredEdit := none,
          Command := command, DeferredCommand := none, Uuid := none }

/-- Modelled from the spec: `vulnmap.NewPreferredCodeAction`, a
`NewCodeAction` whose result is marked preferred
(Test_NewPreferredCodeAction). -/
def NewPreferredCodeAction (title : String) (edit : Option WorkspaceEdit)
    (command : Option CommandData) : Except GoError CodeAction :=
  match NewCodeAction title edit command with
  | .error err => .error err
  | .ok action => .ok { action with IsPreferred := some true }

/-- Modelled from the spec: `vulnmap.NewDeferredCodeAction`. The action
carries the producers it is given, no immediate edit or command, and "a
generated unique identifier (required when deferred, used as the resolution
key)"; `newUuid` is the identifier the generator hands out for this call. -/
def NewDeferredCodeAction (newUuid : UUID) (title : String)
    (deferredEdit : Option (Unit → Option WorkspaceEdit))
    (deferredCommand : Option (Unit → Option CommandData)) : Except GoError CodeAction :=
  match deferredEdit, deferredCommand with
  | none, none => .error (.errorString "deferredEdit or deferredCommand must be set")
  | _, _ =>
    .ok { Title := title, IsPreferred := none, Edit := none, DeferredEdit := deferredEdit,
          Command := none, DeferredCommand := deferredCommand, Uuid := some newUuid }

/-- Go's `err != nil` for a result of the embedding. -/
def Failed {α : Type} (r : Except GoError α) : Prop :=
  ∃ err, r = .error err

/-- `mockCommand` of codeaction_test.go (domain/vulnmap). -/
def mockCommand : CommandData :=
  { Title := "command", CommandId := "", Arguments := Slice.nil }

/-! ## infrastructure/cli/environment.go -/

def ApiEnvVar : String := "VULNMAP_API"
def TokenEnvVar : String := "VULNMAP_TOKEN"
def DisableAnalyticsEnvVar : String := "VULNMAP_CFG_DISABLE_ANALYTICS"
def IntegrationNameEnvVarKey : String := "VULNMAP_INTEGRATION_NAME"
def IntegrationVersionEnvVarKey : String := "VULNMAP_INTEGRATION_VERSION"
def IntegrationEnvironmentEnvVarKey : String := "VULNMAP_INTEGRATION_ENVIRONMENT"
def IntegrationEnvironmentVersionEnvVar : String := "VULNMAP_INTEGRATION_ENVIRONMENT_VERSION"
def IntegrationEnvironmentEnvVarValue : String := "language-server"
def VulnmapOauthTokenEnvVar : String := "VULNMAP_OAUTH_TOKEN"

/-- `lsp.AuthenticationMethod`, as far as the environment code tells the
values apart: OAuth, or anything else. -/
inductive AuthenticationMethod where
  | OAuthAuthentication
  | TokenAuthentication
  deriving DecidableEq, Repr

/-- `oauth2.Token`, with the field the environment code reads. -/
structure OAuthToken where
  AccessToken : String
  deriving DecidableEq, Repr

/-- What `config.CurrentConfig()` answers to the getters that
`AppendCliEnvironmentVariables` calls; `TokenAsOAuthToken` is the outcome of
parsing the stored token. The two keys `auth.CONFIG_KEY_OAUTH_TOKEN` and
`configuration.FF_OAUTH_AUTH_FLOW_ENABLED` are constants of an external
library, kept here as values given with the configuration. -/
structure CliConfig where
  AuthenticationMethod : AuthenticationMethod
  TokenAsOAuthToken : Except GoError OAuthToken
  Token : String
  VulnmapApi : String
  IsTelemetryEnabled : Bool
  IntegrationName : String
  IntegrationVersion : String
  IdeName : String
  IdeVersion : String
  CONFIG_KEY_OAUTH_TOKEN : String
  FF_OAUTH_AUTH_FLOW_ENABLED : String

/-- `strings.Split(s, "=")[0]`: the text before the first '=', the whole
text when there is none. -/
def envKey (s : String) : String :=
  String.mk (s.data.takeWhile (fun ch => ch != '='))

/-- The keys of the `valuesToRemove` map literal. -/
def valuesToRemove (currentConfig : CliConfig) : List String :=
  [ApiEnvVar, TokenEnvVar, VulnmapOauthTokenEnvVar, DisableAnalyticsEnvVar,
   currentConfig.CONFIG_KEY_OAUTH_TOKEN, currentConfig.FF_OAUTH_AUTH_FLOW_ENABLED]

/-- The first loop of `AppendCliEnvironmentVariables`: the entries whose key
is in `valuesToRemove` are skipped, the others appended to `updatedEnv`. -/
def removeExistingEnvVars (currentConfig : CliConfig) (currentEnv : Slice String)
    (updatedEnv : Slice String) : Slice String :=
  currentEnv.toList.foldl
    (fun updatedEnv s =>
      if (valuesToRemove currentConfig).contains (envKey s) then updatedEnv
      else updatedEnv.append s)
    updatedEnv

/-- The `if appendToken` block of `AppendCliEnvironmentVariables`. -/
def appendTokenVars (currentConfig : CliConfig) (appendToken : Bool)
    (updatedEnv : Slice String) : Slice String :=
  if appendToken then
    if currentConfig.AuthenticationMethod = .OAuthAuthentication then
      match currentConfig.TokenAsOAuthToken with
      | .ok oAuthToken =>
        if oAuthToken.AccessToken.length > 0 then
          updatedEnv.append (VulnmapOauthTokenEnvVar ++ "=" ++ oAuthToken.AccessToken)
        else updatedEnv
      | .error _ => updatedEnv
    else
      updatedEnv.append (TokenEnvVar ++ "=" ++ currentConfig.Token)
  else updatedEnv

/-- The API endpoint and analytics blocks of `AppendCliEnvironmentVariables`. -/
def appendApiAndAnalyticsVars (currentConfig : CliConfig) (updatedEnv : Slice String) :
    Slice String :=
  let updatedEnv :=
    if currentConfig.VulnmapApi ≠ "" then
      updatedEnv.append (ApiEnvVar ++ "=" ++ currentConfig.VulnmapApi)
    else updatedEnv
  if !currentConfig.IsTelemetryEnabled then
    updatedEnv.append (DisableAnalyticsEnvVar ++ "=1")
  else updatedEnv

/-- The integration block of `AppendCliEnvironmentVariables`. -/
def appendIntegrationVars (currentConfig : CliConfig) (updatedEnv : Slice String) :
    Slice String :=
  if currentConfig.IntegrationName ≠ "" then
    (((updatedEnv.append (IntegrationNameEnvVarKey ++ "=" ++ currentConfig.IntegrationName)).append
      (IntegrationVersionEnvVarKey ++ "=" ++ currentConfig.IntegrationVersion)).append
      (IntegrationEnvironmentEnvVarKey ++ "=" ++ currentConfig.IdeName)).append
      (IntegrationEnvironmentVersionEnvVar ++ "=" ++ currentConfig.IdeVersion)
  else updatedEnv

/-- `cli.AppendCliEnvironmentVariables`: the named result `updatedEnv`
starts nil, takes the input entries that are kept, then the entries made
from the configuration, block by block in source order. -/
def AppendCliEnvironmentVariables (currentConfig : CliConfig) (currentEnv : Slice String)
    (appendToken : Bool) : Slice String :=
  let updatedEnv := removeExistingEnvVars currentConfig currentEnv Slice.nil
  let updatedEnv := appendTokenVars currentConfig appendToken updatedEnv
  let updatedEnv := appendApiAndAnalyticsVars currentConfig updatedEnv
  appendIntegrationVars currentConfig updatedEnv

/-- The configuration of the test "Removes existing vulnmap token env
variables": OAuth with a token that parses to the access token "testToken". -/
def oauthTestConfig : CliConfig :=
  { AuthenticationMethod := .OAuthAuthentication
    TokenAsOAuthToken := .ok { AccessToken := "testToken" }
    Token := "\x7b\"access_token\": \"testToken\"\x7d"
    VulnmapApi := "https://app.vulnmap.khulnasoft.com/api"
    IsTelemetryEnabled := false
    IntegrationName := "ECLIPSE"
    IntegrationVersion := "20230606.182718"
    IdeName := "Eclipse"
    IdeVersion := "4.27.0"
    CONFIG_KEY_OAUTH_TOKEN := "INTERNAL_OAUTH_TOKEN_STORAGE"
    FF_OAUTH_AUTH_FLOW_ENABLED := "INTERNAL_VULNMAP_OAUTH_ENABLED" }

/-! ## The issue store of a folder -/

/-- Modelled from the spec: the IssueStore of a folder (domain/ide/workspace
is not among the sources, only its tests are). Section 4.5: "downstream
consumers (Folder) key storage by (path, product) so that one product's
results never overwrite another's for the same path". The store is a map
from (path, product) to the issue list kept for that pair. -/
abbrev IssueStore := List ((String × String) × Slice Issue)

namespace IssueStore

/-- Modelled from the spec: `SetIssues(path, product, issues)`, "replaces all
issues for that path belonging to that product; issues from other products
for the same path are preserved (merge-by-product, not merge-by-path)". -/
def SetIssues (store : IssueStore) (path product : String) (issues : Slice Issue) :
    IssueStore :=
  mapSet store (path, product) issues

/-- The issues stored for a path that belong to a product: the entry of the
pair, when there is one. -/
def issuesOf (store : IssueStore) (path product : String) : Option (Slice Issue) :=
  mapGet store (path, product)

/-- Every issue stored for a path, whatever its product, in store order. -/
def allIssues (store : IssueStore) (path : String) : List Issue :=
  store.flatMap (fun entry => if entry.1.1 = path then entry.2.toList else [])

/-- Modelled from the spec: `AllIssuesFor(path) -> []Issue`, "unfiltered";
nil when nothing is stored for the path. -/
def AllIssuesFor (store : IssueStore) (path : String) : Slice Issue :=
  Slice.nil.appendAll (allIssues store path)

/-- Modelled from the spec: `IssuesFor(path, range) -> []Issue`, "returns
issues whose range intersects the given range. Must return nil (not an empty
slice) when no issues exist for the path, and must return an
empty-but-non-nil slice when issues exist for the path but none intersect".
`intersects` is the range-overlap test of `vulnmap.Range`, which is not
among the sources. -/
def IssuesFor (intersects : Range → Range → Bool) (store : IssueStore) (path : String)
    (r : Range) : Slice Issue :=
  match allIssues store path with
  | [] => Slice.nil
  | issue :: rest =>
    Slice.items ((issue :: rest).filter (fun i => intersects i.Range r))

/-- The stored paths, one entry per (path, product) pair. -/
def paths (store : IssueStore) : List String :=
  store.map (fun entry => entry.1.1)

end IssueStore

/-- A range-overlap test for the examples: the two ranges share a line. -/
def sharesLine (a b : Range) : Bool :=
  decide (a.Start.Line ≤ b.End.Line) && decide (b.Start.Line ≤ a.End.Line)

/-- An issue of the given product at the given path and line. -/
def issueAt (path product : String) (line : Int) : Issue :=
  { emptyIssue with
    AffectedFilePath := path, Product := product,
    Range := ⟨⟨line, 0⟩, ⟨line, 8⟩⟩ }

/-- A store holding one code issue for "a.go", on line 1. -/
def storeWithCodeIssue : IssueStore :=
  IssueStore.SetIssues [] "a.go" "code" (Slice.items [issueAt "a.go" "code" 1])

/-! ## domain/ide/workspace: folders and the workspace -/

/-- Modelled from the spec: a path lies under a folder root when the root is
a prefix of it (section 4.4, "longest-prefix match over folder roots"). -/
def FolderContains (root path : String) : Bool :=
  root.data.isPrefixOf path.data

/-- Modelled from the spec: the Scanner capability of section 6,
`Scan(ctx, path, workingDir) -> ([]Issue, error)`; `id` tells scanner
objects apart. -/
structure Scanner where
  id : Nat
  Scan : String → String → Except GoError (Slice Issue)

/-- One invocation of a scanner: which scanner, the path scanned, and the
folder root it was scanned for. -/
structure ScanCall where
  scanner : Nat
  path : String
  workDir : String
  deriving DecidableEq, Repr

/-- What the workspace sends to the editor through the Notifier: a request to
trust a folder, or the diagnostics published for a path. -/
inductive Notification where
  | trustRequest (folderPath : String)
  | publishDiagnostics (path : String) (diagnostics : Slice Diagnostic)
  deriving DecidableEq, Repr

/-- The part of the global configuration the workspace reads and writes: the
trust-enforcement flag and the trusted-folders list. -/
structure TrustConfig where
  trustedFolderFeatureEnabled : Bool
  trustedFolders : List String
  deriving DecidableEq, Repr

/-- The state outside the folders: the global configuration, the scanner
invocations made so far and the notifications sent so far, oldest first. -/
structure World where
  config : TrustConfig
  scannerCalls : List ScanCall
  notifications : List Notification
  deriving DecidableEq, Repr

/-- Modelled from the spec: a Folder of section 3, "root path, display name,
a reference to a Scanner, an IssueStore"; `scanCount` is the per-folder scan
counter of section 4.3. -/
structure Folder where
  path : String
  name : String
  scanner : Scanner
  documentDiagnosticCache : IssueStore
  scanCount : Nat

/-- Modelled from the spec: `workspace.NewFolder`, a folder with nothing
stored and nothing scanned. -/
def NewFolder (path name : String) (scanner : Scanner) : Folder :=
  { path := path, name := name, scanner := scanner, documentDiagnosticCache := [],
    scanCount := 0 }

namespace Folder

/-- Modelled from the spec: the trust flag, "derived from global
trusted-folder configuration, re-evaluated on demand": with enforcement off
every folder counts as trusted, otherwise the folder's path has to be in the
trusted-folders list. -/
def IsTrusted (config : TrustConfig) (f : Folder) : Bool :=
  !config.trustedFolderFeatureEnabled || config.trustedFolders.contains f.path

/-- Modelled from the spec: `Folder.AllIssuesFor(path)`. -/
def AllIssuesFor (f : Folder) (path : String) : Slice Issue :=
  f.documentDiagnosticCache.AllIssuesFor path

/-- Modelled from the spec: `Folder.IssuesFor(path, range)`, the
IssueProvider capability. -/
def IssuesFor (intersects : Range → Range → Bool) (f : Folder) (path : String) (r : Range) :
    Slice Issue :=
  f.documentDiagnosticCache.IssuesFor intersects path r

end Folder

/-- The (path, product) pairs of the issues a scan returned. -/
def resultKeys (issues : List Issue) : List (String × String) :=
  (issues.map (fun i => (i.AffectedFilePath, i.Product))).dedup

/-- The stored (path, product) pairs whose path lies under the scanned path. -/
def storedKeysUnder (store : IssueStore) (path : String) : List (String × String) :=
  (store.map (fun entry => entry.1)).filter (fun k => FolderContains path k.1)

/-- Modelled from the spec: the files a scan touches, "including files that
previously had issues but now have none": the stored paths under the scanned
path and the paths of the returned issues. -/
def touchedPaths (store : IssueStore) (path : String) (issues : List Issue) : List String :=
  ((storedKeysUnder store path ++ resultKeys issues).map (fun k => k.1)).dedup

/-- Modelled from the spec: the store after a successful scan; for every
touched (path, product) pair the issues are "replaced wholesale" by those the
scan returned for the pair. -/
def processResults (store : IssueStore) (path : String) (issues : List Issue) : IssueStore :=
  (storedKeysUnder store path ++ resultKeys issues).dedup.foldl
    (fun st k =>
      st.SetIssues k.1 k.2
        (Slice.items (issues.filter (fun i => i.AffectedFilePath = k.1 ∧ i.Product = k.2))))
    store

/-- Modelled from the spec: one scan of a folder, section 4.3. "If the
folder is untrusted and trust-enforcement is enabled, the scan is refused and
a trust-request notification is sent instead; no scanner call occurs. Each
scan increments a per-folder counter before dispatching. On successful scan,
publishes diagnostics for every file touched by the scan". When the scanner
fails the stored issues are left in place and nothing is published. -/
def Folder.scan (f : Folder) (world : World) (path : String) : Folder × World :=
  if f.IsTrusted world.config then
    let f1 := { f with scanCount := f.scanCount + 1 }
    let world1 := { world with
      scannerCalls := world.scannerCalls ++
        [{ scanner := f.scanner.id, path := path, workDir := f.path }] }
    match f.scanner.Scan path f.path with
    | .error _ => (f1, world1)
    | .ok issues =>
      let store := processResults f.documentDiagnosticCache path issues.toList
      let touched := touchedPaths f.documentDiagnosticCache path issues.toList
      ({ f1 with documentDiagnosticCache := store },
        { world1 with
          notifications := world1.notifications ++
            touched.map (fun t =>
              Notification.publishDiagnostics t (ToDiagnostics (store.AllIssuesFor t))) })
  else
    (f, { world with
      notifications := world.notifications ++ [Notification.trustRequest f.path] })

/-- Modelled from the spec: `Folder.ScanFolder(ctx)`, the full-subtree scan. -/
def Folder.ScanFolder (f : Folder) (world : World) : Folder × World :=
  f.scan world f.path

/-- Modelled from the spec: `Folder.ScanFile(ctx, path)`, the single-file scan. -/
def Folder.ScanFile (f : Folder) (world : World) (path : String) : Folder × World :=
  f.scan world path

/-- Modelled from the spec: the Workspace of section 4.4, the set of folders
(one per root path) and the scanner handed to the folders it constructs. -/
structure Workspace where
  folders : List Folder
  scanner : Scanner

namespace Workspace

/-- The root paths of the folders. -/
def paths (w : Workspace) : List String :=
  w.folders.map (fun f => f.path)

/-- Modelled from the spec: `Workspace.AddFolder`; a folder already kept for
the same root is replaced. -/
def AddFolder (w : Workspace) (f : Folder) : Workspace :=
  { w with folders := w.folders.filter (fun g => g.path != f.path) ++ [f] }

/-- The folder kept for a root path. -/
def GetFolder (w : Workspace) (path : String) : Option Folder :=
  w.folders.find? (fun g => g.path == path)

/-- The workspace with the folder of `f`'s root replaced by `f`. -/
def updateFolder (w : Workspace) (f : Folder) : Workspace :=
  { w with folders := w.folders.map (fun g => if g.path = f.path then f else g) }

/-- Modelled from the spec: `GetFolderContaining(path) -> Folder|nil`, "by
longest-prefix match over folder roots". -/
def GetFolderContaining (w : Workspace) (path : String) : Option Folder :=
  w.folders.foldl
    (fun best f =>
      if FolderContains f.path path then
        match best with
        | none => some f
        | some b => if b.path.length < f.path.length then some f else some b
      else best)
    none

/-- A scan of the folder kept for `folderPath`, of `scanPath`; the folder is
put back into the workspace with what the scan stored. -/
def scanFolderAt (w : Workspace) (world : World) (folderPath scanPath : String) :
    Workspace × World :=
  match w.GetFolder folderPath with
  | none => (w, world)
  | some f =>
    let r := f.scan world scanPath
    (w.updateFolder r.1, r.2)

/-- Modelled from the spec: a scan scoped to one folder of the workspace
(`folder.ScanFolder`, the workspace-folder scan command). -/
def ScanFolder (w : Workspace) (world : World) (folderPath : String) : Workspace × World :=
  w.scanFolderAt world folderPath folderPath

/-- Modelled from the spec: the workspace scan command, "fans out scan
commands" to every folder. -/
def ScanWorkspace (w : Workspace) (world : World) : Workspace × World :=
  w.paths.foldl (fun st p => st.1.ScanFolder st.2 p) (w, world)

/-- Modelled from the spec: `TrustFoldersAndScan(ctx, folders)`, "marks
folders trusted (persisted to global config) and triggers a scan for exactly
those folders, not all folders"; the folders are given by their root paths. -/
def TrustFoldersAndScan (w : Workspace) (world : World) (foldersToBeTrusted : List String) :
    Workspace × World :=
  foldersToBeTrusted.foldl
    (fun st p =>
      let world1 := { st.2 with
        config := { st.2.config with trustedFolders := st.2.config.trustedFolders ++ [p] } }
      st.1.ScanFolder world1 p)
    (w, world)

/-- Modelled from the spec: `RemoveFolder`; "removed folders' issues are
discarded, and diagnostics for files under the removed root are cleared by
publishing empty diagnostics", clear first and drop after. -/
def RemoveFolder (w : Workspace) (world : World) (path : String) : Workspace × World :=
  match w.GetFolder path with
  | none => (w, world)
  | some f =>
    ({ w with folders := w.folders.filter (fun g => g.path != path) },
      { world with
        notifications := world.notifications ++
          f.documentDiagnosticCache.paths.dedup.map
            (fun t => Notification.publishDiagnostics t (Slice.items [])) })

end Workspace

/-- `lsp.WorkspaceFolder`. -/
structure WorkspaceFolder where
  Name : String
  Uri : String
  deriving DecidableEq, Repr

/-- `lsp.WorkspaceFoldersChangeEvent`. -/
structure WorkspaceFoldersChangeEvent where
  Added : Slice WorkspaceFolder
  Removed : Slice WorkspaceFolder
  deriving DecidableEq, Repr

/-- Modelled from the spec: `ChangeWorkspaceFolders(ctx, event)`, "applies
added/removed folder diffs": the removed roots are dropped, the added folders
are constructed and, if trusted, scanned. `PathFromUri` is `uri.PathFromUri`. -/
def Workspace.ChangeWorkspaceFolders (PathFromUri : String → String) (w : Workspace)
    (world : World) (event : WorkspaceFoldersChangeEvent) : Workspace × World :=
  let removed := event.Removed.toList.foldl
    (fun st folder => st.1.RemoveFolder st.2 (PathFromUri folder.Uri)) (w, world)
  let added := event.Added.toList.foldl
    (fun (st : Workspace × World) folder =>
      (st.1.AddFolder (NewFolder (PathFromUri folder.Uri) folder.Name st.1.scanner), st.2))
    removed
  event.Added.toList.foldl
    (fun st folder =>
      match st.1.GetFolder (PathFromUri folder.Uri) with
      | none => st
      | some f =>
        if f.IsTrusted st.2.config then st.1.ScanFolder st.2 f.path else st)
    added

/-- The trust requests sent so far for a folder root. -/
def trustRequestsFor (world : World) (folderPath : String) : Nat :=
  world.notifications.count (Notification.trustRequest folderPath)

/-- The scanner invocations made so far for a folder root. -/
def scanCallsFor (world : World) (folderPath : String) : Nat :=
  (world.scannerCalls.filter (fun call => call.workDir = folderPath)).length

/-- A scanner like `vulnmap.TestScanner`: every call succeeds with the issues
that were added to it. -/
def testScanner (id : Nat) (issues : List Issue) : Scanner :=
  { id := id, Scan := fun _ _ => .ok (Slice.items issues) }

/-- The folder "dummy" of execute_command_test.go, with a scanner holding one
test issue. -/
def dummyFolder : Folder :=
  NewFolder "dummy" "dummy" (testScanner 1 [issueAt "dummy/file.txt" "code" 1])

/-- The folder "dontclear" of execute_command_test.go. -/
def dontClearFolder : Folder :=
  NewFolder "dontclear" "dontclear" (testScanner 2 [issueAt "dontclear/file.txt" "code" 1])

/-- Nothing sent or scanned yet, trust enforcement enabled, no trusted folder. -/
def enforcingWorld : World :=
  { config := { trustedFolderFeatureEnabled := true, trustedFolders := [] },
    scannerCalls := [], notifications := [] }

/-- Nothing sent or scanned yet, trust enforcement disabled, as by default in
the tests. -/
def permissiveWorld : World :=
  { config := { trustedFolderFeatureEnabled := false, trustedFolders := [] },
    scannerCalls := [], notifications := [] }

/-- The workspace of Test_executeWorkspaceFolderScanCommand_shouldNotClearOtherFoldersDiagnostics. -/
def twoFolderWorkspace : Workspace :=
  { folders := [dummyFolder, dontClearFolder], scanner := testScanner 0 [] }

/-! ## infrastructure/code/bundle.go: the shard key -/

/-- `Bundle.getShardKey`; `Hash` is `util.Hash` (internal/util, not among the
sources), taken as a parameter. -/
def getShardKey (Hash : String → String) (rootPath : String) (authToken : String) : String :=
  if rootPath.length > 0 then
    Hash rootPath
  else if authToken.length > 0 then
    Hash authToken
  else
    ""

/-- The configuration of the test "Removes existing oauth env variables":
token authentication with the token "testToken". -/
def tokenTestConfig : CliConfig :=
  { oauthTestConfig with
    AuthenticationMethod := .TokenAuthentication
    TokenAsOAuthToken := .error (.errorString "invalid character")
    Token := "testToken" }

/-- The entries of an environment whose key is VULNMAP_TOKEN or
VULNMAP_OAUTH_TOKEN, in order. -/
def tokenEntries (env : Slice String) : List String :=
  env.toList.filter
    (fun s => decide (envKey s = "VULNMAP_TOKEN" ∨ envKey s = "VULNMAP_OAUTH_TOKEN"))

/-! ## Go strings as byte sequences, and package strings -/

/-- A Go string, as the sequence of its bytes; package strings searches and
cuts byte by byte, and positions in a string are byte offsets. -/
abbrev GoString := List Nat

/-- The bytes of an ASCII text, for writing examples. -/
def ascii (s : String) : GoString :=
  s.data.map Char.toNat

/-- The scan of `strings.Replace(s, old, new, -1)` for a non-empty `old`:
`skip` counts the bytes of an occurrence found earlier that are still to be
passed over; with nothing to pass over, an occurrence of `old` starting here
is replaced by `new` and passed over, any other byte is copied. -/
def replaceScan {α : Type} [DecidableEq α] (old new : List α) : Nat → List α → List α
  | _, [] => []
  | skip + 1, _ :: rest => replaceScan old new skip rest
  | 0, b :: rest =>
    if old.isPrefixOf (b :: rest) then new ++ replaceScan old new (old.length - 1) rest
    else b :: replaceScan old new 0 rest

/-- The width `utf8.DecodeRuneInString` reports for the text: the length of
the UTF-8 sequence it begins with, and 1 for a byte that begins none (an
invalid first byte, a wrong continuation byte, a sequence cut short). -/
def utf8Width : GoString → Nat
  | [] => 0
  | s0 :: rest =>
    if s0 < 0x80 then 1
    else if s0 < 0xC2 then 1
    else if s0 ≤ 0xDF then
      match rest with
      | s1 :: _ => if 0x80 ≤ s1 ∧ s1 ≤ 0xBF then 2 else 1
      | [] => 1
    else if s0 ≤ 0xEF then
      match rest with
      | s1 :: s2 :: _ =>
        if (if s0 = 0xE0 then 0xA0 else 0x80) ≤ s1 ∧ s1 ≤ (if s0 = 0xED then 0x9F else 0xBF) then
          if 0x80 ≤ s2 ∧ s2 ≤ 0xBF then 3 else 1
        else 1
      | _ => 1
    else if s0 ≤ 0xF4 then
      match rest with
      | s1 :: s2 :: s3 :: _ =>
        if (if s0 = 0xF0 then 0x90 else 0x80) ≤ s1 ∧ s1 ≤ (if s0 = 0xF4 then 0x8F else 0xBF) then
          if 0x80 ≤ s2 ∧ s2 ≤ 0xBF then
            if 0x80 ≤ s3 ∧ s3 ≤ 0xBF then 4 else 1
          else 1
        else 1
      | _ => 1
    else 1

/-- The text with `new` put after each of its UTF-8 sequences; the counter is
the number of bytes of the current sequence that are still to come, 0 where a
sequence begins. -/
def insertAfterRunes (new : GoString) : Nat → GoString → GoString
  | _, [] => []
  | 0, b :: rest =>
    if utf8Width (b :: rest) ≤ 1 then b :: (new ++ insertAfterRunes new 0 rest)
    else b :: insertAfterRunes new (utf8Width (b :: rest) - 1) rest
  | left + 1, b :: rest =>
    if left = 0 then b :: (new ++ insertAfterRunes new 0 rest)
    else b :: insertAfterRunes new left rest

/-- `strings.Replace(s, old, new, -1)`: every non-overlapping occurrence of
`old`, found from the left, is replaced by `new`. For the empty `old` Go puts
`new` at the beginning of the text and after each UTF-8 sequence. -/
def stringsReplaceAll (s old new : GoString) : GoString :=
  match old with
  | [] => new ++ insertAfterRunes new 0 s
  | _ :: _ => replaceScan old new 0 s

/-! ## internal/logging/scrubbingLogWriter.go -/

/-- The text "***" that replaces a scrubbed term. -/
def scrubReplacement : GoString := ascii "***"

/-- `scrubbingWriter.scrub`: `scrubDict` lists the keys of the dictionary in
the order in which the `range` loop over the map visits them; every key is
replaced, one after the other. -/
def scrub (scrubDict : List GoString) (p : GoString) : GoString :=
  scrubDict.foldl (fun s term => stringsReplaceAll s term scrubReplacement) p

/-! ## infrastructure/oss/range_finder.go -/

/-- `strings.Index(s, substr)` from position `pos` on: the offset of the
first occurrence of `substr`, or -1. -/
def stringsIndexFrom (substr : GoString) : Nat → GoString → Int
  | pos, [] => if substr = [] then (pos : Int) else -1
  | pos, b :: rest =>
    if substr.isPrefixOf (b :: rest) then (pos : Int)
    else stringsIndexFrom substr (pos + 1) rest

/-- `strings.Index(s, substr)`. -/
def stringsIndex (s substr : GoString) : Int :=
  stringsIndexFrom substr 0 s

/-- `strings.Contains(s, substr)`, which is `Index(s, substr) >= 0`. -/
def stringsContains (s substr : GoString) : Bool :=
  decide (stringsIndex s substr ≥ 0)

/-- `strings.HasPrefix(s, prefix)`. -/
def stringsHasPrefix (s pre : GoString) : Bool :=
  pre.isPrefixOf s

/-- `strings.TrimRight(s, cutset)` for a cutset of single bytes. -/
def stringsTrimRight (s : GoString) (cutset : GoString) : GoString :=
  s.rdropWhile (fun b => decide (b ∈ cutset))

/-- `strings.Trim(s, cutset)` for a cutset of single bytes: the leading and
the trailing bytes of the cutset are cut. -/
def stringsTrim (s : GoString) (cutset : GoString) : GoString :=
  (s.dropWhile (fun b => decide (b ∈ cutset))).rdropWhile (fun b => decide (b ∈ cutset))

/-- `strings.Split(s, sep)` for a separator of one byte. -/
def stringsSplit (sep : Nat) : GoString → List GoString
  | [] => [[]]
  | b :: rest =>
    if b = sep then [] :: stringsSplit sep rest
    else
      match stringsSplit sep rest with
      | [] => [[b]]
      | line :: lines => (b :: line) :: lines

/-- `isComment` of range_finder.go. -/
def isComment (line : GoString) : Bool :=
  stringsHasPrefix (stringsTrim line (ascii " ")) (ascii "//") ||
    stringsHasPrefix (stringsTrim line (ascii " ")) (ascii "#")

/-- The lines `DefaultFinder.find` walks over: the file content without its
carriage returns, split at the newlines. -/
def finderLines (fileContent : GoString) : List GoString :=
  stringsSplit 10 (stringsReplaceAll fileContent (ascii "\r") [])

/-- The range `DefaultFinder.find` builds for line `i`. -/
def foundRange (searchPackage : GoString) (i : Nat) (line : GoString) : Range :=
  let endChar :=
    (stringsTrimRight (stringsTrimRight (stringsTrimRight line (ascii " ")) (ascii "\""))
      (ascii "'")).length
  { Start := { Line := (i : Int), Character := stringsIndex line searchPackage }
    End := { Line := (i : Int), Character := (endChar : Int) } }

/-- The loop of `DefaultFinder.find` from line `i` on: comments are skipped,
the first other line that contains the package gives the range, and the zero
range is returned when no line does. -/
def findFrom (searchPackage : GoString) : Nat → List GoString → Range
  | _, [] => { Start := { Line := 0, Character := 0 }, End := { Line := 0, Character := 0 } }
  | i, line :: rest =>
    if isComment line then findFrom searchPackage (i + 1) rest
    else if stringsContains line searchPackage then foundRange searchPackage i line
    else findFrom searchPackage (i + 1) rest

/-- `DefaultFinder.find`; `searchPackage` is the package name that
`introducingPackageAndVersion(issue)` returns (that function is not among the
sources). -/
def DefaultFinder.find (fileContent : GoString) (searchPackage : GoString) : Range :=
  findFrom searchPackage 0 (finderLines fileContent)

/-- The zero value `vulnmap.Range{}`. -/
def Range.zero : Range :=
  { Start := { Line := 0, Character := 0 }, End := { Line := 0, Character := 0 } }

/-! ## infrastructure/cli/initializer.go -/

/-- What `Initializer.Init` reads and changes. `sys` is the state behind
`CliSettings().Installed()` and `installCli` (the configured path, the file
system, the installer); the flags are those of the global configuration;
`installAttempts` counts the calls of `installCli` and `notifications` keeps
what `Init` itself sends. -/
structure InitState (σ : Type) where
  sys : σ
  ManageCliBinariesAutomatically : Bool
  VulnmapIacEnabled : Bool
  VulnmapOssEnabled : Bool
  installAttempts : Nat
  notifications : List String

/-- The `for` loop of `Initializer.Init`, entered with `attempt`; `fuel`
bounds the number of iterations of the model. `Installed` is
`config.CurrentConfig().CliSettings().Installed()` and `installCli` the
effect of `Initializer.installCli` on the system. The pause of two seconds
after an unsuccessful attempt changes nothing in the state. -/
def initLoop {σ : Type} (Installed : σ → Bool) (installCli : σ → σ) :
    Nat → Nat → InitState σ → Option (InitState σ × Option GoError)
  | 0, _, _ => none
  | fuel + 1, attempt, s =>
    if !Installed s.sys then
      if attempt > 2 then
        some ({ s with VulnmapIacEnabled := false, VulnmapOssEnabled := false },
          some (.errorString "could not find or download CLI"))
      else
        initLoop Installed installCli fuel (attempt + 1)
          { s with sys := installCli s.sys, installAttempts := s.installAttempts + 1 }
    else some (s, none)

/-- `Initializer.Init`, with `none` for a nil error. The update of an
outdated CLI runs in a goroutine of its own and is left out. -/
def Initializer.Init {σ : Type} (Installed : σ → Bool) (installCli : σ → σ)
    (s : InitState σ) : Option (InitState σ × Option GoError) :=
  let cliInstalled := Installed s.sys
  if !s.ManageCliBinariesAutomatically then
    if !cliInstalled then
      some ({ s with notifications := s.notifications ++
          ["Automatic CLI downloads are disabled and no CLI path is configured. Enable automatic downloads or set a valid CLI path."] },
        some (.errorString "automatic management of binaries is disabled, and CLI is not found"))
    else some (s, none)
  else if cliInstalled then
    some ({ s with notifications := s.notifications ++ ["VulnmapIsAvailableCli"] }, none)
  else
    initLoop Installed installCli 5 0 s

/-- A start state for the examples: automatic management enabled, both
products enabled; the system is the number of installs after which the CLI
is there, counted down by `installCli`. -/
def initExample (installsNeeded : Nat) : InitState Nat :=
  { sys := installsNeeded, ManageCliBinariesAutomatically := true, VulnmapIacEnabled := true,
    VulnmapOssEnabled := true, installAttempts := 0, notifications := [] }

/-- The number of text edits a workspace edit holds, over all its paths. -/
def WorkspaceEdit.editCount (e : WorkspaceEdit) : Nat :=
  (e.Changes.map (fun kv => kv.2.len)).sum

/-- The number of text edits a wire workspace edit holds, over all its URIs. -/
def LspWorkspaceEdit.editCount (e : LspWorkspaceEdit) : Nat :=
  (e.Changes.map (fun kv => kv.2.len)).sum

/-- A `PathToUri` for the examples that makes a relative path absolute, here
against the working directory "/cwd". (workspace_test.go converts its
relative folder names through `uri.PathToUri` and back before it compares
paths with them.) -/
def absolutePathToUri (path : String) : String :=
  if path.data.head? = some '/' then "file://" ++ path else "file:///cwd/" ++ path

/-- A workspace edit with one text edit for "main.go" and one for
"/cwd/main.go", two paths of the same file. -/
def twoPathsOneFileEdit : WorkspaceEdit :=
  { Changes :=
      [("main.go", Slice.items [{ Range := ⟨⟨1, 0⟩, ⟨1, 4⟩⟩, NewText := "first" }]),
       ("/cwd/main.go", Slice.items [{ Range := ⟨⟨9, 0⟩, ⟨9, 4⟩⟩, NewText := "second" }])] }

/-! ## infrastructure/code/bundle.go: code actions and code lenses of the issues -/

/-- `learn.Lesson`, with the field the bundle reads. -/
structure Lesson where
  Url : String
  deriving DecidableEq, Repr

/-- `issueTitle` (bundle.go): the title of the code issue data if it is not
empty, the issue's ID otherwise. The type assertion has no `ok` form, so it
panics on additional data of another type: `none`. -/
def issueTitle (issue : Issue) : Option String :=
  match issue.AdditionalData with
  | none => some issue.ID
  | some (.code d) => if d.Title ≠ "" then some d.Title else some issue.ID
  | some (.otherData _) => none

/-- `Bundle.createDeferredAutofixCodeAction`. `newDeferredCodeAction` is
`vulnmap.NewDeferredCodeAction` as called here, `autofixFunc` is
`Bundle.autofixFunc`. The outer `Option` is `none` for a panic, the inner one
is the returned pointer. -/
def createDeferredAutofixCodeAction
    (newDeferredCodeAction : String → Option (Unit → Option WorkspaceEdit) →
      Option (Unit → Option CommandData) → Except GoError CodeAction)
    (autofixFunc : Issue → Unit → Option WorkspaceEdit) (issue : Issue) :
    Option (Option CodeAction) :=
  match issueTitle issue with
  | none => none
  | some title =>
    match newDeferredCodeAction ("⚡ Fix this issue: " ++ title ++ " (Vulnmap)")
        (some (autofixFunc issue)) none with
    | .error _ => some none
    | .ok action => some (some action)

/-- `Bundle.createOpenVulnmapLearnCodeAction`. `GetLesson` is the learn
service's lookup for the issue. -/
def createOpenVulnmapLearnCodeAction (GetLesson : Issue → Except GoError (Option Lesson))
    (issue : Issue) : Option (Option CodeAction) :=
  match issueTitle issue with
  | none => none
  | some t =>
    let title := "Learn more about " ++ t ++ " (Vulnmap)"
    match GetLesson issue with
    | .error _ => some none
    | .ok none => some none
    | .ok (some lesson) =>
      if lesson.Url ≠ "" then
        some (some { Title := title, IsPreferred := none, Edit := none, DeferredEdit := none,
                     Command := some { Title := title, CommandId := OpenBrowserCommand,
                                       Arguments := Slice.items [.str lesson.Url] },
                     DeferredCommand := none, Uuid := none })
      else some none

/-- The autofix branch of one iteration of `Bundle.addIssueActions`: the
deferred action is appended to the issue's code actions, then the code lens
with the action's identifier to its code-lens commands. Dereferencing a nil
action or a nil `Uuid` panics: `none`. -/
def addAutofixAction
    (newDeferredCodeAction : String → Option (Unit → Option WorkspaceEdit) →
      Option (Unit → Option CommandData) → Except GoError CodeAction)
    (autofixFunc : Issue → Unit → Option WorkspaceEdit) (issue : Issue) : Option Issue :=
  match createDeferredAutofixCodeAction newDeferredCodeAction autofixFunc issue with
  | some (some codeAction) =>
    let issue1 := { issue with CodeActions := issue.CodeActions.append codeAction }
    match codeAction.Uuid, issueTitle issue1 with
    | some codeActionId, some title =>
      some { issue1 with
        CodelensCommands := issue1.CodelensCommands.append
          { Title := "⚡ Fix this issue: " ++ title,
            CommandId := CodeFixCommand,
            Arguments := Slice.items
              [.uuid codeActionId, .str issue1.AffectedFilePath, .range issue1.Range] } }
    | _, _ => none
  | _ => none

/-- The learn branch of one iteration of `Bundle.addIssueActions`. -/
def addLearnAction (GetLesson : Issue → Except GoError (Option Lesson)) (issue : Issue) :
    Option Issue :=
  match createOpenVulnmapLearnCodeAction GetLesson issue with
  | none => none
  | some none => some issue
  | some (some action) => some { issue with CodeActions := issue.CodeActions.append action }

/-- One iteration of the loop of `Bundle.addIssueActions`, on `issues[i]`. -/
def addIssueActionsAt (autoFixEnabled learnEnabled : Bool)
    (newDeferredCodeAction : String → Option (Unit → Option WorkspaceEdit) →
      Option (Unit → Option CommandData) → Except GoError CodeAction)
    (autofixFunc : Issue → Unit → Option WorkspaceEdit)
    (GetLesson : Issue → Except GoError (Option Lesson)) (issue : Issue) : Option Issue :=
  match issue.AdditionalData with
  | some (.code issueData) =>
    match (if autoFixEnabled && issueData.IsAutofixable then
        addAutofixAction newDeferredCodeAction autofixFunc issue else some issue) with
    | none => none
    | some issue1 => if learnEnabled then addLearnAction GetLesson issue1 else some issue1
  | _ => some issue

/-- The loop of `Bundle.addIssueActions` from index `i` on. The constructor
of deferred actions draws a fresh identifier at every call, so it is given
per iteration. -/
def addIssueActionsFrom (autoFixEnabled learnEnabled : Bool)
    (newDeferredCodeAction : Nat → String → Option (Unit → Option WorkspaceEdit) →
      Option (Unit → Option CommandData) → Except GoError CodeAction)
    (autofixFunc : Issue → Unit → Option WorkspaceEdit)
    (GetLesson : Issue → Except GoError (Option Lesson)) : Nat → List Issue → Option (List Issue)
  | _, [] => some []
  | i, issue :: rest =>
    match addIssueActionsAt autoFixEnabled learnEnabled (newDeferredCodeAction i) autofixFunc
        GetLesson issue with
    | none => none
    | some changed =>
      match addIssueActionsFrom autoFixEnabled learnEnabled newDeferredCodeAction autofixFunc
          GetLesson (i + 1) rest with
      | none => none
      | some others => some (changed :: others)

/-- `Bundle.addIssueActions` (bundle.go). The Go function changes the
elements of the slice in place; here it returns the slice after the call,
`none` if it panics. The two settings are read from the configuration. -/
def addIssueActions (autoFixEnabled learnEnabled : Bool)
    (newDeferredCodeAction : Nat → String → Option (Unit → Option WorkspaceEdit) →
      Option (Unit → Option CommandData) → Except GoError CodeAction)
    (autofixFunc : Issue → Unit → Option WorkspaceEdit)
    (GetLesson : Issue → Except GoError (Option Lesson)) (issues : Slice Issue) :
    Option (Slice Issue) :=
  if !autoFixEnabled && !learnEnabled then some issues
  else
    match issues with
    | .nil => some .nil
    | .items xs =>
      (addIssueActionsFrom autoFixEnabled learnEnabled newDeferredCodeAction autofixFunc
        GetLesson 0 xs).map Slice.items

/-- An autofixable code issue of "main.go". -/
def autofixableIssue : Issue :=
  { issueAt "main.go" "code" 3 with
    ID := "javascript/sqli"
    AdditionalData := some (.code { Title := "SQL Injection", IsAutofixable := true }) }

/-- An open source issue: its additional data is not code issue data. -/
def ossIssue : Issue :=
  { issueAt "package.json" "oss" 7 with AdditionalData := some (.otherData "oss") }

/-! ## infrastructure/code/bundle.go: the two polling loops -/

/-- `AnalysisStatus`, with the fields the bundle reads. -/
structure AnalysisStatus where
  message : String
  percentage : Int
  deriving DecidableEq, Repr

/-- What one call of `VulnmapCode.RunAnalysis` returns. -/
structure AnalysisResponse where
  issues : Slice Issue
  status : AnalysisStatus
  err : Option GoError

/-- What `Bundle.retrieveAnalysis` returns, with the number of `RunAnalysis`
calls it made. -/
structure AnalysisResult where
  issues : Slice Issue
  err : Option GoError
  runAnalysisCalls : Nat

/-- The `for` loop of `Bundle.retrieveAnalysis`, from poll cycle `cycle` on;
every earlier cycle made one `RunAnalysis` call. `ctxErr n` is whether
`ctx.Err() != nil` at the start of cycle `n`, `RunAnalysis n` the answer to
the call of cycle `n`, `timedOut n` whether the analysis timeout has passed
at the end of cycle `n`, and `addIssueActions` the call
`b.addIssueActions(ctx, issues)` (`none` if it panics). The loop has no
bound of its own: the first argument is fuel. -/
def retrieveAnalysisLoop (completeStatus : String) (ctxErr : Nat → Bool)
    (RunAnalysis : Nat → AnalysisResponse) (timedOut : Nat → Bool)
    (addIssueActions : Slice Issue → Option (Slice Issue)) :
    Nat → Nat → Option AnalysisResult
  | 0, _ => none
  | fuel + 1, cycle =>
    if ctxErr cycle then
      some { issues := Slice.items [], err := none, runAnalysisCalls := cycle }
    else
      let response := RunAnalysis cycle
      match response.err with
      | some err =>
        some { issues := Slice.items [], err := some err, runAnalysisCalls := cycle + 1 }
      | none =>
        if response.status.message = completeStatus then
          match addIssueActions response.issues with
          | none => none
          | some issues => some { issues := issues, err := none, runAnalysisCalls := cycle + 1 }
        else if timedOut cycle then
          some { issues := Slice.items [],
                 err := some (.errorString "analysis call timed out"),
                 runAnalysisCalls := cycle + 1 }
        else
          retrieveAnalysisLoop completeStatus ctxErr RunAnalysis timedOut addIssueActions
            fuel (cycle + 1)

/-- `Bundle.retrieveAnalysis` (bundle.go). -/
def retrieveAnalysis (BundleHash : String) (completeStatus : String) (ctxErr : Nat → Bool)
    (RunAnalysis : Nat → AnalysisResponse) (timedOut : Nat → Bool)
    (addIssueActions : Slice Issue → Option (Slice Issue)) (fuel : Nat) :
    Option AnalysisResult :=
  if BundleHash = "" then
    some { issues := Slice.items [], err := none, runAnalysisCalls := 0 }
  else
    retrieveAnalysisLoop completeStatus ctxErr RunAnalysis timedOut addIssueActions fuel 0

/-- A backend that is still analysing, with one issue found so far. -/
def analyzingResponse : AnalysisResponse :=
  { issues := Slice.items [autofixableIssue],
    status := { message := "ANALYZING", percentage := 50 }, err := none }

/-- `AutofixSuggestion`. -/
structure AutofixSuggestion where
  FixId : String
  AutofixEdit : WorkspaceEdit
  deriving DecidableEq, Repr

/-- `AutofixStatus`. -/
structure AutofixStatus where
  message : String
  deriving DecidableEq, Repr

/-- What one call of `VulnmapCode.RunAutofix` returns. -/
structure AutofixResponse where
  fixSuggestions : Slice AutofixSuggestion
  fixStatus : AutofixStatus
  err : Option GoError
  deriving DecidableEq, Repr

/-- `pollFunc` of `Bundle.autofixFunc`, applied to the answer of its
`RunAutofix` call: the fix, and whether polling is complete. -/
def pollFunc (completeStatus : String) (response : AutofixResponse) :
    Option AutofixSuggestion × Bool :=
  match response.err with
  | some _ => (none, true)
  | none =>
    if response.fixStatus.message = completeStatus then
      (if response.fixSuggestions.len > 0 then response.fixSuggestions.toList.head? else none,
       true)
    else (none, false)

/-- What the `select` of the autofix polling loop receives: the timeout
timer or the polling ticker. -/
inductive PollEvent where
  | timeout
  | tick
  deriving DecidableEq, Repr

/-- What the deferred-edit producer returns, with the number of `RunAutofix`
calls it made. -/
structure AutofixResult where
  edit : Option WorkspaceEdit
  runAutofixCalls : Nat
  deriving DecidableEq, Repr

/-- The polling loop of the producer `Bundle.autofixFunc` returns, run on
the events its `select` receives, in order. `cancelled n` is whether the
context is cancelled when event `n` arrives; the loop does not read it, it
only hands the span's context to `RunAutofix`. `RunAutofix calls c` is the
answer to call number `calls` made with a context whose cancellation is `c`.
The `select` has the two cases `timeoutTimer.C` and `pollingTicker.C`;
without a further event it blocks: `none`. The messages sent to the client
are left out. -/
def autofixPollLoop (completeStatus : String) (cancelled : Nat → Bool)
    (RunAutofix : Nat → Bool → AutofixResponse) :
    Nat → Nat → List PollEvent → Option AutofixResult
  | _, _, [] => none
  | calls, _, .timeout :: _ => some { edit := none, runAutofixCalls := calls }
  | calls, n, .tick :: events =>
    match pollFunc completeStatus (RunAutofix calls (cancelled n)) with
    | (_, false) => autofixPollLoop completeStatus cancelled RunAutofix (calls + 1) (n + 1) events
    | (none, true) => some { edit := none, runAutofixCalls := calls + 1 }
    | (some fix, true) => some { edit := some fix.AutofixEdit, runAutofixCalls := calls + 1 }

/-- The producer `Bundle.autofixFunc` returns (bundle.go).
`ToRelativeUnixPath` is the result of converting the issue's path. -/
def autofixFunc (ToRelativeUnixPath : Except GoError String) (completeStatus : String)
    (cancelled : Nat → Bool) (RunAutofix : Nat → Bool → AutofixResponse)
    (events : List PollEvent) : Option AutofixResult :=
  match ToRelativeUnixPath with
  | .error _ => some { edit := none, runAutofixCalls := 0 }
  | .ok _ => autofixPollLoop completeStatus cancelled RunAutofix 0 0 events

/-- A backend still working on the fix; like `FakeVulnmapCodeClient.RunAutofix`
it does not look at the context it is given. -/
def pendingAutofix : Nat → Bool → AutofixResponse :=
  fun _ _ => { fixSuggestions := Slice.nil, fixStatus := { message := "FIXING" }, err := none }

/-! ## domain/ide/hover and the hovers of the converter -/

/-- `hover.Hover[hover.Context]` (domain/ide/hover/model.go); the context
`ToHovers` stores is the issue. -/
structure Hover where
  Id : String
  Range : Range
  Message : String
  Context : Issue

/-- An item of a regular expression that is a sequence of single characters
and optional single characters of a class, which is what
`regexp.MustCompile` is given in `ToHovers`. -/
inductive RegexItem where
  | lit (c : Char)
  | opt (p : Char → Bool)

/-- The class `\s` of Go's regexp syntax: tab, newline, form feed, carriage
return and space. -/
def isRegexSpace (c : Char) : Bool :=
  c = '\t' || c = '\n' || c = Char.ofNat 12 || c = '\r' || c = ' '

/-- The length of the match of a sequence of items at the start of the text,
with the preference of Go's regexp package (leftmost-first): an optional item
is tried with its character first and without it if the rest then fails. -/
def matchItems : List RegexItem → List Char → Option Nat
  | [], _ => some 0
  | .lit _ :: _, [] => none
  | .lit c :: items, x :: s =>
    if x = c then (matchItems items s).map (fun n => n + 1) else none
  | .opt _ :: items, [] => matchItems items []
  | .opt p :: items, x :: s =>
    if p x then
      match matchItems items s with
      | some n => some (n + 1)
      | none => matchItems items (x :: s)
    else matchItems items (x :: s)

/-- `(*Regexp).ReplaceAllString` for an expression whose matches are never
empty and a replacement without `$`: the text is scanned from the left, each
match found is replaced and the scan goes on after it. The first argument is
the number of characters of the current match still to skip. -/
def ReplaceAllString (re : List RegexItem) (repl : List Char) : Nat → List Char → List Char
  | _, [] => []
  | skip + 1, _ :: rest => ReplaceAllString re repl skip rest
  | 0, c :: rest =>
    match matchItems re (c :: rest) with
    | some (n + 1) => repl ++ ReplaceAllString re repl n rest
    | _ => c :: ReplaceAllString re repl 0 rest

/-- The expression of `ToHovers`, `<br\s?/?>`. -/
def brRegex : List RegexItem :=
  [.lit '<', .lit 'b', .lit 'r', .opt isRegexSpace, .opt (fun c => c = '/'), .lit '>']

/-- The replacement of `ToHovers`, "\n\n". -/
def hoverLineBreak : List Char := ['\n', '\n']

/-- The `message` of the loop body of `ToHovers` before it is sanitized:
the formatted message if it is not empty, the message otherwise, and the
references section if the issue has references. -/
def hoverText (i : Issue) : String :=
  let message := if i.FormattedMessage.length > 0 then i.FormattedMessage else i.Message
  if i.References.len > 0 then
    i.References.toList.foldl
      (fun message reference =>
        message ++ ("[" ++ reference.Title ++ "](" ++ reference.Url ++ ")\n\n"))
      (message ++ "\n\nReferences:\n\n")
  else message

/-- `converter.ToHovers` (converter.go). The named result starts out nil. -/
def ToHovers (issues : Slice Issue) : Slice Hover :=
  issues.toList.foldl
    (fun hovers i =>
      hovers.append
        { Id := i.ID, Range := i.Range,
          Message := String.mk (ReplaceAllString brRegex hoverLineBreak 0 (hoverText i).data),
          Context := i })
    Slice.nil

/-- A line-break tag as the claim describes it: "<br", then at most one
whitespace character, then at most one slash, then ">". -/
def IsBrTag (tag : List Char) : Prop :=
  ∃ space slash : List Char,
    (space = [] ∨ ∃ c, isRegexSpace c = true ∧ space = [c]) ∧
    (slash = [] ∨ slash = ['/']) ∧
    tag = ['<', 'b', 'r'] ++ space ++ slash ++ ['>']

/-- The issue of TestToHovers. -/
def brTestIssue : Issue := { emptyIssue with FormattedMessage := "<br><br/><br />" }

/-- The issues stored for a path under the products other than `product`, in
store order. -/
def IssueStore.otherProductIssues (store : IssueStore) (path product : String) : List Issue :=
  store.flatMap
    (fun entry => if entry.1.1 = path ∧ entry.1.2 ≠ product then entry.2.toList else [])

/-- A store holding a code issue and two open source issues for "a.go". -/
def storeWithTwoProducts : IssueStore :=
  IssueStore.SetIssues storeWithCodeIssue "a.go" "oss"
    (Slice.items [issueAt "a.go" "oss" 2, issueAt "a.go" "oss" 3])

/-- What the claim asks of the sanitized message, in its own words and without
the matcher: going through the text from the left, a tag is replaced by two
newlines and the text goes on after the tag; where no tag starts, the
character is kept. -/
inductive BrSanitized : List Char → List Char → Prop where
  | nil : BrSanitized [] []
  | tag (s tag rest out : List Char) : IsBrTag tag → s = tag ++ rest →
      BrSanitized rest out → BrSanitized s ('\n' :: '\n' :: out)
  | keep (c : Char) (rest out : List Char) :
      (∀ tag, IsBrTag tag → ¬ tag <+: c :: rest) →
      BrSanitized rest out → BrSanitized (c :: rest) (c :: out)

/-- A comment line, in the claim's words: after its leading spaces the line
begins with "//" or with "#". -/
def IsCommentLine (line : GoString) : Prop :=
  ∃ (k : Nat) (rest : GoString),
    line = List.replicate k 32 ++ 47 :: 47 :: rest ∨ line = List.replicate k 32 ++ 35 :: rest

/-- The lines put together again, with a newline between two lines. -/
def joinLines : List GoString → GoString
  | [] => []
  | [line] => line
  | line :: next :: rest => line ++ 10 :: joinLines (next :: rest)

/-- The lines of a file content, in the claim's words: the content with every
carriage return deleted, cut at its newlines. There is at least one line, no
line holds a newline, and the lines joined by newlines are the content
without its carriage returns. -/
def IsLinesOf (fileContent : GoString) (lines : List GoString) : Prop :=
  lines ≠ [] ∧ (∀ line ∈ lines, 10 ∉ line) ∧
    joinLines lines = fileContent.filter (fun b => b ≠ 13)

/-- A dependency file with an indented comment, Windows line ends and the
package in quotes. -/
def lockfileExample : GoString :=
  ascii "  # lodash\r\n  // lodash\n  \"lodash\": \"1.0\"\r\nlodash"

/-- The diagnostics published so far for a path, oldest first. -/
def publishedFor (world : World) (path : String) : List (Slice Diagnostic) :=
  world.notifications.filterMap
    (fun n =>
      match n with
      | .publishDiagnostics t diagnostics => if t = path then some diagnostics else none
      | .trustRequest _ => none)

/-- The workspace of the two folders after "dummy" has been scanned once: it
holds the test issue for "dummy/file.txt". -/
def scannedTwoFolderState : Workspace × World :=
  twoFolderWorkspace.ScanFolder permissiveWorld "dummy"

/-! ## Properties of the converter -/

/-- C1: `ToSeverity` maps Critical and High to Error, Medium to Warning, Low
to Information, and every other severity value to Hint. -/
theorem ToSeverity_mapping :
    ToSeverity .Critical = .DiagnosticsSeverityError ∧
    ToSeverity .High = .DiagnosticsSeverityError ∧
    ToSeverity .Medium = .DiagnosticsSeverityWarning ∧
    ToSeverity .Low = .DiagnosticsSeverityInformation ∧
    ∀ s : Severity, s ≠ .Critical → s ≠ .High → s ≠ .Medium → s ≠ .Low →
      ToSeverity s = .DiagnosticsSeverityHint := by
  refine ⟨rfl, rfl, rfl, rfl, ?_⟩
  intro s h1 h2 h3 h4
  cases s with
  | Critical => exact absurd rfl h1
  | High => exact absurd rfl h2
  | Medium => exact absurd rfl h3
  | Low => exact absurd rfl h4
  | other n => rfl

theorem foldl_append_items {α β : Type} (f : α → β) (xs : List α) (acc : List β) :
    xs.foldl (fun (s : Slice β) x => s.append (f x)) (Slice.items acc)
      = Slice.items (acc ++ xs.map f) := by
  induction xs generalizing acc with
  | nil => simp
  | cons x xs ih =>
    have h : (Slice.items acc).append (f x) = Slice.items (acc ++ [f x]) := rfl
    rw [List.foldl_cons, h, ih]
    simp

theorem ToDiagnostics_eq_map (issues : Slice Issue) :
    ToDiagnostics issues = Slice.items (issues.toList.map ToDiagnostic) := by
  unfold ToDiagnostics
  rw [foldl_append_items]
  simp

/-- C2: for every issue slice, nil and empty included, `ToDiagnostics`
returns a non-nil slice with one diagnostic per issue in the same order; the
i-th diagnostic carries the range of the i-th issue (the same start line,
start character, end line and end character), `ToSeverity` of its severity,
its ID as code, its product as source and its message. -/
theorem ToDiagnostics_nonnil_pointwise (issues : Slice Issue) :
    ∃ ds : List Diagnostic,
      ToDiagnostics issues = Slice.items ds ∧
      ds.length = issues.toList.length ∧
      ∀ i : Nat,
        (ds[i]?).map (fun d =>
            ((d.Range.Start.Line, d.Range.Start.Character, d.Range.End.Line,
              d.Range.End.Character), d.Severity, d.Code, d.Source, d.Message))
          = (issues.toList[i]?).map
              (fun x =>
                ((x.Range.Start.Line, x.Range.Start.Character, x.Range.End.Line,
                  x.Range.End.Character), ToSeverity x.Severity, x.ID, x.Product,
                  x.Message)) := by
  refine ⟨issues.toList.map ToDiagnostic, ToDiagnostics_eq_map issues, by simp, ?_⟩
  intro i
  rw [List.getElem?_map, Option.map_map]
  rfl

/-! ## Properties of the file watcher -/

theorem FileWatcher.isDirty_iff_mem (w : FileWatcher) (u : String) :
    w.IsDirty u = true ↔ u ∈ w.changedFiles := by
  simp [FileWatcher.IsDirty]

theorem FileWatcher.isDirty_changed_same (w : FileWatcher) (u : String) :
    (w.SetFileAsChanged u).IsDirty u = true := by
  rw [FileWatcher.isDirty_iff_mem]
  unfold FileWatcher.SetFileAsChanged
  split
  · rename_i h
    simpa using h
  · simp

theorem FileWatcher.isDirty_saved_same (w : FileWatcher) (u : String) :
    (w.SetFileAsSaved u).IsDirty u = false := by
  rw [← Bool.not_eq_true, FileWatcher.isDirty_iff_mem]
  simp [FileWatcher.SetFileAsSaved]

theorem FileWatcher.isDirty_changed_other (w : FileWatcher) (u v : String) (h : v ≠ u) :
    (w.SetFileAsChanged v).IsDirty u = w.IsDirty u := by
  rw [Bool.eq_iff_iff, FileWatcher.isDirty_iff_mem, FileWatcher.isDirty_iff_mem]
  unfold FileWatcher.SetFileAsChanged
  split
  · rfl
  · simp [Ne.symm h]

theorem FileWatcher.isDirty_saved_other (w : FileWatcher) (u v : String) (h : v ≠ u) :
    (w.SetFileAsSaved v).IsDirty u = w.IsDirty u := by
  rw [Bool.eq_iff_iff, FileWatcher.isDirty_iff_mem, FileWatcher.isDirty_iff_mem]
  simp only [FileWatcher.SetFileAsSaved, List.mem_filter, bne_iff_ne, ne_eq]
  constructor
  · exact fun hm => hm.1
  · exact fun hm => ⟨hm, Ne.symm h⟩

theorem FileWatcher.isDirty_call_other (w : FileWatcher) (u : String) (c : WatcherCall)
    (h : c.uri ≠ u) : (w.call c).IsDirty u = w.IsDirty u := by
  cases c with
  | changed v => exact FileWatcher.isDirty_changed_other w u v h
  | saved v => exact FileWatcher.isDirty_saved_other w u v h

theorem lastCallIsChanged_cons (u : String) (c : WatcherCall) (cs : List WatcherCall) :
    LastCallIsChanged u (c :: cs) ↔
      LastCallIsChanged u cs ∨ (c = WatcherCall.changed u ∧ ∀ c' ∈ cs, c'.uri ≠ u) := by
  constructor
  · rintro ⟨pre, post, heq, hpost⟩
    cases pre with
    | nil =>
      simp only [List.nil_append, List.cons.injEq] at heq
      right
      exact ⟨heq.1, heq.2 ▸ hpost⟩
    | cons p pre =>
      simp only [List.cons_append, List.cons.injEq] at heq
      left
      exact ⟨pre, post, heq.2, hpost⟩
  · rintro (⟨pre, post, heq, hpost⟩ | ⟨hc, hcs⟩)
    · exact ⟨c :: pre, post, by simp [heq], hpost⟩
    · exact ⟨[], cs, by simp [hc], hcs⟩

theorem lastCallIsChanged_no_call (u : String) (cs : List WatcherCall)
    (h : LastCallIsChanged u cs) : ∃ c ∈ cs, c.uri = u := by
  obtain ⟨pre, post, heq, _⟩ := h
  exact ⟨WatcherCall.changed u, by simp [heq], rfl⟩

theorem FileWatcher.isDirty_calls (w : FileWatcher) (u : String) (cs : List WatcherCall) :
    (w.calls cs).IsDirty u = true ↔
      LastCallIsChanged u cs ∨ (w.IsDirty u = true ∧ ∀ c ∈ cs, c.uri ≠ u) := by
  induction cs generalizing w with
  | nil =>
    constructor
    · intro h
      exact Or.inr ⟨h, by simp⟩
    · rintro (⟨pre, post, heq, _⟩ | ⟨h, _⟩)
      · simp at heq
      · exact h
  | cons c cs ih =>
    have hstep : w.calls (c :: cs) = (w.call c).calls cs := rfl
    rw [hstep, ih, lastCallIsChanged_cons]
    by_cases hc : c.uri = u
    · cases c with
      | changed v =>
        have hv : v = u := hc
        subst hv
        rw [show (w.call (WatcherCall.changed v)) = w.SetFileAsChanged v from rfl,
          FileWatcher.isDirty_changed_same]
        simp [WatcherCall.uri]
      | saved v =>
        have hv : v = u := hc
        subst hv
        rw [show (w.call (WatcherCall.saved v)) = w.SetFileAsSaved v from rfl,
          FileWatcher.isDirty_saved_same]
        simp [WatcherCall.uri]
    · rw [FileWatcher.isDirty_call_other w u c hc]
      have hne : c ≠ WatcherCall.changed u := fun h => hc (by rw [h]; rfl)
      simp [hc, hne]

/-- C3: after any sequence of SetFileAsChanged / SetFileAsSaved calls on a
fresh FileWatcher, `IsDirty u` is true exactly when the sequence contains a
`changed u` that no later call about `u` follows; so a URI no call is about
is clean, and a call about another URI never changes `IsDirty u`, whatever
the state of the watcher. -/
theorem FileWatcher_dirty_iff_last_call_changed (cs : List WatcherCall) (u : String) :
    ((NewFileWatcher.calls cs).IsDirty u = true ↔
        ∃ pre post, cs = pre ++ WatcherCall.changed u :: post ∧ ∀ c ∈ post, c.uri ≠ u) ∧
    ((∀ c ∈ cs, c.uri ≠ u) → (NewFileWatcher.calls cs).IsDirty u = false) ∧
    (∀ (w : FileWatcher) (c : WatcherCall), c.uri ≠ u →
        (w.call c).IsDirty u = w.IsDirty u) := by
  have hnew : NewFileWatcher.IsDirty u = false := rfl
  have hmain := FileWatcher.isDirty_calls NewFileWatcher u cs
  simp only [hnew, Bool.false_eq_true, false_and, or_false] at hmain
  refine ⟨hmain, ?_, fun w c hc => FileWatcher.isDirty_call_other w u c hc⟩
  intro hall
  rw [← Bool.not_eq_true, hmain]
  intro hlast
  obtain ⟨c, hmem, hcu⟩ := lastCallIsChanged_no_call u cs hlast
  exact hall c hmem hcu

theorem FileWatcher_dirty_iff_last_call_changed_witness :
    (NewFileWatcher.calls
      [WatcherCall.changed "a", WatcherCall.saved "a", WatcherCall.changed "b",
        WatcherCall.changed "a", WatcherCall.saved "b"]).IsDirty "a" = true :=
  (FileWatcher_dirty_iff_last_call_changed
    [WatcherCall.changed "a", WatcherCall.saved "a", WatcherCall.changed "b",
      WatcherCall.changed "a", WatcherCall.saved "b"] "a").1.2
    ⟨[WatcherCall.changed "a", WatcherCall.saved "a", WatcherCall.changed "b"],
      [WatcherCall.saved "b"], rfl, by decide⟩

/-! ## Properties of the code-action listing -/

theorem Slice.appendAll_appendAll {α : Type} (s : Slice α) (xs ys : List α) :
    (s.appendAll xs).appendAll ys = s.appendAll (xs ++ ys) := by
  cases xs with
  | nil => rfl
  | cons x xs =>
    cases ys with
    | nil => simp [Slice.appendAll]
    | cons y ys => simp [Slice.appendAll, Slice.toList]

theorem foldl_append_eq_appendAll {α β : Type} (f : α → β) (xs : List α) (s : Slice β) :
    xs.foldl (fun (acc : Slice β) x => acc.append (f x)) s = s.appendAll (xs.map f) := by
  induction xs generalizing s with
  | nil => rfl
  | cons x xs ih =>
    have h : s.append (f x) = s.appendAll [f x] := rfl
    rw [List.foldl_cons, ih, h, Slice.appendAll_appendAll]
    rfl

theorem foldl_appendAll {α β : Type} (g : α → List β) (xs : List α) (s : Slice β) :
    xs.foldl (fun (acc : Slice β) x => acc.appendAll (g x)) s = s.appendAll (xs.flatMap g) := by
  induction xs generalizing s with
  | nil => rfl
  | cons x xs ih =>
    rw [List.foldl_cons, ih, Slice.appendAll_appendAll, List.flatMap_cons]

theorem ToCodeActions_eq_appendAll (P : String → String) (issues : Slice Issue) :
    ToCodeActions P issues
      = Slice.nil.appendAll
          (issues.toList.flatMap
            (fun issue => issue.CodeActions.toList.map (ToCodeAction P issue))) := by
  unfold ToCodeActions
  rw [← foldl_appendAll]
  congr 1
  funext acc issue
  exact foldl_append_eq_appendAll (ToCodeAction P issue) issue.CodeActions.toList acc

theorem Slice.toList_nil_appendAll {α : Type} (xs : List α) :
    (Slice.nil.appendAll xs).toList = xs := by
  cases xs <;> rfl

theorem ToCodeActions_toList (P : String → String) (issues : Slice Issue) :
    (ToCodeActions P issues).toList
      = issues.toList.flatMap
          (fun issue => issue.CodeActions.toList.map (ToCodeAction P issue)) := by
  rw [ToCodeActions_eq_appendAll, Slice.toList_nil_appendAll]

theorem FileWatcher.isDirty_calls_no_save (w : FileWatcher) (u : String)
    (cs : List WatcherCall) (hw : w.IsDirty u = true)
    (hcs : ∀ call ∈ cs, call ≠ WatcherCall.saved u) : (w.calls cs).IsDirty u = true := by
  induction cs generalizing w with
  | nil => exact hw
  | cons c cs ih =>
    have hstep : w.calls (c :: cs) = (w.call c).calls cs := rfl
    rw [hstep]
    apply ih
    · by_cases hc : c.uri = u
      · cases c with
        | changed v =>
          have hv : v = u := hc
          subst hv
          exact FileWatcher.isDirty_changed_same w v
        | saved v =>
          have hv : v = u := hc
          subst hv
          exact absurd rfl (hcs _ (List.mem_cons_self _ _))
      · rw [FileWatcher.isDirty_call_other w u c hc]
        exact hw
    · intro call hmem
      exact hcs call (List.mem_cons_of_mem _ hmem)

/-- C4: once the URI of the request has been marked changed, and as long as
no SetFileAsSaved for that URI follows (whatever other notifications do),
`GetCodeActions` returns the nil listing, whatever the IssueProvider holds;
after SetFileAsSaved for that URI it lists the converted actions again. -/
theorem GetCodeActions_dirty_returns_nothing (P Q : String → String)
    (c : CodeActionsService) (w : FileWatcher) (params : CodeActionParams)
    (cs : List WatcherCall) (hcs : ∀ call ∈ cs, call ≠ WatcherCall.saved params.URI) :
    (c.GetCodeActions P Q ((w.SetFileAsChanged params.URI).calls cs) params).1 = Slice.nil ∧
    (c.GetCodeActions P Q ((w.SetFileAsChanged params.URI).calls cs) params).1.toList = [] ∧
    (c.GetCodeActions P Q
        (((w.SetFileAsChanged params.URI).calls cs).SetFileAsSaved params.URI) params).1
      = ToCodeActions P (c.IssuesProvider (Q params.URI) (FromRange params.Range)) := by
  have hd := FileWatcher.isDirty_calls_no_save (w.SetFileAsChanged params.URI) params.URI cs
    (FileWatcher.isDirty_changed_same w params.URI) hcs
  have hs := FileWatcher.isDirty_saved_same
    ((w.SetFileAsChanged params.URI).calls cs) params.URI
  refine ⟨?_, ?_, ?_⟩
  · simp [CodeActionsService.GetCodeActions, hd]
  · simp [CodeActionsService.GetCodeActions, hd, Slice.toList]
  · simp [CodeActionsService.GetCodeActions, hs]

theorem GetCodeActions_dirty_returns_nothing_witness :
    (∀ call ∈ [WatcherCall.changed "file:///other", WatcherCall.saved "file:///other",
        WatcherCall.changed "file:///path/to/file"],
        call ≠ WatcherCall.saved exampleParams.URI) ∧
    ((NewService (fun _ _ => Slice.items [issueWithCommandAction])).GetCodeActions id id
        ((NewFileWatcher.SetFileAsChanged exampleParams.URI).calls
          [WatcherCall.changed "file:///other", WatcherCall.saved "file:///other",
            WatcherCall.changed "file:///path/to/file"])
        exampleParams).1 = Slice.nil :=
  ⟨by decide,
    (GetCodeActions_dirty_returns_nothing id id
      (NewService (fun _ _ => Slice.items [issueWithCommandAction])) NewFileWatcher
      exampleParams _ (by decide)).1⟩

/-- C5: `ToCodeActions` returns nil for every issue list in which no issue
carries a code action (the nil and the empty list included), and so does
`GetCodeActions` for a clean file for which the IssueProvider returns no
issues. -/
theorem ToCodeActions_no_actions_nil (P Q : String → String) :
    (∀ issues : Slice Issue, (∀ issue ∈ issues.toList, issue.CodeActions.toList = []) →
        ToCodeActions P issues = Slice.nil) ∧
    (∀ (c : CodeActionsService) (w : FileWatcher) (params : CodeActionParams),
        w.IsDirty params.URI = false →
        (c.IssuesProvider (Q params.URI) (FromRange params.Range)).toList = [] →
        (c.GetCodeActions P Q w params).1 = Slice.nil) := by
  have h1 : ∀ issues : Slice Issue,
      (∀ issue ∈ issues.toList, issue.CodeActions.toList = []) →
        ToCodeActions P issues = Slice.nil := by
    intro issues hall
    rw [ToCodeActions_eq_appendAll]
    have hnil : issues.toList.flatMap
        (fun issue => issue.CodeActions.toList.map (ToCodeAction P issue)) = [] := by
      rw [List.flatMap_eq_nil_iff]
      intro issue hmem
      simp [hall issue hmem]
    rw [hnil]
    rfl
  refine ⟨h1, ?_⟩
  intro c w params hclean hempty
  simp only [CodeActionsService.GetCodeActions, hclean, Bool.false_eq_true, if_false]
  apply h1
  intro issue hmem
  rw [hempty] at hmem
  exact absurd hmem (List.not_mem_nil _)

theorem ToCodeActions_no_actions_nil_witness :
    ToCodeActions id (Slice.items [emptyIssue, emptyIssue]) = Slice.nil ∧
    ((NewService (fun _ _ => Slice.items [])).GetCodeActions id id NewFileWatcher
        exampleParams).1 = Slice.nil :=
  ⟨(ToCodeActions_no_actions_nil id id).1 (Slice.items [emptyIssue, emptyIssue])
      (by simp [Slice.toList, emptyIssue]),
    (ToCodeActions_no_actions_nil id id).2 (NewService (fun _ _ => Slice.items []))
      NewFileWatcher exampleParams rfl rfl⟩

/-- C6: a code action with a Uuid and a deferred edit and no immediate edit
or command is converted by `ToCodeAction` into a wire action with Edit nil,
Command nil and Data equal to that Uuid, and that wire action is in the
listing `ToCodeActions` of every issue list holding the issue. -/
theorem ToCodeAction_deferred_only_identifier (P : String → String) (issue : Issue)
    (action : CodeAction) (u : UUID) (f : Unit → Option WorkspaceEdit)
    (hU : action.Uuid = some u) (_hD : action.DeferredEdit = some f)
    (hE : action.Edit = none) (hC : action.Command = none) :
    (ToCodeAction P issue action).Edit = none ∧
    (ToCodeAction P issue action).Command = none ∧
    (ToCodeAction P issue action).Data = some u ∧
    ∀ issues : Slice Issue, issue ∈ issues.toList → action ∈ issue.CodeActions.toList →
      ToCodeAction P issue action ∈ (ToCodeActions P issues).toList := by
  refine ⟨?_, ?_, ?_, ?_⟩
  · simp [ToCodeAction, hE, ToWorkspaceEdit]
  · simp [ToCodeAction, hC, ToCommand]
  · simp [ToCodeAction, hU]
  · intro issues hi ha
    rw [ToCodeActions_toList, List.mem_flatMap]
    exact ⟨issue, hi, List.mem_map_of_mem _ ha⟩

theorem ToCodeAction_deferred_only_identifier_witness :
    (ToCodeAction id issueWithDeferredAction deferredEditAction).Edit = none ∧
    (ToCodeAction id issueWithDeferredAction deferredEditAction).Command = none ∧
    (ToCodeAction id issueWithDeferredAction deferredEditAction).Data = some ⟨42⟩ :=
  have h := ToCodeAction_deferred_only_identifier id issueWithDeferredAction
    deferredEditAction ⟨42⟩ (fun _ => some mockEdit) rfl rfl rfl rfl
  ⟨h.1, h.2.1, h.2.2.1⟩

/-- C7, as stated, fails: the listing of the issue of
Test_GetCodeActions_ReturnsCorrectActions, whose code action carries an
immediate command, holds an action whose Command is not nil. -/
theorem ToCodeActions_exposes_immediate_command :
    ¬ (∀ a ∈ (ToCodeActions id (Slice.items [issueWithCommandAction])).toList,
        a.Edit = none ∧ a.Command = none) := by
  intro h
  have hmem : ToCodeAction id issueWithCommandAction fixThisCommandAction
      ∈ (ToCodeActions id (Slice.items [issueWithCommandAction])).toList := by
    rw [ToCodeActions_toList]
    simp [Slice.toList, issueWithCommandAction]
  have hc := (h _ hmem).2
  simp [ToCodeAction, ToCommand, fixThisCommandAction] at hc

/-- C7, amended: every action of the listing `ToCodeActions` is the
conversion of an (issue, code action) pair of the list; its Edit is the
converted immediate edit of that code action and its Command the converted
immediate command, so each is nil exactly when the code action carries no
immediate one; deferred producers are never exposed, only the Uuid in Data. -/
theorem ToCodeActions_exposes_only_immediate (P : String → String) (issues : Slice Issue) :
    ∀ a ∈ (ToCodeActions P issues).toList,
      ∃ issue ∈ issues.toList, ∃ action ∈ issue.CodeActions.toList,
        a = ToCodeAction P issue action ∧
        a.Edit = ToWorkspaceEdit P action.Edit ∧
        a.Command = ToCommand action.Command ∧
        (a.Edit = none ↔ action.Edit = none) ∧
        (a.Command = none ↔ action.Command = none) ∧
        a.Data = action.Uuid := by
  intro a ha
  rw [ToCodeActions_toList, List.mem_flatMap] at ha
  obtain ⟨issue, hi, ha⟩ := ha
  rw [List.mem_map] at ha
  obtain ⟨action, hact, rfl⟩ := ha
  refine ⟨issue, hi, action, hact, rfl, rfl, rfl, ?_, ?_, ?_⟩
  · cases h : action.Edit <;> simp [ToCodeAction, ToWorkspaceEdit, h]
  · cases h : action.Command <;> simp [ToCodeAction, ToCommand, h]
  · cases h : action.Uuid <;> simp [ToCodeAction, h]

theorem ToCodeActions_exposes_only_immediate_witness :
    ∃ issue ∈ (Slice.items [issueWithCommandAction, issueWithDeferredAction]).toList,
      ∃ action ∈ issue.CodeActions.toList,
        ToCodeAction id issueWithDeferredAction deferredEditAction
          = ToCodeAction id issue action ∧
        (ToCodeAction id issueWithDeferredAction deferredEditAction).Edit
          = ToWorkspaceEdit id action.Edit ∧
        (ToCodeAction id issueWithDeferredAction deferredEditAction).Command
          = ToCommand action.Command ∧
        ((ToCodeAction id issueWithDeferredAction deferredEditAction).Edit = none
          ↔ action.Edit = none) ∧
        ((ToCodeAction id issueWithDeferredAction deferredEditAction).Command = none
          ↔ action.Command = none) ∧
        (ToCodeAction id issueWithDeferredAction deferredEditAction).Data = action.Uuid :=
  ToCodeActions_exposes_only_immediate id
    (Slice.items [issueWithCommandAction, issueWithDeferredAction])
    (ToCodeAction id issueWithDeferredAction deferredEditAction)
    (by
      rw [ToCodeActions_toList]
      simp [Slice.toList, issueWithCommandAction, issueWithDeferredAction])

/-- C8: `ToCodeActions` returns exactly one wire action per (issue, code
action) pair, in issue order and then action order, each the conversion of
its pair; an action that carries an immediate Command is converted with a
Command of the same identifier, title and arguments. -/
theorem ToCodeActions_one_per_pair (P : String → String) (issues : Slice Issue) :
    (ToCodeActions P issues).toList
        = (actionPairs issues).map (fun pair => ToCodeAction P pair.1 pair.2) ∧
    (ToCodeActions P issues).len = (actionPairs issues).length ∧
    ∀ (issue : Issue) (action : CodeAction) (cmd : CommandData),
      action.Command = some cmd →
      (ToCodeAction P issue action).Command
        = some { Title := cmd.Title, Command := cmd.CommandId, Arguments := cmd.Arguments } := by
  have h1 : (ToCodeActions P issues).toList
      = (actionPairs issues).map (fun pair => ToCodeAction P pair.1 pair.2) := by
    rw [ToCodeActions_toList, actionPairs, List.map_flatMap]
    simp [Function.comp_def]
  refine ⟨h1, ?_, ?_⟩
  · simp [Slice.len, h1]
  · intro issue action cmd hcmd
    simp [ToCodeAction, ToCommand, hcmd]

/-! ## Properties of code-action resolution and of the command factory -/

/-- C9: `ResolveCodeAction` on an action whose Data is nil fails with an
error for which `IsMissingKeyError` is true, whatever the table and the
command layer; for a non-nil identifier that the resolution table cannot
match to a live deferred edit it fails with an error for which
`IsMissingKeyError` is false. -/
theorem ResolveCodeAction_missing_key_vs_unknown_key (P : String → String)
    (c : CodeActionsService) (commandService : CommandData → Except GoError Unit) :
    (∀ action : LspCodeAction, action.Data = none →
      ∃ err, c.ResolveCodeAction P commandService action = .error err ∧
        IsMissingKeyError err = true) ∧
    (∀ (action : LspCodeAction) (key : UUID), action.Data = some key →
      action.Command = none →
      (mapGet c.actionsCache key = none ∨
        ∃ cached, mapGet c.actionsCache key = some cached ∧
          cached.action.DeferredEdit = none) →
      ∃ err, c.ResolveCodeAction P commandService action = .error err ∧
        IsMissingKeyError err = false) := by
  constructor
  · intro action hdata
    exact ⟨.missingKeyError, by simp [CodeActionsService.ResolveCodeAction, hdata], rfl⟩
  · intro action key hdata hcmd hlookup
    refine ⟨.errorString "key does not exist", ?_, rfl⟩
    rcases hlookup with hnone | ⟨cached, hsome, hdef⟩
    · simp [CodeActionsService.ResolveCodeAction, hdata, hcmd, hnone]
    · simp [CodeActionsService.ResolveCodeAction, hdata, hcmd, hsome, hdef]

theorem ResolveCodeAction_missing_key_vs_unknown_key_witness :
    (∃ err, (NewService (fun _ _ => Slice.items [])).ResolveCodeAction id
        (ExecuteCommandData (fun cd => cd.CommandId) exampleDeps (fun _ => .ok ()))
        (madeUpAction none none) = .error err ∧ IsMissingKeyError err = true) ∧
    (∃ err, (NewService (fun _ _ => Slice.items [])).ResolveCodeAction id
        (ExecuteCommandData (fun cd => cd.CommandId) exampleDeps (fun _ => .ok ()))
        (madeUpAction (some ⟨7⟩) none) = .error err ∧ IsMissingKeyError err = false) :=
  have h := ResolveCodeAction_missing_key_vs_unknown_key id
    (NewService (fun _ _ => Slice.items []))
    (ExecuteCommandData (fun cd => cd.CommandId) exampleDeps (fun _ => .ok ()))
  ⟨h.1 (madeUpAction none none) rfl,
    h.2 (madeUpAction (some ⟨7⟩) none) ⟨7⟩ rfl rfl (Or.inl rfl)⟩

theorem contains_unknown_command (rest : String) :
    Contains ("unknown command " ++ rest) "unknown command" := by
  unfold Contains
  rw [String.data_append]
  exact ⟨[], ' ' :: rest.data, by
    have h : "unknown command ".data = "unknown command".data ++ [' '] := by decide
    rw [h]
    simp⟩

/-- C10: `CreateFromCommandData` returns an error exactly when the CommandId
is none of the identifiers declared in domain/vulnmap/command.go; the text
of that error contains "unknown command"; for every declared identifier it
returns a command and no error. -/
theorem CreateFromCommandData_fails_iff_undeclared (sprintV : CommandData → String)
    (commandData : CommandData) (d : CommandDeps) :
    ((∃ err, CreateFromCommandData sprintV commandData d = .error err) ↔
        commandData.CommandId ∉ declaredCommandIds) ∧
    (commandData.CommandId ∉ declaredCommandIds →
        ∃ err, CreateFromCommandData sprintV commandData d = .error err ∧
          Contains err.Error "unknown command") ∧
    (commandData.CommandId ∈ declaredCommandIds →
        ∃ cmd, CreateFromCommandData sprintV commandData d = .ok cmd) := by
  have hok : commandData.CommandId ∈ declaredCommandIds →
      ∃ cmd, CreateFromCommandData sprintV commandData d = .ok cmd := by
    intro hmem
    simp only [declaredCommandIds, List.mem_cons, List.mem_singleton, List.not_mem_nil,
      or_false] at hmem
    unfold CreateFromCommandData
    by_cases c1 : commandData.CommandId = NavigateToRangeCommand
    · exact ⟨_, if_pos c1⟩
    rw [if_neg c1]
    by_cases c2 : commandData.CommandId = WorkspaceScanCommand
    · exact ⟨_, if_pos c2⟩
    rw [if_neg c2]
    by_cases c3 : commandData.CommandId = WorkspaceFolderScanCommand
    · exact ⟨_, if_pos c3⟩
    rw [if_neg c3]
    by_cases c4 : commandData.CommandId = OpenBrowserCommand
    · exact ⟨_, if_pos c4⟩
    rw [if_neg c4]
    by_cases c5 : commandData.CommandId = LoginCommand
    · exact ⟨_, if_pos c5⟩
    rw [if_neg c5]
    by_cases c6 : commandData.CommandId = CopyAuthLinkCommand
    · exact ⟨_, if_pos c6⟩
    rw [if_neg c6]
    by_cases c7 : commandData.CommandId = LogoutCommand
    · exact ⟨_, if_pos c7⟩
    rw [if_neg c7]
    by_cases c8 : commandData.CommandId = TrustWorkspaceFoldersCommand
    · exact ⟨_, if_pos c8⟩
    rw [if_neg c8]
    by_cases c9 : commandData.CommandId = GetLearnLesson
    · exact ⟨_, if_pos c9⟩
    rw [if_neg c9]
    by_cases c10 : commandData.CommandId = OpenLearnLesson
    · exact ⟨_, if_pos c10⟩
    rw [if_neg c10]
    by_cases c11 : commandData.CommandId = GetSettingsSastEnabled
    · exact ⟨_, if_pos c11⟩
    rw [if_neg c11]
    by_cases c12 : commandData.CommandId = GetActiveUserCommand
    · exact ⟨_, if_pos c12⟩
    rw [if_neg c12]
    by_cases c13 : commandData.CommandId = ReportAnalyticsCommand
    · exact ⟨_, if_pos c13⟩
    rw [if_neg c13]
    by_cases c14 : commandData.CommandId = CodeFixCommand
    · exact ⟨_, if_pos c14⟩
    rw [if_neg c14]
    by_cases c15 : commandData.CommandId = CodeSubmitFixFeedback
    · exact ⟨_, if_pos c15⟩
    rw [if_neg c15]
    exfalso
    rcases hmem with h | h | h | h | h | h | h | h | h | h | h | h | h | h | h <;>
      contradiction
  have herr : commandData.CommandId ∉ declaredCommandIds →
      CreateFromCommandData sprintV commandData d
        = .error (.errorString ("unknown command " ++ sprintV commandData)) := by
    intro hmem
    simp only [declaredCommandIds, List.mem_cons, List.mem_singleton, List.not_mem_nil,
      or_false, not_or] at hmem
    obtain ⟨h1, h2, h3, h4, h5, h6, h7, h8, h9, h10, h11, h12, h13, h14, h15⟩ := hmem
    unfold CreateFromCommandData
    rw [if_neg h1, if_neg h2, if_neg h3, if_neg h4, if_neg h5, if_neg h6, if_neg h7,
      if_neg h8, if_neg h10, if_neg h9, if_neg h11, if_neg h12, if_neg h13, if_neg h14,
      if_neg h15]
  refine ⟨⟨?_, fun h => ⟨_, herr h⟩⟩, ?_, hok⟩
  · rintro ⟨err, he⟩ hmem
    obtain ⟨cmd, hc⟩ := hok hmem
    rw [hc] at he
    cases he
  · intro h
    exact ⟨_, herr h, contains_unknown_command _⟩

theorem CreateFromCommandData_fails_iff_undeclared_witness :
    (∃ err, CreateFromCommandData (fun cd => cd.CommandId) testCommandData exampleDeps
        = .error err ∧ Contains err.Error "unknown command") ∧
    (∃ cmd, CreateFromCommandData (fun cd => cd.CommandId) FakeCommand exampleDeps
        = .ok cmd) :=
  ⟨(CreateFromCommandData_fails_iff_undeclared (fun cd => cd.CommandId) testCommandData
      exampleDeps).2.1 (by decide),
    (CreateFromCommandData_fails_iff_undeclared (fun cd => cd.CommandId) FakeCommand
      exampleDeps).2.2 (by decide)⟩

/-! ## Properties of deferred resolution and of code-action construction -/

theorem mapGet_mapSet {K V : Type} [DecidableEq K] (m : List (K × V)) (k k' : K) (v : V) :
    mapGet (mapSet m k v) k' = if k = k' then some v else mapGet m k' := by
  induction m with
  | nil =>
    simp only [mapSet, mapGet]
  | cons kv rest ih =>
    obtain ⟨k0, v0⟩ := kv
    by_cases h0 : k0 = k
    · subst h0
      by_cases h1 : k0 = k'
      · simp [mapSet, mapGet, h1]
      · simp [mapSet, mapGet, h1]
    · by_cases h1 : k0 = k'
      · subst h1
        have hk : ¬ k = k0 := fun h => h0 h.symm
        simp [mapSet, mapGet, h0, hk]
      · simp [mapSet, mapGet, h0, h1, ih]

theorem wellKeyed_nil : WellKeyed [] := by
  intro k cached h
  simp [mapGet] at h

theorem wellKeyed_mapSet (cache : List (UUID × cachedAction)) (h : WellKeyed cache)
    (issue : Issue) (action : CodeAction) (u : UUID) (hu : action.Uuid = some u) :
    WellKeyed (mapSet cache u { issue := issue, action := action }) := by
  intro k cached hget
  rw [mapGet_mapSet] at hget
  by_cases hk : u = k
  · rw [if_pos hk] at hget
    cases hget
    rw [← hk]
    exact hu
  · rw [if_neg hk] at hget
    exact h k cached hget

theorem wellKeyed_stashActions (cache : List (UUID × cachedAction)) (h : WellKeyed cache)
    (issues : Slice Issue) : WellKeyed (stashActions cache issues) := by
  unfold stashActions
  generalize issues.toList = is
  induction is generalizing cache with
  | nil => exact h
  | cons issue is ih =>
    rw [List.foldl_cons]
    apply ih
    generalize issue.CodeActions.toList = acts
    induction acts generalizing cache with
    | nil => exact h
    | cons action acts iha =>
      rw [List.foldl_cons]
      apply iha
      cases hu : action.Uuid with
      | none => exact h
      | some u => exact wellKeyed_mapSet cache h issue action u hu

theorem wellKeyed_GetCodeActions (P Q : String → String) (c : CodeActionsService)
    (w : FileWatcher) (params : CodeActionParams) (h : WellKeyed c.actionsCache) :
    WellKeyed (c.GetCodeActions P Q w params).2.actionsCache := by
  unfold CodeActionsService.GetCodeActions
  split
  · exact h
  · exact wellKeyed_stashActions _ h _

theorem ResolveCodeActionIn_without_effects (P : String → String) (c : CodeActionsService)
    (commandService : CommandData → Except GoError Unit) (action : LspCodeAction) :
    (c.ResolveCodeActionIn P commandService (fun producer (s : Unit) => (producer (), s))
      action ()).1 = c.ResolveCodeAction P commandService action := by
  unfold CodeActionsService.ResolveCodeActionIn CodeActionsService.ResolveCodeAction
  cases action.Data with
  | none => rfl
  | some key =>
    cases action.Command with
    | some cmd =>
      simp only
      cases commandService
        { Title := cmd.Title, CommandId := cmd.Command, Arguments := cmd.Arguments } <;> rfl
    | none =>
      simp only
      cases mapGet c.actionsCache key with
      | none => rfl
      | some cached =>
        simp only
        cases cached.action.DeferredEdit <;> rfl

theorem listed_action_as_listed (P Q : String → String) (c0 : CodeActionsService)
    (w : FileWatcher) (params : CodeActionParams) (a : LspCodeAction)
    (hlisted : a ∈ (c0.GetCodeActions P Q w params).1.toList) :
    ∃ issue ∈ (c0.IssuesProvider (Q params.URI) (FromRange params.Range)).toList,
      ∃ action ∈ issue.CodeActions.toList, a = ToCodeAction P issue action := by
  unfold CodeActionsService.GetCodeActions at hlisted
  by_cases hd : w.IsDirty params.URI = true
  · rw [if_pos hd] at hlisted
    simp [Slice.toList] at hlisted
  · rw [if_neg hd] at hlisted
    simp only at hlisted
    rw [ToCodeActions_toList, List.mem_flatMap] at hlisted
    obtain ⟨issue, hissue, hin⟩ := hlisted
    rw [List.mem_map] at hin
    obtain ⟨action, haction, rfl⟩ := hin
    exact ⟨issue, hissue, action, haction, rfl⟩

/-- C11: let an action be one of those a listing returned, with Data the key
of a live deferred edit in the resolution table the listing left, the issues
of the listing keeping to the invariant that a code action with an
identifier carries no immediate edit or command. Then the action was listed
with Edit and Command nil; `ResolveCodeAction` succeeds and returns an action
with the same Data whose Edit is the conversion by `ToWorkspaceEdit` of what
the producer returns; in every world the producers act on, the world after
the call is the world after one call of this producer, and the edit
converted is what that one call returned; the service is left as it was, and
a listing made after the resolution returns what the listing returned
before, the action with Edit and Command nil included. -/
theorem ResolveCodeAction_materializes_deferred_edit (P Q : String → String)
    (c0 : CodeActionsService) (w : FileWatcher) (params : CodeActionParams)
    (commandService : CommandData → Except GoError Unit)
    (a : LspCodeAction) (key : UUID) (cached : cachedAction)
    (producer : Unit → Option WorkspaceEdit)
    (hkeyed : WellKeyed c0.actionsCache)
    (hinv : ∀ issue ∈ (c0.IssuesProvider (Q params.URI) (FromRange params.Range)).toList,
      ∀ action ∈ issue.CodeActions.toList,
        action.Uuid ≠ none → action.Edit = none ∧ action.Command = none)
    (hlisted : a ∈ (c0.GetCodeActions P Q w params).1.toList)
    (hdata : a.Data = some key)
    (hlive : mapGet (c0.GetCodeActions P Q w params).2.actionsCache key = some cached)
    (hprod : cached.action.DeferredEdit = some producer) :
    (a.Edit = none ∧ a.Command = none) ∧
    (∃ resolved : LspCodeAction,
      (c0.GetCodeActions P Q w params).2.ResolveCodeAction P commandService a = .ok resolved ∧
      resolved.Data = a.Data ∧
      resolved.Edit = ToWorkspaceEdit P (producer ())) ∧
    (∀ (σ : Type) (invoke : (Unit → Option WorkspaceEdit) → σ → Option WorkspaceEdit × σ)
      (s : σ),
      ∃ resolved : LspCodeAction,
        (c0.GetCodeActions P Q w params).2.ResolveCodeActionIn P commandService invoke a s
          = (.ok resolved, (c0.GetCodeActions P Q w params).2, (invoke producer s).2) ∧
        resolved.Data = a.Data ∧
        resolved.Edit = ToWorkspaceEdit P (invoke producer s).1) ∧
    (∀ calls : Nat,
      ((c0.GetCodeActions P Q w params).2.ResolveCodeActionIn P commandService
        countingInvoke a calls).2.2 = calls + 1) ∧
    (((c0.GetCodeActions P Q w params).2.GetCodeActions P Q w params).1
        = (c0.GetCodeActions P Q w params).1 ∧
      a ∈ (((c0.GetCodeActions P Q w params).2.GetCodeActions P Q w params).1).toList) := by
  have huuid := wellKeyed_GetCodeActions P Q c0 w params hkeyed key cached hlive
  obtain ⟨issue, hissue, action, haction, ha⟩ := listed_action_as_listed P Q c0 w params a hlisted
  have hau : action.Uuid = some key := by
    rw [ha] at hdata
    simp only [ToCodeAction] at hdata
    cases hu : action.Uuid with
    | none => rw [hu] at hdata; simp at hdata
    | some u => rw [hu] at hdata; simpa using hdata
  have himm := hinv issue hissue action haction (by rw [hau]; simp)
  have hnil : a.Edit = none ∧ a.Command = none := by
    rw [ha]
    simp [ToCodeAction, ToWorkspaceEdit, ToCommand, himm.1, himm.2]
  have hresolvedData :
      (ToCodeAction P cached.issue cached.action).Data = a.Data := by
    simp [ToCodeAction, huuid, hdata]
  have hsame : ((c0.GetCodeActions P Q w params).2.GetCodeActions P Q w params).1
      = (c0.GetCodeActions P Q w params).1 := by
    unfold CodeActionsService.GetCodeActions
    by_cases hd : w.IsDirty params.URI = true
    · simp [hd]
    · simp [hd]
  refine ⟨hnil, ?_, ?_, ?_, hsame, by rw [hsame]; exact hlisted⟩
  · refine ⟨{ ToCodeAction P cached.issue cached.action with
        Edit := ToWorkspaceEdit P (producer ()) }, ?_, hresolvedData, rfl⟩
    simp [CodeActionsService.ResolveCodeAction, hdata, hnil.2, hlive, hprod]
  · intro σ invoke s
    refine ⟨{ ToCodeAction P cached.issue cached.action with
        Edit := ToWorkspaceEdit P (invoke producer s).1 }, ?_, hresolvedData, rfl⟩
    simp [CodeActionsService.ResolveCodeActionIn, hdata, hnil.2, hlive, hprod]
  · intro calls
    simp [CodeActionsService.ResolveCodeActionIn, hdata, hnil.2, hlive, hprod, countingInvoke]

theorem ResolveCodeAction_materializes_deferred_edit_witness :
    ((ToCodeAction id issueWithDeferredAction deferredEditAction).Edit = none ∧
      (ToCodeAction id issueWithDeferredAction deferredEditAction).Command = none) ∧
    (∃ resolved : LspCodeAction,
      ((NewService (fun _ _ => Slice.items [issueWithDeferredAction])).GetCodeActions id id
          NewFileWatcher exampleParams).2.ResolveCodeAction id
          (ExecuteCommandData (fun cd => cd.CommandId) exampleDeps (fun _ => .ok ()))
          (ToCodeAction id issueWithDeferredAction deferredEditAction) = .ok resolved ∧
      resolved.Data = (ToCodeAction id issueWithDeferredAction deferredEditAction).Data ∧
      resolved.Edit = ToWorkspaceEdit id (some mockEdit)) ∧
    (((NewService (fun _ _ => Slice.items [issueWithDeferredAction])).GetCodeActions id id
          NewFileWatcher exampleParams).2.ResolveCodeActionIn id
          (ExecuteCommandData (fun cd => cd.CommandId) exampleDeps (fun _ => .ok ()))
          countingInvoke
          (ToCodeAction id issueWithDeferredAction deferredEditAction) 0).2.2 = 1 :=
  have h := ResolveCodeAction_materializes_deferred_edit id id
    (NewService (fun _ _ => Slice.items [issueWithDeferredAction])) NewFileWatcher
    exampleParams
    (ExecuteCommandData (fun cd => cd.CommandId) exampleDeps (fun _ => .ok ()))
    (ToCodeAction id issueWithDeferredAction deferredEditAction) ⟨42⟩
    { issue := issueWithDeferredAction, action := deferredEditAction }
    (fun _ => some mockEdit) wellKeyed_nil
    (by
      intro issue hissue action haction _
      simp only [NewService, Slice.toList, List.mem_singleton] at hissue
      subst hissue
      simp only [issueWithDeferredAction, Slice.toList, List.mem_singleton] at haction
      subst haction
      exact ⟨rfl, rfl⟩)
    (by
      simp only [CodeActionsService.GetCodeActions, NewFileWatcher, FileWatcher.IsDirty]
      simp [NewService, ToCodeActions, issueWithDeferredAction, Slice.toList, Slice.append])
    rfl rfl rfl
  ⟨h.1, h.2.1, h.2.2.2.1 0⟩

/-- C12: `NewCodeAction` returns an error if and only if edit and command
are both nil, and `NewDeferredCodeAction` returns an error if and only if
both producers are nil. -/
theorem NewCodeAction_fails_iff_nothing_actionable (newUuid : UUID) (title : String)
    (edit : Option WorkspaceEdit) (command : Option CommandData)
    (deferredEdit : Option (Unit → Option WorkspaceEdit))
    (deferredCommand : Option (Unit → Option CommandData)) :
    (Failed (NewCodeAction title edit command) ↔ edit = none ∧ command = none) ∧
    (Failed (NewDeferredCodeAction newUuid title deferredEdit deferredCommand) ↔
      deferredEdit = none ∧ deferredCommand = none) := by
  constructor
  · cases edit <;> cases command <;> simp [Failed, NewCodeAction]
  · cases deferredEdit <;> cases deferredCommand <;> simp [Failed, NewDeferredCodeAction]

theorem NewCodeAction_fails_iff_nothing_actionable_witness :
    Failed (NewCodeAction "title" none none) ∧
    ¬ Failed (NewCodeAction "title" (some mockEdit) (some mockCommand)) ∧
    Failed (NewDeferredCodeAction ⟨42⟩ "title" none none) :=
  have h := NewCodeAction_fails_iff_nothing_actionable ⟨42⟩ "title" none none none none
  have h2 := NewCodeAction_fails_iff_nothing_actionable ⟨42⟩ "title" (some mockEdit)
    (some mockCommand) none none
  ⟨h.1.2 ⟨rfl, rfl⟩, fun hf => Option.noConfusion (h2.1.1 hf).1, h.2.2 ⟨rfl, rfl⟩⟩

/-- C13: a CodeAction returned without error by `NewCodeAction`,
`NewPreferredCodeAction` or `NewDeferredCodeAction` never holds both Edit and
DeferredEdit, nor both Command and DeferredCommand; one built by
`NewDeferredCodeAction` has Edit nil, Command nil, exactly the producers it
was given, and the generated Uuid, which is not nil. -/
theorem constructed_CodeAction_immediate_xor_deferred (newUuid : UUID) (title : String)
    (edit : Option WorkspaceEdit) (command : Option CommandData)
    (deferredEdit : Option (Unit → Option WorkspaceEdit))
    (deferredCommand : Option (Unit → Option CommandData)) :
    (∀ action : CodeAction,
      (NewCodeAction title edit command = .ok action ∨
        NewPreferredCodeAction title edit command = .ok action ∨
        NewDeferredCodeAction newUuid title deferredEdit deferredCommand = .ok action) →
      ¬ (action.Edit ≠ none ∧ action.DeferredEdit ≠ none) ∧
      ¬ (action.Command ≠ none ∧ action.DeferredCommand ≠ none)) ∧
    (∀ action : CodeAction,
      NewDeferredCodeAction newUuid title deferredEdit deferredCommand = .ok action →
      action.Edit = none ∧ action.Command = none ∧
      action.DeferredEdit = deferredEdit ∧ action.DeferredCommand = deferredCommand ∧
      action.Uuid = some newUuid ∧ action.Uuid ≠ none) := by
  have hdef : ∀ action : CodeAction,
      NewDeferredCodeAction newUuid title deferredEdit deferredCommand = .ok action →
      action.Edit = none ∧ action.Command = none ∧
      action.DeferredEdit = deferredEdit ∧ action.DeferredCommand = deferredCommand ∧
      action.Uuid = some newUuid ∧ action.Uuid ≠ none := by
    intro action h
    cases deferredEdit <;> cases deferredCommand <;>
      simp only [NewDeferredCodeAction, Except.ok.injEq, reduceCtorEq] at h <;>
      subst h <;> simp
  have himm : ∀ action : CodeAction, NewCodeAction title edit command = .ok action →
      action.DeferredEdit = none ∧ action.DeferredCommand = none := by
    intro action h
    cases edit <;> cases command <;>
      simp only [NewCodeAction, Except.ok.injEq, reduceCtorEq] at h <;>
      subst h <;> simp
  refine ⟨?_, hdef⟩
  intro action h
  rcases h with h | h | h
  · obtain ⟨h1, h2⟩ := himm action h
    simp [h1, h2]
  · unfold NewPreferredCodeAction at h
    cases hn : NewCodeAction title edit command with
    | error err => simp [hn] at h
    | ok base =>
      obtain ⟨h1, h2⟩ := himm base hn
      simp only [hn, Except.ok.injEq] at h
      subst h
      simp [h1, h2]
  · obtain ⟨h1, h2, _⟩ := hdef action h
    simp [h1, h2]

theorem constructed_CodeAction_immediate_xor_deferred_witness :
    ∃ action : CodeAction,
      NewDeferredCodeAction ⟨42⟩ "title" (some (fun _ => some mockEdit))
          (some (fun _ => some mockCommand)) = .ok action ∧
      action.Edit = none ∧ action.Command = none ∧ action.Uuid = some ⟨42⟩ :=
  have h := (constructed_CodeAction_immediate_xor_deferred ⟨42⟩ "title" none none
    (some (fun _ => some mockEdit)) (some (fun _ => some mockCommand))).2 _ rfl
  ⟨_, rfl, h.1, h.2.1, h.2.2.2.2.1⟩

/-! ## Properties of the CLI environment -/

theorem Slice.toList_append {α : Type} (s : Slice α) (x : α) :
    (s.append x).toList = s.toList ++ [x] := rfl

theorem Slice.toList_nil {α : Type} : (Slice.nil : Slice α).toList = [] := rfl

theorem removeExistingEnvVars_toList (cfg : CliConfig) (env : List String)
    (acc : Slice String) :
    (env.foldl
      (fun updatedEnv s =>
        if (valuesToRemove cfg).contains (envKey s) then updatedEnv
        else updatedEnv.append s) acc).toList
      = acc.toList ++ env.filter (fun s => !(valuesToRemove cfg).contains (envKey s)) := by
  induction env generalizing acc with
  | nil => simp
  | cons s env ih =>
    rw [List.foldl_cons, ih]
    by_cases h : envKey s ∈ valuesToRemove cfg <;> simp [h, Slice.toList_append]

theorem appendTokenVars_toList (cfg : CliConfig) (appendToken : Bool) (acc : Slice String) :
    (appendTokenVars cfg appendToken acc).toList
      = acc.toList ++ (appendTokenVars cfg appendToken Slice.nil).toList := by
  unfold appendTokenVars
  split
  · split
    · split
      · split <;> simp [Slice.toList_append, Slice.toList_nil]
      · simp [Slice.toList_nil]
    · simp [Slice.toList_append, Slice.toList_nil]
  · simp [Slice.toList_nil]

theorem appendApiAndAnalyticsVars_toList (cfg : CliConfig) (acc : Slice String) :
    (appendApiAndAnalyticsVars cfg acc).toList
      = acc.toList ++ (appendApiAndAnalyticsVars cfg Slice.nil).toList := by
  unfold appendApiAndAnalyticsVars
  by_cases h1 : cfg.VulnmapApi ≠ "" <;> by_cases h2 : (!cfg.IsTelemetryEnabled) = true <;>
    simp [h1, h2, Slice.toList_append, Slice.toList_nil]

theorem appendIntegrationVars_toList (cfg : CliConfig) (acc : Slice String) :
    (appendIntegrationVars cfg acc).toList
      = acc.toList ++ (appendIntegrationVars cfg Slice.nil).toList := by
  unfold appendIntegrationVars
  split <;> simp [Slice.toList_append, Slice.toList_nil]

theorem AppendCliEnvironmentVariables_toList (cfg : CliConfig) (env : Slice String)
    (appendToken : Bool) :
    (AppendCliEnvironmentVariables cfg env appendToken).toList
      = env.toList.filter (fun s => !(valuesToRemove cfg).contains (envKey s))
        ++ (AppendCliEnvironmentVariables cfg Slice.nil appendToken).toList := by
  have hnil : removeExistingEnvVars cfg Slice.nil Slice.nil = Slice.nil := rfl
  unfold AppendCliEnvironmentVariables
  simp only [hnil]
  rw [appendIntegrationVars_toList, appendApiAndAnalyticsVars_toList, appendTokenVars_toList]
  rw [appendIntegrationVars_toList cfg
      (appendApiAndAnalyticsVars cfg (appendTokenVars cfg appendToken Slice.nil)),
    appendApiAndAnalyticsVars_toList cfg (appendTokenVars cfg appendToken Slice.nil)]
  unfold removeExistingEnvVars
  rw [removeExistingEnvVars_toList]
  simp [Slice.toList_nil, List.append_assoc]

/-- C20: the result of `AppendCliEnvironmentVariables` starts with exactly
the input entries, in their order, whose key (the text before the first '=')
is none of VULNMAP_API, VULNMAP_TOKEN, VULNMAP_OAUTH_TOKEN,
VULNMAP_CFG_DISABLE_ANALYTICS, the OAuth-token configuration key and the
OAuth-flow feature-flag key; what follows that prefix is what the function
generates from the configuration for the empty input, so it does not depend
on the input, and no input entry with one of those keys is in the prefix. -/
theorem AppendCliEnvironmentVariables_keeps_exactly_other_keys (cfg : CliConfig)
    (env : Slice String) (appendToken : Bool) :
    (AppendCliEnvironmentVariables cfg env appendToken).toList
      = env.toList.filter
          (fun s => decide (envKey s ∉
            ["VULNMAP_API", "VULNMAP_TOKEN", "VULNMAP_OAUTH_TOKEN",
              "VULNMAP_CFG_DISABLE_ANALYTICS", cfg.CONFIG_KEY_OAUTH_TOKEN,
              cfg.FF_OAUTH_AUTH_FLOW_ENABLED]))
        ++ (AppendCliEnvironmentVariables cfg Slice.nil appendToken).toList ∧
    ∀ s ∈ env.toList,
      envKey s ∈ ["VULNMAP_API", "VULNMAP_TOKEN", "VULNMAP_OAUTH_TOKEN",
        "VULNMAP_CFG_DISABLE_ANALYTICS", cfg.CONFIG_KEY_OAUTH_TOKEN,
        cfg.FF_OAUTH_AUTH_FLOW_ENABLED] →
      s ∉ env.toList.filter
          (fun s => decide (envKey s ∉
            ["VULNMAP_API", "VULNMAP_TOKEN", "VULNMAP_OAUTH_TOKEN",
              "VULNMAP_CFG_DISABLE_ANALYTICS", cfg.CONFIG_KEY_OAUTH_TOKEN,
              cfg.FF_OAUTH_AUTH_FLOW_ENABLED])) := by
  constructor
  · rw [AppendCliEnvironmentVariables_toList]
    congr 1
    apply List.filter_congr
    intro s _
    have hv : valuesToRemove cfg = ["VULNMAP_API", "VULNMAP_TOKEN", "VULNMAP_OAUTH_TOKEN",
        "VULNMAP_CFG_DISABLE_ANALYTICS", cfg.CONFIG_KEY_OAUTH_TOKEN,
        cfg.FF_OAUTH_AUTH_FLOW_ENABLED] := rfl
    rw [hv]
    simp
  · intro s _ hkey hmem
    rw [List.mem_filter] at hmem
    exact (of_decide_eq_true hmem.2) hkey

theorem AppendCliEnvironmentVariables_keeps_exactly_other_keys_witness :
    (AppendCliEnvironmentVariables oauthTestConfig
        (Slice.items ["PATH=/usr/bin", "VULNMAP_TOKEN=\x7basdf\x7d", "HOME", "A=b=c"])
        true).toList
      = ["PATH=/usr/bin", "HOME", "A=b=c", "VULNMAP_OAUTH_TOKEN=testToken",
         "VULNMAP_API=https://app.vulnmap.khulnasoft.com/api",
         "VULNMAP_CFG_DISABLE_ANALYTICS=1", "VULNMAP_INTEGRATION_NAME=ECLIPSE",
         "VULNMAP_INTEGRATION_VERSION=20230606.182718",
         "VULNMAP_INTEGRATION_ENVIRONMENT=Eclipse",
         "VULNMAP_INTEGRATION_ENVIRONMENT_VERSION=4.27.0"] :=
  (AppendCliEnvironmentVariables_keeps_exactly_other_keys oauthTestConfig
    (Slice.items ["PATH=/usr/bin", "VULNMAP_TOKEN=\x7basdf\x7d", "HOME", "A=b=c"])
    true).1.trans (by decide)

/-! ## Properties of the issue store -/

theorem IssueStore.allIssues_mapSet_other (store : IssueStore) (p q p' : String)
    (xs : Slice Issue) (h : p' ≠ p) :
    IssueStore.allIssues (mapSet store (p, q) xs) p' = IssueStore.allIssues store p' := by
  induction store with
  | nil =>
    have hp : ¬ p = p' := fun e => h e.symm
    simp [mapSet, IssueStore.allIssues, hp]
  | cons entry rest ih =>
    obtain ⟨⟨p0, q0⟩, v0⟩ := entry
    by_cases hk : (p0, q0) = (p, q)
    · have hp0 : p0 = p := congrArg Prod.fst hk
      have hp : ¬ p = p' := fun e => h e.symm
      have hp0' : ¬ p0 = p' := fun e => h (by rw [← e, hp0])
      simp [mapSet, hk, IssueStore.allIssues, hp, hp0']
    · unfold IssueStore.allIssues at ih ⊢
      simp only [mapSet, hk, if_false, List.flatMap_cons]
      rw [ih]

theorem IssueStore.allIssues_eq_other_of_not_mem (store : IssueStore) (p q : String)
    (h : (p, q) ∉ store.map Prod.fst) :
    IssueStore.allIssues store p = IssueStore.otherProductIssues store p q := by
  induction store with
  | nil => rfl
  | cons entry rest ih =>
    obtain ⟨⟨p0, q0⟩, v0⟩ := entry
    rw [List.map_cons, List.mem_cons, not_or] at h
    unfold IssueStore.allIssues IssueStore.otherProductIssues at ih ⊢
    rw [List.flatMap_cons, List.flatMap_cons, ih h.2]
    by_cases hp : p0 = p
    · have hq : q0 ≠ q := fun e => h.1 (by rw [hp, e])
      simp [hp, hq]
    · simp [hp]

theorem IssueStore.allIssues_SetIssues (store : IssueStore) (p q : String) (xs : Slice Issue)
    (hkeys : (store.map Prod.fst).Nodup) :
    ∃ before after : List Issue,
      IssueStore.allIssues (store.SetIssues p q xs) p = before ++ xs.toList ++ after ∧
      IssueStore.otherProductIssues store p q = before ++ after ∧
      IssueStore.otherProductIssues (store.SetIssues p q xs) p q = before ++ after := by
  unfold IssueStore.SetIssues
  induction store with
  | nil =>
    exact ⟨[], [], by simp [mapSet, IssueStore.allIssues], rfl,
      by simp [mapSet, IssueStore.otherProductIssues]⟩
  | cons entry rest ih =>
    obtain ⟨⟨p0, q0⟩, v0⟩ := entry
    rw [List.map_cons, List.nodup_cons] at hkeys
    by_cases hk : (p0, q0) = (p, q)
    · cases hk
      refine ⟨[], IssueStore.otherProductIssues rest p q, ?_, ?_, ?_⟩
      · rw [← IssueStore.allIssues_eq_other_of_not_mem rest p q hkeys.1]
        simp [mapSet, IssueStore.allIssues]
      · simp [IssueStore.otherProductIssues]
      · simp [mapSet, IssueStore.otherProductIssues]
    · obtain ⟨before, after, h1, h2, h3⟩ := ih hkeys.2
      have hother : (if p0 = p ∧ q0 ≠ q then v0.toList else [])
          = (if p0 = p then v0.toList else []) := by
        by_cases hp : p0 = p
        · have hq : q0 ≠ q := fun e => hk (by rw [hp, e])
          simp [hp, hq]
        · simp [hp]
      refine ⟨(if p0 = p then v0.toList else []) ++ before, after, ?_, ?_, ?_⟩
      · simp only [mapSet, hk, if_false]
        unfold IssueStore.allIssues at h1 ⊢
        rw [List.flatMap_cons, h1]
        simp
      · unfold IssueStore.otherProductIssues at h2 ⊢
        rw [List.flatMap_cons, h2]
        simp only [hother]
        simp
      · simp only [mapSet, hk, if_false]
        unfold IssueStore.otherProductIssues at h3 ⊢
        rw [List.flatMap_cons, h3]
        simp only [hother]
        simp

theorem IssueStore.otherProductIssues_tagged (store : IssueStore) (p q : String)
    (htag : ∀ entry ∈ store, ∀ i ∈ entry.2.toList, i.Product = entry.1.2) :
    ∀ i ∈ IssueStore.otherProductIssues store p q, i.Product ≠ q := by
  intro i hi
  unfold IssueStore.otherProductIssues at hi
  rw [List.mem_flatMap] at hi
  obtain ⟨entry, hentry, hin⟩ := hi
  by_cases hc : entry.1.1 = p ∧ entry.1.2 ≠ q
  · rw [if_pos hc] at hin
    rw [htag entry hentry i hin]
    exact hc.2
  · rw [if_neg hc] at hin
    simp at hin

theorem IssueStore.filter_other_products (store : IssueStore) (p q : String)
    (htag : ∀ entry ∈ store, ∀ i ∈ entry.2.toList, i.Product = entry.1.2) :
    (IssueStore.allIssues store p).filter (fun i => decide (i.Product ≠ q))
      = IssueStore.otherProductIssues store p q := by
  induction store with
  | nil => rfl
  | cons entry rest ih =>
    obtain ⟨⟨p0, q0⟩, v0⟩ := entry
    have hrest := ih (fun e he => htag e (List.mem_cons_of_mem _ he))
    have hhead : ∀ i ∈ v0.toList, i.Product = q0 :=
      fun i hi => htag ((p0, q0), v0) (List.mem_cons_self _ _) i hi
    unfold IssueStore.allIssues IssueStore.otherProductIssues at hrest ⊢
    rw [List.flatMap_cons, List.flatMap_cons, List.filter_append, hrest]
    congr 1
    by_cases hp : p0 = p
    · by_cases hq : q0 = q
      · simp only [hp, hq, if_true, ne_eq, not_true_eq_false, and_false, if_false,
          List.filter_eq_nil_iff]
        intro i hi
        simp [hhead i hi, hq]
      · simp only [hp, if_true, ne_eq, hq, not_false_eq_true, and_self, List.filter_eq_self]
        intro i hi
        simp [hhead i hi, hq]
    · simp [hp]

/-- C18: after `SetIssues(p, q, xs)` the entry of `p` and `q` is `xs`, the
entries of `p` and every other product and of every other path are as
before, and so is what `AllIssuesFor` and `IssuesFor` return for every other
path. In a store that keeps one entry per path and product, `AllIssuesFor(p)`
then returns `xs` in place of what was stored for `p` and `q`, among the
issues of the other products for `p`, which are the same as before and in the
same order; when the issues carry the product they are stored under, the
issues of product `q` that `AllIssuesFor(p)` returns are exactly `xs` and
those of the other products are exactly those it returned before. -/
theorem SetIssues_replaces_only_that_product (store : IssueStore) (p q : String)
    (xs : Slice Issue) :
    (store.SetIssues p q xs).issuesOf p q = some xs ∧
    (∀ q' : String, q' ≠ q →
      (store.SetIssues p q xs).issuesOf p q' = store.issuesOf p q') ∧
    (∀ p' q' : String, p' ≠ p →
      (store.SetIssues p q xs).issuesOf p' q' = store.issuesOf p' q') ∧
    (∀ p' : String, p' ≠ p →
      (store.SetIssues p q xs).AllIssuesFor p' = store.AllIssuesFor p') ∧
    (∀ (intersects : Range → Range → Bool) (p' : String) (r : Range), p' ≠ p →
      (store.SetIssues p q xs).IssuesFor intersects p' r = store.IssuesFor intersects p' r) ∧
    ((store.map Prod.fst).Nodup →
      (∃ before after : List Issue,
        ((store.SetIssues p q xs).AllIssuesFor p).toList = before ++ xs.toList ++ after ∧
        store.otherProductIssues p q = before ++ after ∧
        (store.SetIssues p q xs).otherProductIssues p q = before ++ after) ∧
      ((∀ entry ∈ store, ∀ i ∈ entry.2.toList, i.Product = entry.1.2) →
        (∀ i ∈ xs.toList, i.Product = q) →
        ((store.SetIssues p q xs).AllIssuesFor p).toList.filter (fun i => i.Product = q)
          = xs.toList ∧
        ((store.SetIssues p q xs).AllIssuesFor p).toList.filter (fun i => i.Product ≠ q)
          = (store.AllIssuesFor p).toList.filter (fun i => i.Product ≠ q))) := by
  refine ⟨?_, ?_, ?_, ?_, ?_, ?_⟩
  · simp [IssueStore.SetIssues, IssueStore.issuesOf, mapGet_mapSet]
  · intro q' hq
    have hne : ¬ (p, q) = (p, q') := fun e => hq (congrArg Prod.snd e).symm
    simp [IssueStore.SetIssues, IssueStore.issuesOf, mapGet_mapSet, hne]
  · intro p' q' hp
    have hne : ¬ (p, q) = (p', q') := fun e => hp (congrArg Prod.fst e).symm
    simp [IssueStore.SetIssues, IssueStore.issuesOf, mapGet_mapSet, hne]
  · intro p' hp
    unfold IssueStore.AllIssuesFor IssueStore.SetIssues
    rw [IssueStore.allIssues_mapSet_other store p q p' xs hp]
  · intro intersects p' r hp
    unfold IssueStore.IssuesFor IssueStore.SetIssues
    rw [IssueStore.allIssues_mapSet_other store p q p' xs hp]
  · intro hkeys
    obtain ⟨before, after, h1, h2, h3⟩ := IssueStore.allIssues_SetIssues store p q xs hkeys
    have hall : ((store.SetIssues p q xs).AllIssuesFor p).toList
        = before ++ xs.toList ++ after := by
      unfold IssueStore.AllIssuesFor
      rw [Slice.toList_nil_appendAll, h1]
    refine ⟨⟨before, after, hall, h2, h3⟩, ?_⟩
    intro htag hxs
    have hother := IssueStore.otherProductIssues_tagged store p q htag
    rw [h2] at hother
    have hb : ∀ i ∈ before, i.Product ≠ q := fun i hi => hother i (List.mem_append_left _ hi)
    have ha : ∀ i ∈ after, i.Product ≠ q := fun i hi => hother i (List.mem_append_right _ hi)
    have hold : (store.AllIssuesFor p).toList.filter (fun i => decide (i.Product ≠ q))
        = before ++ after := by
      unfold IssueStore.AllIssuesFor
      rw [Slice.toList_nil_appendAll, IssueStore.filter_other_products store p q htag, h2]
    have fbq : before.filter (fun i => decide (i.Product = q)) = [] :=
      List.filter_eq_nil_iff.mpr (fun i hi => by simpa using hb i hi)
    have faq : after.filter (fun i => decide (i.Product = q)) = [] :=
      List.filter_eq_nil_iff.mpr (fun i hi => by simpa using ha i hi)
    have fxq : xs.toList.filter (fun i => decide (i.Product = q)) = xs.toList :=
      List.filter_eq_self.mpr (fun i hi => by simpa using hxs i hi)
    have fbn : before.filter (fun i => decide (i.Product ≠ q)) = before :=
      List.filter_eq_self.mpr (fun i hi => by simpa using hb i hi)
    have fan : after.filter (fun i => decide (i.Product ≠ q)) = after :=
      List.filter_eq_self.mpr (fun i hi => by simpa using ha i hi)
    have fxn : xs.toList.filter (fun i => decide (i.Product ≠ q)) = [] :=
      List.filter_eq_nil_iff.mpr (fun i hi => by simpa using hxs i hi)
    rw [hall, hold]
    constructor
    · rw [List.filter_append, List.filter_append, fbq, faq, fxq]
      simp
    · rw [List.filter_append, List.filter_append, fbn, fan, fxn]
      simp

theorem SetIssues_replaces_only_that_product_witness :
    (IssueStore.SetIssues storeWithCodeIssue "a.go" "oss" (Slice.items [])).issuesOf
        "a.go" "code"
      = storeWithCodeIssue.issuesOf "a.go" "code" ∧
    ((IssueStore.SetIssues storeWithTwoProducts "a.go" "oss"
        (Slice.items [issueAt "a.go" "oss" 9])).AllIssuesFor "a.go").toList.map
        (fun i => (i.Product, i.Range.Start.Line))
      = [("code", 1), ("oss", 9)] ∧
    ((IssueStore.SetIssues storeWithTwoProducts "a.go" "oss"
        (Slice.items [issueAt "a.go" "oss" 9])).AllIssuesFor "a.go").toList.filter
        (fun i => i.Product = "oss")
      = [issueAt "a.go" "oss" 9] :=
  ⟨(SetIssues_replaces_only_that_product storeWithCodeIssue "a.go" "oss"
      (Slice.items [])).2.1 "code" (by decide),
    by decide,
    ((SetIssues_replaces_only_that_product storeWithTwoProducts "a.go" "oss"
      (Slice.items [issueAt "a.go" "oss" 9])).2.2.2.2.2 (by decide)).2
      (by decide) (by decide) |>.1⟩

/-- C19: `IssuesFor(p, r)` returns nil exactly when no issue is stored for
`p`; when issues are stored for `p` it returns a non-nil list holding exactly
the stored issues whose range intersects `r`, in store order, which is the
empty non-nil list exactly when none intersects. Nil, empty and populated
are three different results. -/
theorem IssuesFor_nil_empty_populated (intersects : Range → Range → Bool)
    (store : IssueStore) (p : String) (r : Range) :
    (store.IssuesFor intersects p r = Slice.nil ↔ store.allIssues p = []) ∧
    (store.allIssues p ≠ [] →
      store.IssuesFor intersects p r
        = Slice.items ((store.allIssues p).filter (fun i => intersects i.Range r))) ∧
    (store.IssuesFor intersects p r = Slice.items [] ↔
      store.allIssues p ≠ [] ∧ ∀ i ∈ store.allIssues p, intersects i.Range r = false) := by
  unfold IssueStore.IssuesFor
  cases h : store.allIssues p with
  | nil => simp
  | cons issue rest =>
    refine ⟨by simp, fun _ => rfl, ?_⟩
    simp only [Slice.items.injEq, ne_eq, reduceCtorEq, not_false_eq_true, true_and]
    rw [List.filter_eq_nil_iff]
    simp

theorem IssuesFor_nil_empty_populated_witness :
    IssueStore.IssuesFor sharesLine storeWithCodeIssue "a.go" ⟨⟨5, 0⟩, ⟨6, 0⟩⟩
      = Slice.items [] :=
  (IssuesFor_nil_empty_populated sharesLine storeWithCodeIssue
    "a.go" ⟨⟨5, 0⟩, ⟨6, 0⟩⟩).2.2.2
    ⟨by simp [storeWithCodeIssue, IssueStore.allIssues, IssueStore.SetIssues, mapSet,
        Slice.toList],
      by
        intro i hi
        simp [storeWithCodeIssue, IssueStore.allIssues, IssueStore.SetIssues, mapSet,
          Slice.toList] at hi
        subst hi
        decide⟩

/-! ## Properties of folders and of the workspace -/

theorem Folder.isTrusted_false (config : TrustConfig) (f : Folder)
    (henf : config.trustedFolderFeatureEnabled = true)
    (hun : f.path ∉ config.trustedFolders) : f.IsTrusted config = false := by
  simp [Folder.IsTrusted, henf, hun]

theorem Folder.isTrusted_of_mem (config : TrustConfig) (f : Folder)
    (h : f.path ∈ config.trustedFolders) : f.IsTrusted config = true := by
  simp [Folder.IsTrusted, h]

theorem Folder.scan_path (f : Folder) (world : World) (sp : String) :
    (f.scan world sp).1.path = f.path := by
  unfold Folder.scan
  split
  · simp only
    split <;> rfl
  · rfl

theorem Folder.scan_config (f : Folder) (world : World) (sp : String) :
    (f.scan world sp).2.config = world.config := by
  unfold Folder.scan
  split
  · simp only
    split <;> rfl
  · rfl

theorem Folder.scan_untrusted (f : Folder) (world : World) (sp : String)
    (h : f.IsTrusted world.config = false) :
    f.scan world sp
      = (f, { world with
          notifications := world.notifications ++ [Notification.trustRequest f.path] }) := by
  simp [Folder.scan, h]

theorem Folder.scan_trusted_calls (f : Folder) (world : World) (sp : String)
    (h : f.IsTrusted world.config = true) :
    (f.scan world sp).2.scannerCalls
      = world.scannerCalls ++ [{ scanner := f.scanner.id, path := sp, workDir := f.path }] := by
  unfold Folder.scan
  rw [if_pos h]
  simp only
  split <;> rfl

theorem Folder.scan_trusted_notifications (f : Folder) (world : World) (sp : String)
    (h : f.IsTrusted world.config = true) :
    ∃ published : List (String × Slice Diagnostic),
      (f.scan world sp).2.notifications
        = world.notifications ++
            published.map (fun pd => Notification.publishDiagnostics pd.1 pd.2) ∧
      ∀ pd ∈ published, ∃ issues, f.scanner.Scan sp f.path = .ok issues ∧
        pd.1 ∈ touchedPaths f.documentDiagnosticCache sp issues.toList := by
  unfold Folder.scan
  rw [if_pos h]
  simp only
  cases hs : f.scanner.Scan sp f.path with
  | error err => exact ⟨[], by simp, by simp⟩
  | ok issues =>
    refine ⟨(touchedPaths f.documentDiagnosticCache sp issues.toList).map
      (fun t => (t, ToDiagnostics
        ((processResults f.documentDiagnosticCache sp issues.toList).AllIssuesFor t))), ?_, ?_⟩
    · simp [List.map_map, Function.comp_def]
    · intro pd hpd
      rw [List.mem_map] at hpd
      obtain ⟨t, ht, rfl⟩ := hpd
      exact ⟨issues, rfl, ht⟩

theorem count_trustRequest_published (q : String) (published : List (String × Slice Diagnostic)) :
    (published.map (fun pd => Notification.publishDiagnostics pd.1 pd.2)).count
      (Notification.trustRequest q) = 0 := by
  rw [List.count_eq_zero]
  intro h
  rw [List.mem_map] at h
  obtain ⟨pd, _, hpd⟩ := h
  cases hpd

theorem Folder.scan_counts (f : Folder) (world : World) (sp q : String)
    (henf : world.config.trustedFolderFeatureEnabled = true)
    (hun : q ∉ world.config.trustedFolders) :
    scanCallsFor (f.scan world sp).2 q = scanCallsFor world q ∧
    trustRequestsFor (f.scan world sp).2 q
      = trustRequestsFor world q + (if f.path = q then 1 else 0) := by
  by_cases ht : f.IsTrusted world.config = true
  · have hne : f.path ≠ q := by
      intro e
      rw [← e] at hun
      rw [Folder.isTrusted_false world.config f henf hun] at ht
      exact Bool.noConfusion ht
    obtain ⟨published, hn, _⟩ := Folder.scan_trusted_notifications f world sp ht
    constructor
    · simp [scanCallsFor, Folder.scan_trusted_calls f world sp ht, List.filter_append, hne]
    · simp [trustRequestsFor, hn, List.count_append, count_trustRequest_published, hne]
  · have hf : f.IsTrusted world.config = false := by simpa using ht
    rw [Folder.scan_untrusted f world sp hf]
    constructor
    · rfl
    · by_cases he : f.path = q
      · simp [trustRequestsFor, List.count_append, he]
      · have hne : Notification.trustRequest f.path ≠ Notification.trustRequest q :=
          fun e => he (Notification.trustRequest.inj e)
        simp [trustRequestsFor, List.count_append, he, List.count_cons, hne]

theorem Workspace.getFolder_some (w : Workspace) (p : String) (f : Folder)
    (h : w.GetFolder p = some f) : f.path = p ∧ f ∈ w.folders := by
  unfold Workspace.GetFolder at h
  have h1 := List.find?_some h
  have h2 := List.mem_of_find?_eq_some h
  exact ⟨by simpa using h1, h2⟩

theorem Workspace.getFolder_none (w : Workspace) (p : String)
    (h : w.GetFolder p = none) : p ∉ w.paths := by
  unfold Workspace.GetFolder at h
  rw [List.find?_eq_none] at h
  intro hmem
  simp only [Workspace.paths, List.mem_map] at hmem
  obtain ⟨g, hg, hgp⟩ := hmem
  exact h g hg (by simpa using hgp)

theorem Workspace.updateFolder_paths (w : Workspace) (f : Folder) :
    (w.updateFolder f).paths = w.paths := by
  simp only [Workspace.updateFolder, Workspace.paths, List.map_map]
  apply List.map_congr_left
  intro g _
  simp only [Function.comp_apply]
  split
  · rename_i h
    exact h.symm
  · rfl

theorem Workspace.scanFolder_paths (w : Workspace) (world : World) (p : String) :
    (w.ScanFolder world p).1.paths = w.paths := by
  unfold Workspace.ScanFolder Workspace.scanFolderAt
  split
  · rfl
  · exact Workspace.updateFolder_paths _ _

theorem Workspace.scanFolder_config (w : Workspace) (world : World) (p : String) :
    (w.ScanFolder world p).2.config = world.config := by
  unfold Workspace.ScanFolder Workspace.scanFolderAt
  split
  · rfl
  · exact Folder.scan_config _ _ _

theorem Workspace.scanFolder_counts (w : Workspace) (world : World) (p q : String)
    (henf : world.config.trustedFolderFeatureEnabled = true)
    (hun : q ∉ world.config.trustedFolders) :
    scanCallsFor (w.ScanFolder world p).2 q = scanCallsFor world q ∧
    trustRequestsFor (w.ScanFolder world p).2 q
      = trustRequestsFor world q + (if p = q ∧ q ∈ w.paths then 1 else 0) := by
  unfold Workspace.ScanFolder Workspace.scanFolderAt
  cases hg : w.GetFolder p with
  | none =>
    have hp := Workspace.getFolder_none w p hg
    have hno : ¬ (p = q ∧ q ∈ w.paths) := fun h => hp (h.1 ▸ h.2)
    simp [hno]
  | some f =>
    obtain ⟨hfp, hfm⟩ := Workspace.getFolder_some w p f hg
    obtain ⟨h1, h2⟩ := Folder.scan_counts f world p q henf hun
    refine ⟨h1, ?_⟩
    simp only [h2, hfp]
    by_cases hpq : p = q
    · have hq : q ∈ w.paths := by
        rw [← hpq, ← hfp]
        exact List.mem_map_of_mem _ hfm
      simp [hpq, hq]
    · simp [hpq]

theorem Workspace.scanAll_counts (ps : List String) (w : Workspace) (world : World)
    (q : String) (henf : world.config.trustedFolderFeatureEnabled = true)
    (hun : q ∉ world.config.trustedFolders) (hq : q ∈ w.paths) :
    scanCallsFor (ps.foldl (fun st p => st.1.ScanFolder st.2 p) (w, world)).2 q
      = scanCallsFor world q ∧
    trustRequestsFor (ps.foldl (fun st p => st.1.ScanFolder st.2 p) (w, world)).2 q
      = trustRequestsFor world q + ps.count q := by
  induction ps generalizing w world with
  | nil => simp
  | cons p ps ih =>
    rw [List.foldl_cons]
    have hpaths := Workspace.scanFolder_paths w world p
    have hcfg := Workspace.scanFolder_config w world p
    obtain ⟨h1, h2⟩ := Workspace.scanFolder_counts w world p q henf hun
    obtain ⟨i1, i2⟩ := ih (w.ScanFolder world p).1 (w.ScanFolder world p).2
      (by rw [hcfg]; exact henf) (by rw [hcfg]; exact hun) (by rw [hpaths]; exact hq)
    refine ⟨by rw [i1, h1], ?_⟩
    rw [i2, h2]
    by_cases hpq : p = q
    · simp [hpq, hq, List.count_cons]
      omega
    · simp [hpq, List.count_cons]

/-- C14: with trust enforcement enabled and the folder's path not in the
trusted-folders list, `ScanFolder` and `ScanFile` of that folder make no
scanner call and send exactly one notification, the trust request for the
folder; the workspace scan command, in a workspace that holds the folder,
makes no scanner call for it and sends exactly one trust request for it. -/
theorem untrusted_folder_scan_is_refused (f : Folder) (world : World) (filePath : String)
    (henf : world.config.trustedFolderFeatureEnabled = true)
    (hun : f.path ∉ world.config.trustedFolders) :
    ((f.ScanFolder world).2.scannerCalls = world.scannerCalls ∧
      (f.ScanFolder world).2.notifications
        = world.notifications ++ [Notification.trustRequest f.path]) ∧
    ((f.ScanFile world filePath).2.scannerCalls = world.scannerCalls ∧
      (f.ScanFile world filePath).2.notifications
        = world.notifications ++ [Notification.trustRequest f.path]) ∧
    (∀ w : Workspace, f ∈ w.folders → w.paths.Nodup →
      scanCallsFor (w.ScanWorkspace world).2 f.path = scanCallsFor world f.path ∧
      trustRequestsFor (w.ScanWorkspace world).2 f.path
        = trustRequestsFor world f.path + 1) := by
  have hf := Folder.isTrusted_false world.config f henf hun
  refine ⟨?_, ?_, ?_⟩
  · simp [Folder.ScanFolder, Folder.scan_untrusted f world f.path hf]
  · simp [Folder.ScanFile, Folder.scan_untrusted f world filePath hf]
  · intro w hmem hnodup
    have hq : f.path ∈ w.paths := List.mem_map_of_mem _ hmem
    obtain ⟨h1, h2⟩ := Workspace.scanAll_counts w.paths w world f.path henf hun hq
    refine ⟨h1, ?_⟩
    unfold Workspace.ScanWorkspace
    rw [h2, List.count_eq_one_of_mem hnodup hq]

theorem untrusted_folder_scan_is_refused_witness :
    (dummyFolder.ScanFolder enforcingWorld).2.scannerCalls = [] ∧
    (dummyFolder.ScanFolder enforcingWorld).2.notifications
      = [Notification.trustRequest "dummy"] :=
  (untrusted_folder_scan_is_refused dummyFolder enforcingWorld "dummy/file.txt" rfl
    (by decide)).1

theorem Workspace.getFolder_of_mem (w : Workspace) (p : String) (h : p ∈ w.paths) :
    ∃ f, w.GetFolder p = some f := by
  cases hg : w.GetFolder p with
  | none => exact absurd h (Workspace.getFolder_none w p hg)
  | some f => exact ⟨f, rfl⟩

theorem Workspace.trustAndScan_step (w : Workspace) (world : World) (p : String)
    (hp : p ∈ w.paths) :
    ∃ id : Nat,
      (w.ScanFolder { world with
          config := { world.config with
            trustedFolders := world.config.trustedFolders ++ [p] } } p).2.scannerCalls
        = world.scannerCalls ++ [{ scanner := id, path := p, workDir := p }] := by
  obtain ⟨f, hf⟩ := Workspace.getFolder_of_mem w p hp
  obtain ⟨hfp, _⟩ := Workspace.getFolder_some w p f hf
  refine ⟨f.scanner.id, ?_⟩
  unfold Workspace.ScanFolder Workspace.scanFolderAt
  rw [hf]
  simp only
  rw [Folder.scan_trusted_calls]
  · simp [hfp]
  · apply Folder.isTrusted_of_mem
    simp [hfp]

theorem Workspace.trustFoldersAndScan_effects (fs : List String) (w : Workspace)
    (world : World) (hfs : ∀ p ∈ fs, p ∈ w.paths) :
    (w.TrustFoldersAndScan world fs).2.config.trustedFolders
      = world.config.trustedFolders ++ fs ∧
    (w.TrustFoldersAndScan world fs).2.config.trustedFolderFeatureEnabled
      = world.config.trustedFolderFeatureEnabled ∧
    (w.TrustFoldersAndScan world fs).2.scannerCalls.map (fun c => (c.path, c.workDir))
      = world.scannerCalls.map (fun c => (c.path, c.workDir)) ++ fs.map (fun p => (p, p)) := by
  unfold Workspace.TrustFoldersAndScan
  induction fs generalizing w world with
  | nil => simp
  | cons p fs ih =>
    rw [List.foldl_cons]
    have hp : p ∈ w.paths := hfs p (List.mem_cons_self _ _)
    obtain ⟨id, hcalls⟩ := Workspace.trustAndScan_step w world p hp
    have hcfg := Workspace.scanFolder_config w
      { world with config := { world.config with
          trustedFolders := world.config.trustedFolders ++ [p] } } p
    have hpaths := Workspace.scanFolder_paths w
      { world with config := { world.config with
          trustedFolders := world.config.trustedFolders ++ [p] } } p
    obtain ⟨i1, i2, i3⟩ := ih _ _ (fun x hx => by
      rw [hpaths]
      exact hfs x (List.mem_cons_of_mem _ hx))
    refine ⟨?_, ?_, ?_⟩
    · rw [i1, hcfg]
      simp
    · rw [i2, hcfg]
    · rw [i3, hcalls]
      simp

/-- C15: after `TrustFoldersAndScan(ctx, fs)`, for a list `fs` of roots of
workspace folders, the trusted-folders list is the old list followed by the
paths of `fs`: it contains every path of `fs` and every path trusted before,
and no path of a workspace folder outside `fs` that was not trusted before;
the scanner invocations made are exactly one folder scan per entry of `fs`,
in order, and none for any other folder. -/
theorem TrustFoldersAndScan_trusts_and_scans_exactly (w : Workspace) (world : World)
    (fs : List String) (hfs : ∀ p ∈ fs, p ∈ w.paths) :
    (∀ p ∈ fs, p ∈ (w.TrustFoldersAndScan world fs).2.config.trustedFolders) ∧
    (∀ p ∈ world.config.trustedFolders,
      p ∈ (w.TrustFoldersAndScan world fs).2.config.trustedFolders) ∧
    (∀ g ∈ w.folders, g.path ∉ fs → g.path ∉ world.config.trustedFolders →
      g.path ∉ (w.TrustFoldersAndScan world fs).2.config.trustedFolders) ∧
    (w.TrustFoldersAndScan world fs).2.scannerCalls.map (fun c => (c.path, c.workDir))
      = world.scannerCalls.map (fun c => (c.path, c.workDir)) ++ fs.map (fun p => (p, p)) ∧
    (∀ q : String, scanCallsFor (w.TrustFoldersAndScan world fs).2 q
      = scanCallsFor world q + fs.count q) := by
  obtain ⟨h1, _, h3⟩ := Workspace.trustFoldersAndScan_effects fs w world hfs
  refine ⟨?_, ?_, ?_, h3, ?_⟩
  · intro p hp
    rw [h1]
    exact List.mem_append_right _ hp
  · intro p hp
    rw [h1]
    exact List.mem_append_left _ hp
  · intro g _ hg1 hg2
    rw [h1, List.mem_append]
    exact fun h => h.elim hg2 hg1
  · intro q
    have hcount : ∀ calls : List ScanCall,
        (calls.filter (fun call => call.workDir = q)).length
          = (calls.map (fun c => (c.path, c.workDir))).countP (fun pw => pw.2 = q) := by
      intro calls
      rw [List.countP_map, List.countP_eq_length_filter]
      rfl
    unfold scanCallsFor
    rw [hcount, hcount, h3, List.countP_append]
    congr 1
    rw [List.countP_map, List.count]
    apply List.countP_congr
    intro x _
    simp

theorem TrustFoldersAndScan_trusts_and_scans_exactly_witness :
    (twoFolderWorkspace.TrustFoldersAndScan enforcingWorld ["dummy"]).2.scannerCalls.map
        (fun c => (c.path, c.workDir)) = [("dummy", "dummy")] ∧
    scanCallsFor (twoFolderWorkspace.TrustFoldersAndScan enforcingWorld ["dummy"]).2
        "dontclear" = 0 :=
  have h := TrustFoldersAndScan_trusts_and_scans_exactly twoFolderWorkspace enforcingWorld
    ["dummy"] (by decide)
  ⟨h.2.2.2.1, h.2.2.2.2 "dontclear"⟩

theorem Workspace.updateFolder_getFolder_other (w : Workspace) (f : Folder) (q : String)
    (h : q ≠ f.path) : (w.updateFolder f).GetFolder q = w.GetFolder q := by
  unfold Workspace.updateFolder Workspace.GetFolder
  simp only
  induction w.folders with
  | nil => rfl
  | cons g gs ih =>
    rw [List.map_cons, List.find?_cons, List.find?_cons, ih]
    by_cases hg : g.path = f.path
    · have h1 : (f.path == q) = false := by simpa using fun e => h e.symm
      have h2 : (g.path == q) = false := by
        rw [hg]
        exact h1
      simp [hg, h1, h2]
    · simp [hg]

theorem touchedPaths_under (store : IssueStore) (sp : String) (issues : List Issue)
    (t : String) (h : t ∈ touchedPaths store sp issues) :
    FolderContains sp t = true ∨ ∃ i ∈ issues, i.AffectedFilePath = t := by
  unfold touchedPaths at h
  rw [List.mem_dedup, List.mem_map] at h
  obtain ⟨k, hk, hkt⟩ := h
  rw [List.mem_append] at hk
  rcases hk with hk | hk
  · left
    unfold storedKeysUnder at hk
    rw [List.mem_filter] at hk
    rw [← hkt]
    exact hk.2
  · right
    unfold resultKeys at hk
    rw [List.mem_dedup, List.mem_map] at hk
    obtain ⟨i, hi, hik⟩ := hk
    exact ⟨i, hi, by rw [← hkt, ← hik]⟩

theorem FolderContains_comparable (a b p : String) (ha : FolderContains a p = true)
    (hb : FolderContains b p = true) :
    FolderContains a b = true ∨ FolderContains b a = true := by
  unfold FolderContains at *
  rw [List.isPrefixOf_iff_prefix] at ha hb
  rw [List.isPrefixOf_iff_prefix, List.isPrefixOf_iff_prefix]
  exact List.prefix_or_prefix_of_prefix ha hb

theorem FolderContains_self (a : String) : FolderContains a a = true := by
  unfold FolderContains
  rw [List.isPrefixOf_iff_prefix]

/-- C16: for two folders A and B of a workspace that are unrelated (neither
root lies under the other) and a scan scoped to A (what A's scanner reports
lies under A's root), the scan leaves B as it is: the workspace keeps B
unchanged for its root, no scanner call is made for B, B's scanner is not
invoked when it is not also the scanner of A, and for every path `p` under
B, `B.AllIssuesFor(p)` is the same as before and no diagnostics are
published for `p`. -/
theorem scoped_scan_leaves_other_folder (w : Workspace) (world : World) (A B : Folder)
    (hA : w.GetFolder A.path = some A) (hB : w.GetFolder B.path = some B)
    (hAB : FolderContains A.path B.path = false) (hBA : FolderContains B.path A.path = false)
    (hscoped : ∀ issues, A.scanner.Scan A.path A.path = .ok issues →
      ∀ i ∈ issues.toList, FolderContains A.path i.AffectedFilePath = true) :
    (w.ScanFolder world A.path).1.GetFolder B.path = some B ∧
    scanCallsFor (w.ScanFolder world A.path).2 B.path = scanCallsFor world B.path ∧
    (A.scanner.id ≠ B.scanner.id →
      (w.ScanFolder world A.path).2.scannerCalls.filter
          (fun call => call.scanner = B.scanner.id)
        = world.scannerCalls.filter (fun call => call.scanner = B.scanner.id)) ∧
    (∀ p : String, FolderContains B.path p = true →
      ((w.ScanFolder world A.path).1.GetFolder B.path).map (fun f => f.AllIssuesFor p)
        = some (B.AllIssuesFor p) ∧
      publishedFor (w.ScanFolder world A.path).2 p = publishedFor world p) := by
  have hne : B.path ≠ A.path := by
    intro e
    rw [e, FolderContains_self] at hAB
    exact Bool.noConfusion hAB
  have hscan : w.ScanFolder world A.path
      = (w.updateFolder (A.scan world A.path).1, (A.scan world A.path).2) := by
    simp [Workspace.ScanFolder, Workspace.scanFolderAt, hA]
  have hget : (w.ScanFolder world A.path).1.GetFolder B.path = some B := by
    rw [hscan]
    simp only
    rw [Workspace.updateFolder_getFolder_other _ _ _ (by rw [Folder.scan_path]; exact hne)]
    exact hB
  refine ⟨hget, ?_, ?_, ?_⟩
  · rw [hscan]
    simp only
    by_cases ht : A.IsTrusted world.config = true
    · have hne' : ¬ A.path = B.path := fun e => hne e.symm
      simp [scanCallsFor, Folder.scan_trusted_calls A world A.path ht, List.filter_append, hne']
    · have hf : A.IsTrusted world.config = false := by simpa using ht
      rw [Folder.scan_untrusted A world A.path hf]
      rfl
  · intro hid
    rw [hscan]
    simp only
    by_cases ht : A.IsTrusted world.config = true
    · simp [Folder.scan_trusted_calls A world A.path ht, List.filter_append, hid]
    · have hf : A.IsTrusted world.config = false := by simpa using ht
      rw [Folder.scan_untrusted A world A.path hf]
  · intro p hp
    refine ⟨by rw [hget]; rfl, ?_⟩
    have hnotA : FolderContains A.path p = false := by
      rw [← Bool.not_eq_true]
      intro hpA
      rcases FolderContains_comparable A.path B.path p hpA hp with h | h
      · rw [h] at hAB
        exact Bool.noConfusion hAB
      · rw [h] at hBA
        exact Bool.noConfusion hBA
    rw [hscan]
    simp only
    by_cases ht : A.IsTrusted world.config = true
    · obtain ⟨published, hn, hpub⟩ := Folder.scan_trusted_notifications A world A.path ht
      unfold publishedFor
      rw [hn, List.filterMap_append]
      have hnone : (published.map
          (fun pd => Notification.publishDiagnostics pd.1 pd.2)).filterMap
          (fun n =>
            match n with
            | .publishDiagnostics t diagnostics => if t = p then some diagnostics else none
            | .trustRequest _ => none) = [] := by
        rw [List.filterMap_eq_nil_iff]
        intro n hn'
        rw [List.mem_map] at hn'
        obtain ⟨pd, hpd, rfl⟩ := hn'
        obtain ⟨issues, hs, ht'⟩ := hpub pd hpd
        have hpd1 : pd.1 ≠ p := by
          intro e
          rw [e] at ht'
          rcases touchedPaths_under _ _ _ _ ht' with h1 | ⟨i, hi, hip⟩
          · rw [h1] at hnotA
            exact Bool.noConfusion hnotA
          · have := hscoped issues hs i hi
            rw [hip, hnotA] at this
            exact Bool.noConfusion this
        simp [hpd1]
      rw [hnone, List.append_nil]
    · have hf : A.IsTrusted world.config = false := by simpa using ht
      rw [Folder.scan_untrusted A world A.path hf]
      unfold publishedFor
      simp [List.filterMap_append]

theorem scoped_scan_leaves_other_folder_witness :
    (twoFolderWorkspace.ScanFolder permissiveWorld "dummy").1.GetFolder "dontclear"
        = some dontClearFolder ∧
    scanCallsFor (twoFolderWorkspace.ScanFolder permissiveWorld "dummy").2 "dontclear"
        = scanCallsFor permissiveWorld "dontclear" ∧
    publishedFor (twoFolderWorkspace.ScanFolder permissiveWorld "dummy").2
        "dontclear/file.txt" = [] ∧
    publishedFor (twoFolderWorkspace.ScanFolder permissiveWorld "dummy").2
        "dummy/file.txt" = [Slice.items [ToDiagnostic (issueAt "dummy/file.txt" "code" 1)]] :=
  have h := scoped_scan_leaves_other_folder twoFolderWorkspace permissiveWorld dummyFolder
    dontClearFolder rfl rfl (by decide) (by decide)
    (fun issues hs i hi => by
      cases hs
      simp only [Slice.toList, List.mem_singleton] at hi
      rw [hi]
      decide)
  ⟨h.1, h.2.1, (h.2.2.2 "dontclear/file.txt" (by decide)).2, by decide⟩

theorem Workspace.getFolder_eq_none_of_not_mem (w : Workspace) (p : String)
    (h : p ∉ w.paths) : w.GetFolder p = none := by
  unfold Workspace.GetFolder
  rw [List.find?_eq_none]
  intro g hg hgp
  exact h (List.mem_map.mpr ⟨g, hg, by simpa using hgp⟩)

theorem Workspace.removeFolder_paths (w : Workspace) (world : World) (path x : String)
    (hx : x ∈ (w.RemoveFolder world path).1.paths) : x ∈ w.paths ∧ x ≠ path := by
  unfold Workspace.RemoveFolder at hx
  cases hg : w.GetFolder path with
  | none =>
    rw [hg] at hx
    have hnot := Workspace.getFolder_none w path hg
    exact ⟨hx, fun e => hnot (e ▸ hx)⟩
  | some f =>
    rw [hg] at hx
    simp only [Workspace.paths, List.mem_map, List.mem_filter] at hx
    obtain ⟨g, ⟨hgm, hgp⟩, rfl⟩ := hx
    exact ⟨List.mem_map_of_mem _ hgm, by simpa using hgp⟩

theorem Workspace.removeAll_paths (Q : String → String) (rs : List WorkspaceFolder)
    (w : Workspace) (world : World) (x : String)
    (hx : x ∈ (rs.foldl (fun (st : Workspace × World) folder =>
      st.1.RemoveFolder st.2 (Q folder.Uri)) (w, world)).1.paths) :
    x ∈ w.paths ∧ x ∉ rs.map (fun folder => Q folder.Uri) := by
  induction rs generalizing w world with
  | nil => exact ⟨hx, by simp⟩
  | cons r rs ih =>
    rw [List.foldl_cons] at hx
    obtain ⟨h1, h2⟩ := ih _ _ hx
    obtain ⟨h3, h4⟩ := Workspace.removeFolder_paths w world (Q r.Uri) x h1
    refine ⟨h3, ?_⟩
    rw [List.map_cons, List.mem_cons]
    exact fun h => h.elim h4 h2

theorem Workspace.addFolder_paths (w : Workspace) (f : Folder) (x : String)
    (hx : x ∈ (w.AddFolder f).paths) : x ∈ w.paths ∨ x = f.path := by
  simp only [Workspace.AddFolder, Workspace.paths, List.map_append, List.mem_append,
    List.mem_map, List.mem_filter, List.map_cons, List.map_nil, List.mem_singleton] at hx
  rcases hx with ⟨g, ⟨hgm, _⟩, rfl⟩ | hx
  · exact Or.inl (List.mem_map_of_mem _ hgm)
  · exact Or.inr hx

theorem Workspace.addAll_paths (Q : String → String) (added : List WorkspaceFolder)
    (st : Workspace × World) (x : String)
    (hx : x ∈ (added.foldl (fun (st : Workspace × World) folder =>
      (st.1.AddFolder (NewFolder (Q folder.Uri) folder.Name st.1.scanner), st.2)) st).1.paths) :
    x ∈ st.1.paths ∨ x ∈ added.map (fun folder => Q folder.Uri) := by
  induction added generalizing st with
  | nil => exact Or.inl hx
  | cons a added ih =>
    rw [List.foldl_cons] at hx
    rcases ih _ hx with h | h
    · rcases Workspace.addFolder_paths st.1 _ x h with h1 | h1
      · exact Or.inl h1
      · right
        rw [List.map_cons, List.mem_cons]
        exact Or.inl h1
    · right
      rw [List.map_cons, List.mem_cons]
      exact Or.inr h

theorem Workspace.scanAdded_paths (Q : String → String) (added : List WorkspaceFolder)
    (st : Workspace × World) :
    (added.foldl (fun (st : Workspace × World) folder =>
      match st.1.GetFolder (Q folder.Uri) with
      | none => st
      | some f => if f.IsTrusted st.2.config then st.1.ScanFolder st.2 f.path else st)
      st).1.paths = st.1.paths := by
  induction added generalizing st with
  | nil => rfl
  | cons a added ih =>
    rw [List.foldl_cons, ih]
    split
    · rfl
    · split
      · exact Workspace.scanFolder_paths _ _ _
      · rfl

theorem Workspace.getFolderContaining_none (w : Workspace) (p : String)
    (h : ∀ x ∈ w.paths, FolderContains x p = false) : w.GetFolderContaining p = none := by
  unfold Workspace.GetFolderContaining
  unfold Workspace.paths at h
  generalize w.folders = fs at h
  induction fs with
  | nil => rfl
  | cons g gs ih =>
    have hg : FolderContains g.path p = false := h g.path (by simp)
    rw [List.foldl_cons]
    simp only [hg, Bool.false_eq_true, if_false]
    exact ih (fun x hx => h x (by
      rw [List.map_cons, List.mem_cons]
      exact Or.inr hx))

theorem Workspace.removeFolder_folders (w : Workspace) (world : World) (path : String)
    (g : Folder) (hg : g ∈ (w.RemoveFolder world path).1.folders) :
    g ∈ w.folders ∧ g.path ≠ path := by
  unfold Workspace.RemoveFolder at hg
  cases hf : w.GetFolder path with
  | none =>
    rw [hf] at hg
    have hnot := Workspace.getFolder_none w path hf
    exact ⟨hg, fun e => hnot (e ▸ List.mem_map_of_mem (fun f => f.path) hg)⟩
  | some f =>
    rw [hf] at hg
    simp only [List.mem_filter] at hg
    exact ⟨hg.1, by simpa using hg.2⟩

theorem Workspace.removeAll_folders (Q : String → String) (rs : List WorkspaceFolder)
    (w : Workspace) (world : World) (g : Folder)
    (hg : g ∈ (rs.foldl (fun (st : Workspace × World) folder =>
      st.1.RemoveFolder st.2 (Q folder.Uri)) (w, world)).1.folders) :
    g ∈ w.folders ∧ g.path ∉ rs.map (fun folder => Q folder.Uri) := by
  induction rs generalizing w world with
  | nil => exact ⟨hg, by simp⟩
  | cons r rs ih =>
    rw [List.foldl_cons] at hg
    obtain ⟨h1, h2⟩ := ih _ _ hg
    obtain ⟨h3, h4⟩ := Workspace.removeFolder_folders w world (Q r.Uri) g h1
    refine ⟨h3, ?_⟩
    rw [List.map_cons, List.mem_cons]
    exact fun h => h.elim h4 h2

theorem Workspace.addAll_folders (Q : String → String) (added : List WorkspaceFolder)
    (st : Workspace × World) (g : Folder)
    (hg : g ∈ (added.foldl (fun (st : Workspace × World) folder =>
      (st.1.AddFolder (NewFolder (Q folder.Uri) folder.Name st.1.scanner), st.2)) st).1.folders) :
    g ∈ st.1.folders ∨ g.path ∈ added.map (fun folder => Q folder.Uri) := by
  induction added generalizing st with
  | nil => exact Or.inl hg
  | cons a added ih =>
    rw [List.foldl_cons] at hg
    rcases ih _ hg with h | h
    · simp only [Workspace.AddFolder, List.mem_append, List.mem_filter,
        List.mem_singleton] at h
      rcases h with h | h
      · exact Or.inl h.1
      · right
        rw [List.map_cons, List.mem_cons, h]
        exact Or.inl rfl
    · right
      rw [List.map_cons, List.mem_cons]
      exact Or.inr h

theorem Workspace.scanFolder_folders (w : Workspace) (world : World) (folderPath : String)
    (g : Folder) (hg : g ∈ (w.ScanFolder world folderPath).1.folders) :
    g ∈ w.folders ∨ g.path = folderPath := by
  unfold Workspace.ScanFolder Workspace.scanFolderAt at hg
  cases hf : w.GetFolder folderPath with
  | none =>
    rw [hf] at hg
    exact Or.inl hg
  | some f =>
    rw [hf] at hg
    simp only [Workspace.updateFolder, List.mem_map] at hg
    obtain ⟨g0, hg0, he⟩ := hg
    have hfp : f.path = folderPath := (Workspace.getFolder_some w folderPath f hf).1
    by_cases hc : g0.path = (f.scan world folderPath).1.path
    · rw [if_pos hc] at he
      right
      rw [← he, Folder.scan_path, hfp]
    · rw [if_neg hc] at he
      left
      rw [← he]
      exact hg0

theorem Workspace.scanAdded_folders (Q : String → String) (added : List WorkspaceFolder)
    (st : Workspace × World) (g : Folder)
    (hg : g ∈ (added.foldl (fun (st : Workspace × World) folder =>
      match st.1.GetFolder (Q folder.Uri) with
      | none => st
      | some f => if f.IsTrusted st.2.config then st.1.ScanFolder st.2 f.path else st)
      st).1.folders) :
    g ∈ st.1.folders ∨ g.path ∈ added.map (fun folder => Q folder.Uri) := by
  induction added generalizing st with
  | nil => exact Or.inl hg
  | cons a added ih =>
    rw [List.foldl_cons] at hg
    rcases ih _ hg with h | h
    · cases hf : st.1.GetFolder (Q a.Uri) with
      | none =>
        rw [hf] at h
        exact Or.inl h
      | some f =>
        rw [hf] at h
        simp only at h
        by_cases ht : f.IsTrusted st.2.config = true
        · rw [if_pos ht] at h
          rcases Workspace.scanFolder_folders _ _ _ g h with h1 | h1
          · exact Or.inl h1
          · right
            rw [List.map_cons, List.mem_cons, h1,
              (Workspace.getFolder_some st.1 (Q a.Uri) f hf).1]
            exact Or.inl rfl
        · rw [if_neg ht] at h
          exact Or.inl h
    · right
      rw [List.map_cons, List.mem_cons]
      exact Or.inr h

theorem Workspace.scanFolder_notifications_mono (w : Workspace) (world : World)
    (folderPath : String) (n : Notification) (hn : n ∈ world.notifications) :
    n ∈ (w.ScanFolder world folderPath).2.notifications := by
  unfold Workspace.ScanFolder Workspace.scanFolderAt
  cases hf : w.GetFolder folderPath with
  | none => exact hn
  | some f =>
    simp only
    by_cases ht : f.IsTrusted world.config = true
    · obtain ⟨published, hpub, _⟩ := Folder.scan_trusted_notifications f world folderPath ht
      rw [hpub]
      exact List.mem_append_left _ hn
    · have hfalse : f.IsTrusted world.config = false := by simpa using ht
      rw [Folder.scan_untrusted f world folderPath hfalse]
      exact List.mem_append_left _ hn

theorem Workspace.scanAdded_notifications_mono (Q : String → String)
    (added : List WorkspaceFolder) (st : Workspace × World) (n : Notification)
    (hn : n ∈ st.2.notifications) :
    n ∈ (added.foldl (fun (st : Workspace × World) folder =>
      match st.1.GetFolder (Q folder.Uri) with
      | none => st
      | some f => if f.IsTrusted st.2.config then st.1.ScanFolder st.2 f.path else st)
      st).2.notifications := by
  induction added generalizing st with
  | nil => exact hn
  | cons a added ih =>
    rw [List.foldl_cons]
    apply ih
    cases hf : st.1.GetFolder (Q a.Uri) with
    | none => exact hn
    | some f =>
      simp only
      by_cases ht : f.IsTrusted st.2.config = true
      · rw [if_pos ht]
        exact Workspace.scanFolder_notifications_mono _ _ _ n hn
      · rw [if_neg ht]
        exact hn

theorem Workspace.addAll_world (Q : String → String) (added : List WorkspaceFolder)
    (st : Workspace × World) :
    (added.foldl (fun (st : Workspace × World) folder =>
      (st.1.AddFolder (NewFolder (Q folder.Uri) folder.Name st.1.scanner), st.2)) st).2
      = st.2 := by
  induction added generalizing st with
  | nil => rfl
  | cons a added ih => rw [List.foldl_cons, ih]

theorem Workspace.removeFolder_notifications_mono (w : Workspace) (world : World)
    (path : String) (n : Notification) (hn : n ∈ world.notifications) :
    n ∈ (w.RemoveFolder world path).2.notifications := by
  unfold Workspace.RemoveFolder
  cases w.GetFolder path with
  | none => exact hn
  | some f => exact List.mem_append_left _ hn

theorem Workspace.removeAll_notifications_mono (Q : String → String)
    (rs : List WorkspaceFolder) (w : Workspace) (world : World) (n : Notification)
    (hn : n ∈ world.notifications) :
    n ∈ (rs.foldl (fun (st : Workspace × World) folder =>
      st.1.RemoveFolder st.2 (Q folder.Uri)) (w, world)).2.notifications := by
  induction rs generalizing w world with
  | nil => exact hn
  | cons r rs ih =>
    rw [List.foldl_cons]
    exact ih _ _ (Workspace.removeFolder_notifications_mono w world _ n hn)

theorem Workspace.removeFolder_getFolder_other (w : Workspace) (world : World)
    (path r : String) (h : r ≠ path) :
    (w.RemoveFolder world path).1.GetFolder r = w.GetFolder r := by
  unfold Workspace.RemoveFolder
  cases w.GetFolder path with
  | none => rfl
  | some f =>
    simp only [Workspace.GetFolder]
    induction w.folders with
    | nil => rfl
    | cons g gs ih =>
      by_cases hg : g.path = path
      · have hpr : (path == r) = false := by simpa using fun e => h e.symm
        simp [List.filter_cons, hg, List.find?_cons, hpr, ih]
      · simp [List.filter_cons, hg, List.find?_cons, ih]

theorem Workspace.removeAll_clears (Q : String → String) (rs : List WorkspaceFolder)
    (w : Workspace) (world : World) (r : String) (f : Folder)
    (hr : r ∈ rs.map (fun folder => Q folder.Uri)) (hf : w.GetFolder r = some f)
    (t : String) (ht : t ∈ f.documentDiagnosticCache.paths) :
    Notification.publishDiagnostics t (Slice.items [])
      ∈ (rs.foldl (fun (st : Workspace × World) folder =>
        st.1.RemoveFolder st.2 (Q folder.Uri)) (w, world)).2.notifications := by
  induction rs generalizing w world with
  | nil => simp at hr
  | cons x rs ih =>
    rw [List.foldl_cons]
    show Notification.publishDiagnostics t (Slice.items [])
      ∈ (rs.foldl (fun (st : Workspace × World) folder =>
        st.1.RemoveFolder st.2 (Q folder.Uri)) (w.RemoveFolder world (Q x.Uri))).2.notifications
    by_cases hx : Q x.Uri = r
    · have hstep : Notification.publishDiagnostics t (Slice.items [])
          ∈ (w.RemoveFolder world (Q x.Uri)).2.notifications := by
        unfold Workspace.RemoveFolder
        rw [hx, hf]
        simp only
        apply List.mem_append_right
        rw [List.mem_map]
        exact ⟨t, List.mem_dedup.mpr ht, rfl⟩
      exact Workspace.removeAll_notifications_mono Q rs _ _ _ hstep
    · rw [List.map_cons, List.mem_cons] at hr
      have hr2 : r ∈ rs.map (fun folder => Q folder.Uri) :=
        hr.resolve_left (fun e => hx e.symm)
      have hf2 : (w.RemoveFolder world (Q x.Uri)).1.GetFolder r = some f := by
        rw [Workspace.removeFolder_getFolder_other w world _ r (fun e => hx e.symm)]
        exact hf
      exact ih _ _ hr2 hf2

/-- C17: after `ChangeWorkspaceFolders` removes the root `r`, for a path `p`
under `r` that no other remaining folder and no added folder contains,
`GetFolderContaining(p)` returns nil and no folder is kept for `r`. The
removed folder and the issues stored in it are gone from the workspace: every
folder of the workspace afterwards has a root other than `r` and is either a
folder the event added or one of the folders from before, unchanged, whose
root was not removed, so what `AllIssuesFor` of a folder of the workspace
returns is never taken from the store of the removed folder; and empty
diagnostics have been published for every path the removed folder had issues
stored for. -/
theorem removed_folder_is_gone (Q : String → String) (w : Workspace) (world : World)
    (event : WorkspaceFoldersChangeEvent) (r p : String)
    (hr : r ∈ event.Removed.toList.map (fun folder => Q folder.Uri))
    (hp : FolderContains r p = true)
    (hother : ∀ x ∈ w.paths, x ≠ r →
      x ∉ event.Removed.toList.map (fun folder => Q folder.Uri) →
      FolderContains x p = false)
    (hadded : ∀ a ∈ event.Added.toList, FolderContains (Q a.Uri) p = false) :
    (w.ChangeWorkspaceFolders Q world event).1.GetFolderContaining p = none ∧
    (w.ChangeWorkspaceFolders Q world event).1.GetFolder r = none ∧
    (∀ g ∈ (w.ChangeWorkspaceFolders Q world event).1.folders,
      g.path ≠ r ∧
      (g.path ∉ event.Added.toList.map (fun folder => Q folder.Uri) →
        g ∈ w.folders ∧ g.path ∉ event.Removed.toList.map (fun folder => Q folder.Uri) ∧
        ∀ q : String, ∃ g0 ∈ w.folders, g0.path ≠ r ∧
          g.AllIssuesFor q = g0.AllIssuesFor q)) ∧
    (∀ f : Folder, w.GetFolder r = some f →
      ∀ t ∈ f.documentDiagnosticCache.paths,
        Notification.publishDiagnostics t (Slice.items [])
          ∈ (w.ChangeWorkspaceFolders Q world event).2.notifications) := by
  have hpaths : ∀ x ∈ (w.ChangeWorkspaceFolders Q world event).1.paths,
      (x ∈ w.paths ∧ x ∉ event.Removed.toList.map (fun folder => Q folder.Uri)) ∨
      x ∈ event.Added.toList.map (fun folder => Q folder.Uri) := by
    intro x hx
    unfold Workspace.ChangeWorkspaceFolders at hx
    simp only at hx
    rw [Workspace.scanAdded_paths] at hx
    rcases Workspace.addAll_paths Q _ _ x hx with h | h
    · exact Or.inl (Workspace.removeAll_paths Q _ w world x h)
    · exact Or.inr h
  have hnone : ∀ x ∈ (w.ChangeWorkspaceFolders Q world event).1.paths,
      FolderContains x p = false := by
    intro x hx
    rcases hpaths x hx with ⟨h1, h2⟩ | h
    · exact hother x h1 (fun e => h2 (e ▸ hr)) h2
    · rw [List.mem_map] at h
      obtain ⟨a, ha, rfl⟩ := h
      exact hadded a ha
  have hcontaining := Workspace.getFolderContaining_none _ p hnone
  have hnotmem : r ∉ (w.ChangeWorkspaceFolders Q world event).1.paths := by
    intro hmem
    have hfalse := hnone r hmem
    rw [hp] at hfalse
    exact Bool.noConfusion hfalse
  refine ⟨hcontaining, Workspace.getFolder_eq_none_of_not_mem _ r hnotmem, ?_, ?_⟩
  · intro g hg
    refine ⟨fun e => hnotmem (e ▸ List.mem_map_of_mem (fun f => f.path) hg), ?_⟩
    intro hnotadded
    have hold : g ∈ w.folders ∧
        g.path ∉ event.Removed.toList.map (fun folder => Q folder.Uri) := by
      unfold Workspace.ChangeWorkspaceFolders at hg
      simp only at hg
      rcases Workspace.scanAdded_folders Q _ _ g hg with h | h
      · rcases Workspace.addAll_folders Q _ _ g h with h1 | h1
        · exact Workspace.removeAll_folders Q _ w world g h1
        · exact absurd h1 hnotadded
      · exact absurd h hnotadded
    exact ⟨hold.1, hold.2, fun q => ⟨g, hold.1, fun e => hold.2 (e ▸ hr), rfl⟩⟩
  · intro f hf t ht
    unfold Workspace.ChangeWorkspaceFolders
    simp only
    apply Workspace.scanAdded_notifications_mono
    rw [Workspace.addAll_world]
    exact Workspace.removeAll_clears Q _ w world r f hr hf t ht

theorem removed_folder_is_gone_witness :
    (scannedTwoFolderState.1.ChangeWorkspaceFolders id scannedTwoFolderState.2
        { Added := Slice.items [⟨"x", "xroot"⟩],
          Removed := Slice.items [⟨"dummy", "dummy"⟩] }).1.GetFolderContaining
        "dummy/file.txt" = none ∧
    Notification.publishDiagnostics "dummy/file.txt" (Slice.items [])
      ∈ (scannedTwoFolderState.1.ChangeWorkspaceFolders id scannedTwoFolderState.2
        { Added := Slice.items [⟨"x", "xroot"⟩],
          Removed := Slice.items [⟨"dummy", "dummy"⟩] }).2.notifications ∧
    (scannedTwoFolderState.1.ChangeWorkspaceFolders id scannedTwoFolderState.2
        { Added := Slice.items [⟨"x", "xroot"⟩],
          Removed := Slice.items [⟨"dummy", "dummy"⟩] }).1.paths = ["dontclear", "xroot"] :=
  have h := removed_folder_is_gone id scannedTwoFolderState.1 scannedTwoFolderState.2
    { Added := Slice.items [⟨"x", "xroot"⟩], Removed := Slice.items [⟨"dummy", "dummy"⟩] }
    "dummy" "dummy/file.txt" (by decide) (by decide) (by decide) (by decide)
  ⟨h.1,
    h.2.2.2 (dummyFolder.scan permissiveWorld "dummy").1 rfl "dummy/file.txt" (by decide),
    by decide⟩

theorem string_length_pos_iff (s : String) : s.length > 0 ↔ s ≠ "" := by
  obtain ⟨data⟩ := s
  cases data with
  | nil => simp [String.length]
  | cons ch rest => simp [String.length, String.ext_iff]

theorem envKey_assignment (key value : String) (h : ∀ ch ∈ key.data, ch ≠ '=') :
    envKey (key ++ "=" ++ value) = key := by
  unfold envKey
  have hd : (key ++ "=" ++ value).data = key.data ++ ('=' :: value.data) := by
    simp [String.data_append]
  rw [hd, List.takeWhile_append_of_pos (fun ch hch => by simpa using h ch hch)]
  simp

theorem tokenEntries_kept (cfg : CliConfig) (env : List String) :
    (env.filter (fun s => !(valuesToRemove cfg).contains (envKey s))).filter
      (fun s => decide (envKey s = "VULNMAP_TOKEN" ∨ envKey s = "VULNMAP_OAUTH_TOKEN"))
      = [] := by
  rw [List.filter_eq_nil_iff]
  intro s hs
  rw [List.mem_filter] at hs
  have hk := hs.2
  simp only [valuesToRemove, ApiEnvVar, TokenEnvVar, VulnmapOauthTokenEnvVar,
    DisableAnalyticsEnvVar, List.contains_cons, Bool.not_eq_true', Bool.or_eq_false_iff,
    beq_eq_false_iff_ne, ne_eq] at hk
  simp only [decide_eq_true_eq, not_or]
  exact ⟨hk.2.1, hk.2.2.1⟩

theorem tokenEntries_api (cfg : CliConfig) :
    (appendApiAndAnalyticsVars cfg Slice.nil).toList.filter
      (fun s => decide (envKey s = "VULNMAP_TOKEN" ∨ envKey s = "VULNMAP_OAUTH_TOKEN"))
      = [] := by
  have h1 : ∀ v, envKey (ApiEnvVar ++ "=" ++ v) = "VULNMAP_API" :=
    fun v => envKey_assignment ApiEnvVar v (by decide)
  have h2 : envKey (DisableAnalyticsEnvVar ++ "=1") = "VULNMAP_CFG_DISABLE_ANALYTICS" :=
    envKey_assignment DisableAnalyticsEnvVar "1" (by decide)
  unfold appendApiAndAnalyticsVars
  by_cases ha : cfg.VulnmapApi ≠ "" <;> by_cases hb : (!cfg.IsTelemetryEnabled) = true <;>
    simp [ha, hb, Slice.toList_append, Slice.toList_nil, h1, h2]

theorem tokenEntries_integration (cfg : CliConfig) :
    (appendIntegrationVars cfg Slice.nil).toList.filter
      (fun s => decide (envKey s = "VULNMAP_TOKEN" ∨ envKey s = "VULNMAP_OAUTH_TOKEN"))
      = [] := by
  have h1 : ∀ v, envKey (IntegrationNameEnvVarKey ++ "=" ++ v) = "VULNMAP_INTEGRATION_NAME" :=
    fun v => envKey_assignment IntegrationNameEnvVarKey v (by decide)
  have h2 : ∀ v, envKey (IntegrationVersionEnvVarKey ++ "=" ++ v)
      = "VULNMAP_INTEGRATION_VERSION" :=
    fun v => envKey_assignment IntegrationVersionEnvVarKey v (by decide)
  have h3 : ∀ v, envKey (IntegrationEnvironmentEnvVarKey ++ "=" ++ v)
      = "VULNMAP_INTEGRATION_ENVIRONMENT" :=
    fun v => envKey_assignment IntegrationEnvironmentEnvVarKey v (by decide)
  have h4 : ∀ v, envKey (IntegrationEnvironmentVersionEnvVar ++ "=" ++ v)
      = "VULNMAP_INTEGRATION_ENVIRONMENT_VERSION" :=
    fun v => envKey_assignment IntegrationEnvironmentVersionEnvVar v (by decide)
  unfold appendIntegrationVars
  by_cases ha : cfg.IntegrationName ≠ "" <;>
    simp [ha, Slice.toList_append, Slice.toList_nil, h1, h2, h3, h4]

theorem tokenEntries_token (cfg : CliConfig) (appendToken : Bool) :
    (appendTokenVars cfg appendToken Slice.nil).toList.filter
      (fun s => decide (envKey s = "VULNMAP_TOKEN" ∨ envKey s = "VULNMAP_OAUTH_TOKEN"))
      = (appendTokenVars cfg appendToken Slice.nil).toList := by
  have h1 : ∀ v, envKey (TokenEnvVar ++ "=" ++ v) = "VULNMAP_TOKEN" :=
    fun v => envKey_assignment TokenEnvVar v (by decide)
  have h2 : ∀ v, envKey (VulnmapOauthTokenEnvVar ++ "=" ++ v) = "VULNMAP_OAUTH_TOKEN" :=
    fun v => envKey_assignment VulnmapOauthTokenEnvVar v (by decide)
  unfold appendTokenVars
  split
  · split
    · split
      · split <;> simp [Slice.toList_append, Slice.toList_nil, h2]
      · simp [Slice.toList_nil]
    · simp [Slice.toList_append, Slice.toList_nil, h1]
  · simp [Slice.toList_nil]

theorem tokenEntries_eq (cfg : CliConfig) (env : Slice String) (appendToken : Bool) :
    tokenEntries (AppendCliEnvironmentVariables cfg env appendToken)
      = (appendTokenVars cfg appendToken Slice.nil).toList := by
  have hgen : (AppendCliEnvironmentVariables cfg Slice.nil appendToken).toList
      = (appendTokenVars cfg appendToken Slice.nil).toList
        ++ ((appendApiAndAnalyticsVars cfg Slice.nil).toList
          ++ (appendIntegrationVars cfg Slice.nil).toList) := by
    have hnil : removeExistingEnvVars cfg Slice.nil Slice.nil = Slice.nil := rfl
    unfold AppendCliEnvironmentVariables
    simp only [hnil]
    rw [appendIntegrationVars_toList, appendApiAndAnalyticsVars_toList, List.append_assoc]
  unfold tokenEntries
  rw [AppendCliEnvironmentVariables_toList, hgen]
  simp only [List.filter_append]
  rw [tokenEntries_kept, tokenEntries_api, tokenEntries_integration, tokenEntries_token]
  simp

/-- C21: the result of `AppendCliEnvironmentVariables` holds at most one
entry whose key is VULNMAP_TOKEN or VULNMAP_OAUTH_TOKEN: none when
appendToken is false; VULNMAP_TOKEN=<configured token> when appendToken is
true and the authentication method is not OAuth; under OAuth,
VULNMAP_OAUTH_TOKEN=<access token> when the stored token parses with a
non-empty access token, and none when it does not parse or the access token
is empty. -/
theorem AppendCliEnvironmentVariables_at_most_one_token (cfg : CliConfig)
    (env : Slice String) (appendToken : Bool) :
    (tokenEntries (AppendCliEnvironmentVariables cfg env appendToken)).length ≤ 1 ∧
    (appendToken = false →
      tokenEntries (AppendCliEnvironmentVariables cfg env appendToken) = []) ∧
    (appendToken = true → cfg.AuthenticationMethod ≠ .OAuthAuthentication →
      tokenEntries (AppendCliEnvironmentVariables cfg env appendToken)
        = ["VULNMAP_TOKEN=" ++ cfg.Token]) ∧
    (appendToken = true → cfg.AuthenticationMethod = .OAuthAuthentication →
      ∀ token : OAuthToken, cfg.TokenAsOAuthToken = .ok token → token.AccessToken ≠ "" →
      tokenEntries (AppendCliEnvironmentVariables cfg env appendToken)
        = ["VULNMAP_OAUTH_TOKEN=" ++ token.AccessToken]) ∧
    (appendToken = true → cfg.AuthenticationMethod = .OAuthAuthentication →
      (∀ token : OAuthToken, cfg.TokenAsOAuthToken = .ok token → token.AccessToken = "") →
      tokenEntries (AppendCliEnvironmentVariables cfg env appendToken) = []) := by
  rw [tokenEntries_eq]
  have hlen := string_length_pos_iff
  refine ⟨?_, ?_, ?_, ?_, ?_⟩
  · unfold appendTokenVars
    split
    · split
      · split
        · split <;> simp [Slice.toList_append, Slice.toList_nil]
        · simp [Slice.toList_nil]
      · simp [Slice.toList_append, Slice.toList_nil]
    · simp [Slice.toList_nil]
  · intro hb
    simp [appendTokenVars, hb, Slice.toList_nil]
  · intro hb hm
    simp [appendTokenVars, hb, hm, Slice.toList_append, Slice.toList_nil, TokenEnvVar]
  · intro hb hm token ht hne
    have hpos : token.AccessToken.length > 0 := (hlen _).mpr hne
    simp [appendTokenVars, hb, hm, ht, hpos, Slice.toList_append, Slice.toList_nil,
      VulnmapOauthTokenEnvVar]
  · intro hb hm hall
    unfold appendTokenVars
    rw [if_pos hb, if_pos hm]
    cases ht : cfg.TokenAsOAuthToken with
    | error err => simp [Slice.toList_nil]
    | ok token =>
      have hempty := hall token ht
      simp [hempty, Slice.toList_nil]

theorem AppendCliEnvironmentVariables_at_most_one_token_witness :
    tokenEntries (AppendCliEnvironmentVariables oauthTestConfig
        (Slice.items ["VULNMAP_TOKEN=\x7basdf\x7d"]) true)
      = ["VULNMAP_OAUTH_TOKEN=testToken"] ∧
    tokenEntries (AppendCliEnvironmentVariables tokenTestConfig
        (Slice.items ["VULNMAP_OAUTH_TOKEN=\x7basdf\x7d"]) true)
      = ["VULNMAP_TOKEN=testToken"] :=
  ⟨(AppendCliEnvironmentVariables_at_most_one_token oauthTestConfig
      (Slice.items ["VULNMAP_TOKEN=\x7basdf\x7d"]) true).2.2.2.1 rfl rfl
      { AccessToken := "testToken" } rfl (by decide),
    (AppendCliEnvironmentVariables_at_most_one_token tokenTestConfig
      (Slice.items ["VULNMAP_OAUTH_TOKEN=\x7basdf\x7d"]) true).2.2.1 rfl (by decide)⟩

/-! ## Properties of the bundle -/

/-- C22: `getShardKey` is the hash of the root path when the root path is
non-empty, otherwise the hash of the token when the token is non-empty,
otherwise the empty string; with a root path given, the token does not
influence the key. -/
theorem getShardKey_prefers_root_path (Hash : String → String)
    (rootPath authToken : String) :
    (rootPath ≠ "" → getShardKey Hash rootPath authToken = Hash rootPath) ∧
    (rootPath = "" → authToken ≠ "" → getShardKey Hash rootPath authToken = Hash authToken) ∧
    (rootPath = "" → authToken = "" → getShardKey Hash rootPath authToken = "") ∧
    (rootPath ≠ "" → ∀ otherToken : String,
      getShardKey Hash rootPath authToken = getShardKey Hash rootPath otherToken) := by
  have hlen := string_length_pos_iff
  have hroot : rootPath ≠ "" → ∀ token, getShardKey Hash rootPath token = Hash rootPath := by
    intro h token
    simp [getShardKey, (hlen rootPath).mpr h]
  refine ⟨fun h => hroot h authToken, ?_, ?_, ?_⟩
  · intro hr ht
    subst hr
    have hpos := (hlen authToken).mpr ht
    simp [getShardKey, hpos]
  · intro hr ht
    subst hr
    subst ht
    simp [getShardKey]
  · intro h otherToken
    rw [hroot h authToken, hroot h otherToken]

theorem getShardKey_prefers_root_path_witness :
    getShardKey (fun s => "hash:" ++ s) "C:\\GIT\\root" "TEST" = "hash:C:\\GIT\\root" ∧
    getShardKey (fun s => "hash:" ++ s) "" "TEST" = "hash:TEST" :=
  ⟨(getShardKey_prefers_root_path (fun s => "hash:" ++ s) "C:\\GIT\\root" "TEST").1
      (by decide),
    (getShardKey_prefers_root_path (fun s => "hash:" ++ s) "" "TEST").2.1 rfl (by decide)⟩

/-! ## Properties of the scrubbing writer -/

theorem replaceScan_skip {α : Type} [DecidableEq α] (old new : List α) (skip : Nat)
    (l : List α) :
    replaceScan old new skip l = replaceScan old new 0 (l.drop skip) := by
  induction skip generalizing l with
  | zero => rfl
  | succ n ih =>
    cases l with
    | nil => rfl
    | cons b rest =>
      rw [replaceScan, ih]
      rfl

theorem replaceScan_cons {α : Type} [DecidableEq α] (old new : List α) (b : α)
    (rest : List α) (hold : old ≠ []) :
    replaceScan old new 0 (b :: rest)
      = if old <+: b :: rest then
          new ++ replaceScan old new 0 ((b :: rest).drop old.length)
        else b :: replaceScan old new 0 rest := by
  rw [replaceScan]
  have hdrop : (b :: rest).drop old.length = rest.drop (old.length - 1) := by
    cases old with
    | nil => exact absurd rfl hold
    | cons o os => rfl
  by_cases h : old <+: b :: rest
  · rw [if_pos h, if_pos (List.isPrefixOf_iff_prefix.mpr h), replaceScan_skip, hdrop]
  · rw [if_neg h, if_neg (fun hp => h (List.isPrefixOf_iff_prefix.mp hp))]

theorem prefix_of_replaceScan {α : Type} [DecidableEq α] (old new : List α)
    (hold : old ≠ []) (hnew : new ≠ []) (u : List α) (hu : ∀ x ∈ new, x ∉ u)
    (l : List α) (h : u <+: replaceScan old new 0 l) : u <+: l := by
  induction l generalizing u with
  | nil =>
    rw [replaceScan] at h
    exact h
  | cons b rest ih =>
    rw [replaceScan_cons old new b rest hold] at h
    split at h
    · cases new with
      | nil => exact absurd rfl hnew
      | cons n0 new' =>
        rw [List.cons_append, List.prefix_cons_iff] at h
        rcases h with h | ⟨t, ht, _⟩
        · rw [h]
          exact List.nil_prefix
        · exact absurd (ht ▸ List.mem_cons_self n0 t) (hu n0 (List.mem_cons_self _ _))
    · rw [List.prefix_cons_iff] at h
      rcases h with h | ⟨t, ht, hpre⟩
      · rw [h]
        exact List.nil_prefix
      · rw [ht, List.cons_prefix_cons]
        refine ⟨rfl, ih t (fun x hx hxt => hu x hx (ht ▸ List.mem_cons_of_mem _ hxt)) hpre⟩

theorem infix_of_append_avoid {α : Type} (u a rest : List α) (hne : u ≠ [])
    (hu : ∀ x ∈ a, x ∉ u) (h : u <:+: a ++ rest) : u <:+: rest := by
  induction a with
  | nil => exact h
  | cons x a ih =>
    rw [List.cons_append, List.infix_cons_iff] at h
    rcases h with h | h
    · rw [List.prefix_cons_iff] at h
      rcases h with h | ⟨t, ht, _⟩
      · exact absurd h hne
      · exact absurd (ht ▸ List.mem_cons_self x t) (hu x (List.mem_cons_self _ _))
    · exact ih (fun y hy => hu y (List.mem_cons_of_mem _ hy)) h

theorem infix_of_replaceScan {α : Type} [DecidableEq α] (old new : List α)
    (hold : old ≠ []) (hnew : new ≠ []) (u : List α) (hne : u ≠ [])
    (hu : ∀ x ∈ new, x ∉ u) (n : Nat) :
    ∀ l : List α, l.length ≤ n → u <:+: replaceScan old new 0 l → u <:+: l := by
  induction n with
  | zero =>
    intro l hl h
    have hnil : l = [] := List.length_eq_zero.mp (Nat.le_zero.mp hl)
    rw [hnil, replaceScan] at h
    rw [hnil]
    exact h
  | succ n ih =>
    intro l hl h
    cases l with
    | nil =>
      rw [replaceScan] at h
      exact h
    | cons b rest =>
      rw [replaceScan_cons old new b rest hold] at h
      split at h
      · have h1 := infix_of_append_avoid u new _ hne hu h
        have hlen : ((b :: rest).drop old.length).length ≤ n := by
          have hpos : 0 < old.length := List.length_pos.mpr hold
          rw [List.length_drop]
          simp only [List.length_cons] at hl ⊢
          omega
        exact (ih _ hlen h1).trans (List.drop_suffix _ _).isInfix
      · rw [List.infix_cons_iff] at h
        rcases h with h | h
        · have hpre : u <+: replaceScan old new 0 (b :: rest) := by
            rw [replaceScan_cons old new b rest hold, if_neg ‹_›]
            exact h
          exact (prefix_of_replaceScan old new hold hnew u hu _ hpre).isInfix
        · have hlen : rest.length ≤ n := by
            simp only [List.length_cons] at hl
            omega
          exact List.infix_cons (ih rest hlen h)

theorem replaceScan_removes {α : Type} [DecidableEq α] (old new : List α)
    (hold : old ≠ []) (hnew : new ≠ []) (hu : ∀ x ∈ new, x ∉ old) (n : Nat) :
    ∀ l : List α, l.length ≤ n → ¬ old <:+: replaceScan old new 0 l := by
  induction n with
  | zero =>
    intro l hl h
    have hnil : l = [] := List.length_eq_zero.mp (Nat.le_zero.mp hl)
    rw [hnil, replaceScan, List.infix_nil] at h
    exact hold h
  | succ n ih =>
    intro l hl h
    cases l with
    | nil =>
      rw [replaceScan, List.infix_nil] at h
      exact hold h
    | cons b rest =>
      rw [replaceScan_cons old new b rest hold] at h
      split at h
      · have h1 := infix_of_append_avoid old new _ hold hu h
        have hlen : ((b :: rest).drop old.length).length ≤ n := by
          have hpos : 0 < old.length := List.length_pos.mpr hold
          rw [List.length_drop]
          simp only [List.length_cons] at hl ⊢
          omega
        exact ih _ hlen h1
      · rename_i hnot
        rw [List.infix_cons_iff] at h
        rcases h with h | h
        · have hpre : old <+: replaceScan old new 0 (b :: rest) := by
            rw [replaceScan_cons old new b rest hold, if_neg hnot]
            exact h
          exact hnot (prefix_of_replaceScan old new hold hnew old hu _ hpre)
        · have hlen : rest.length ≤ n := by
            simp only [List.length_cons] at hl
            omega
          exact ih rest hlen h

theorem scrubReplacement_avoid (u : GoString) (hu : 42 ∉ u) :
    ∀ x ∈ scrubReplacement, x ∉ u := by
  intro x hx
  have h42 : x = 42 := by
    simp [scrubReplacement, ascii] at hx
    exact hx
  rw [h42]
  exact hu

theorem stringsReplaceAll_keeps_absent (s term u : GoString) (hterm : term ≠ [])
    (hne : u ≠ []) (hu : 42 ∉ u) (h : ¬ u <:+: s) :
    ¬ u <:+: stringsReplaceAll s term scrubReplacement := by
  intro hin
  apply h
  cases term with
  | nil => exact absurd rfl hterm
  | cons o os =>
    exact infix_of_replaceScan (o :: os) scrubReplacement hterm (by decide) u hne
      (scrubReplacement_avoid u hu) s.length s (le_refl _) hin

theorem stringsReplaceAll_removes (s term : GoString) (hterm : term ≠ [])
    (hu : 42 ∉ term) : ¬ term <:+: stringsReplaceAll s term scrubReplacement := by
  cases term with
  | nil => exact absurd rfl hterm
  | cons o os =>
    exact replaceScan_removes (o :: os) scrubReplacement hterm (by decide)
      (scrubReplacement_avoid (o :: os) hu) s.length s (le_refl _)

theorem scrub_absent (scrubDict : List GoString) (hne : ∀ t ∈ scrubDict, t ≠ [])
    (hstar : ∀ t ∈ scrubDict, 42 ∉ t) (p u : GoString) (hu : u ≠ []) (hus : 42 ∉ u)
    (h : ¬ u <:+: p ∨ u ∈ scrubDict) : ¬ u <:+: scrub scrubDict p := by
  induction scrubDict generalizing p with
  | nil =>
    rcases h with h | h
    · exact h
    · exact absurd h (List.not_mem_nil _)
  | cons t ts ih =>
    have hstep : scrub (t :: ts) p = scrub ts (stringsReplaceAll p t scrubReplacement) := rfl
    rw [hstep]
    have ht : t ≠ [] := hne t (List.mem_cons_self _ _)
    have hts : 42 ∉ t := hstar t (List.mem_cons_self _ _)
    apply ih (fun x hx => hne x (List.mem_cons_of_mem _ hx))
      (fun x hx => hstar x (List.mem_cons_of_mem _ hx))
    rcases h with h | h
    · exact Or.inl (stringsReplaceAll_keeps_absent p t u ht hu hus h)
    · rw [List.mem_cons] at h
      rcases h with h | h
      · rw [h]
        exact Or.inl (stringsReplaceAll_removes p t ht hts)
      · exact Or.inr h

/-- C29: for a scrub dictionary whose terms are all non-empty and hold no
'*' byte, and for every input, the output of `scrub` holds no dictionary term
as a substring, in whatever order the terms are processed; with an empty
dictionary the output is the input. -/
theorem scrub_output_holds_no_term (scrubDict : List GoString) (p : GoString)
    (hne : ∀ t ∈ scrubDict, t ≠ []) (hstar : ∀ t ∈ scrubDict, 42 ∉ t) :
    (∀ t ∈ scrubDict, ¬ t <:+: scrub scrubDict p) ∧
    (∀ order : List GoString, order.Perm scrubDict →
      ∀ t ∈ scrubDict, ¬ t <:+: scrub order p) ∧
    scrub [] p = p := by
  refine ⟨?_, ?_, rfl⟩
  · intro t ht
    exact scrub_absent scrubDict hne hstar p t (hne t ht) (hstar t ht) (Or.inr ht)
  · intro order hperm t ht
    have hmem : ∀ x, x ∈ order → x ∈ scrubDict := fun x hx => hperm.mem_iff.mp hx
    exact scrub_absent order (fun x hx => hne x (hmem x hx))
      (fun x hx => hstar x (hmem x hx)) p t (hne t ht) (hstar t ht)
      (Or.inr (hperm.mem_iff.mpr ht))

theorem scrub_output_holds_no_term_witness :
    scrub [ascii "secret", ascii "token"] (ascii "my secret and my token, secretoken")
      = ascii "my *** and my ***, ***oken" ∧
    ¬ ascii "token" <:+:
      scrub [ascii "secret", ascii "token"] (ascii "my secret and my token, secretoken") :=
  ⟨by decide,
    (scrub_output_holds_no_term [ascii "secret", ascii "token"]
      (ascii "my secret and my token, secretoken") (by decide) (by decide)).1
      (ascii "token") (by decide)⟩

/-! ## Properties of the range finder -/

theorem stringsIndexFrom_spec (substr : GoString) (l : GoString) (pos : Nat) :
    (stringsIndexFrom substr pos l = -1 ∧ ¬ substr <:+: l) ∨
    ∃ pre post, l = pre ++ substr ++ post ∧
      stringsIndexFrom substr pos l = ((pos + pre.length : Nat) : Int) ∧
      ∀ pre' post', l = pre' ++ substr ++ post' → pre.length ≤ pre'.length := by
  induction l generalizing pos with
  | nil =>
    by_cases hs : substr = []
    · right
      refine ⟨[], [], by simp [hs], by simp [stringsIndexFrom, hs], fun _ _ _ => Nat.zero_le _⟩
    · left
      refine ⟨by simp [stringsIndexFrom, hs], ?_⟩
      rw [List.infix_nil]
      exact hs
  | cons b rest ih =>
    by_cases hp : substr <+: b :: rest
    · right
      obtain ⟨post, hpost⟩ := hp
      refine ⟨[], post, by simp [hpost], ?_, fun _ _ _ => Nat.zero_le _⟩
      have hpre : substr.isPrefixOf (b :: rest) = true :=
        List.isPrefixOf_iff_prefix.mpr ⟨post, hpost⟩
      simp [stringsIndexFrom, hpre]
    · have hpre : substr.isPrefixOf (b :: rest) = false := by
        rw [← Bool.not_eq_true, List.isPrefixOf_iff_prefix]
        exact hp
      have hstep : stringsIndexFrom substr pos (b :: rest)
          = stringsIndexFrom substr (pos + 1) rest := by
        simp [stringsIndexFrom, hpre]
      rcases ih (pos + 1) with ⟨h1, h2⟩ | ⟨pre, post, hl, hidx, hmin⟩
      · left
        refine ⟨by rw [hstep, h1], ?_⟩
        rw [List.infix_cons_iff]
        exact fun h => h.elim hp h2
      · right
        refine ⟨b :: pre, post, by simp [hl], ?_, ?_⟩
        · rw [hstep, hidx]
          simp only [List.length_cons]
          congr 1
          omega
        · intro pre' post' hl'
          cases pre' with
          | nil =>
            exact absurd ⟨post', by simpa using hl'.symm⟩ hp
          | cons b' pre'' =>
            simp only [List.cons_append, List.cons.injEq] at hl'
            have := hmin pre'' post' hl'.2
            simp only [List.length_cons]
            omega

theorem stringsContains_iff (s substr : GoString) :
    stringsContains s substr = true ↔ substr <:+: s := by
  unfold stringsContains stringsIndex
  rcases stringsIndexFrom_spec substr s 0 with ⟨h1, h2⟩ | ⟨pre, post, hl, hidx, _⟩
  · simp [h1, h2]
  · have hin : substr <:+: s := ⟨pre, post, hl.symm⟩
    simp only [hidx, hin, iff_true, decide_eq_true_eq]
    exact Int.natCast_nonneg _

theorem rdropWhile_keeps (p : Nat → Bool) (a : GoString) (x : Nat) (hx : p x = false)
    (c : GoString) : ∃ c', (a ++ [x] ++ c).rdropWhile p = a ++ [x] ++ c' := by
  induction c using List.reverseRecOn with
  | nil =>
    refine ⟨[], ?_⟩
    rw [List.append_nil, List.rdropWhile_concat]
    simp [hx]
  | append_singleton c y ih =>
    rw [← List.append_assoc, List.rdropWhile_concat]
    by_cases hy : p y = true
    · rw [if_pos hy]
      exact ih
    · rw [if_neg hy]
      exact ⟨c ++ [y], by simp⟩

theorem foundRange_bounds (pkg line : GoString) (i : Nat)
    (hpkg : ∃ b ∈ pkg, b ≠ 32 ∧ b ≠ 34 ∧ b ≠ 39) (hin : pkg <:+: line) :
    (foundRange pkg i line).Start.Line = (i : Int) ∧
    (foundRange pkg i line).End.Line = (i : Int) ∧
    (∃ pre post, line = pre ++ pkg ++ post ∧
      (foundRange pkg i line).Start.Character = (pre.length : Int) ∧
      ∀ pre' post', line = pre' ++ pkg ++ post' → pre.length ≤ pre'.length) ∧
    (foundRange pkg i line).Start.Character < (foundRange pkg i line).End.Character ∧
    (foundRange pkg i line).End.Character ≤ (line.length : Int) := by
  obtain ⟨b, hb, h32, h34, h39⟩ := hpkg
  rcases stringsIndexFrom_spec pkg line 0 with ⟨_, h2⟩ | ⟨pre, post, hl, hidx, hmin⟩
  · exact absurd hin h2
  · obtain ⟨p1, p2, hp⟩ := List.append_of_mem hb
    have hline : line = (pre ++ p1) ++ [b] ++ (p2 ++ post) := by
      rw [hl, hp]
      simp
    obtain ⟨c1, h1⟩ := rdropWhile_keeps (fun y => decide (y ∈ ascii " ")) (pre ++ p1) b
      (by simpa [ascii] using h32) (p2 ++ post)
    obtain ⟨c2, h2⟩ := rdropWhile_keeps (fun y => decide (y ∈ ascii "\"")) (pre ++ p1) b
      (by simpa [ascii] using h34) c1
    obtain ⟨c3, h3⟩ := rdropWhile_keeps (fun y => decide (y ∈ ascii "'")) (pre ++ p1) b
      (by simpa [ascii] using h39) c2
    have hend : stringsTrimRight (stringsTrimRight (stringsTrimRight line (ascii " "))
        (ascii "\"")) (ascii "'") = (pre ++ p1) ++ [b] ++ c3 := by
      unfold stringsTrimRight
      rw [hline, h1, h2, h3]
    have hle : (stringsTrimRight (stringsTrimRight (stringsTrimRight line (ascii " "))
        (ascii "\"")) (ascii "'")).length ≤ line.length := by
      unfold stringsTrimRight
      exact ((List.rdropWhile_prefix _ _).length_le.trans
        (List.rdropWhile_prefix _ _).length_le).trans (List.rdropWhile_prefix _ _).length_le
    have hstart : (foundRange pkg i line).Start.Character = (pre.length : Int) := by
      simp [foundRange, stringsIndex, hidx]
    refine ⟨rfl, rfl, ⟨pre, post, hl, hstart, hmin⟩, ?_, ?_⟩
    · rw [hstart]
      simp only [foundRange, hend, List.length_append, List.length_singleton]
      omega
    · simp only [foundRange]
      exact_mod_cast hle

theorem findFrom_spec (pkg : GoString) (lines : List GoString) (start : Nat) :
    (findFrom pkg start lines = Range.zero ∧
      ∀ line ∈ lines, isComment line = true ∨ ¬ pkg <:+: line) ∨
    ∃ (k : Nat) (line : GoString), lines[k]? = some line ∧
      isComment line = false ∧ pkg <:+: line ∧
      (∀ j < k, ∀ l, lines[j]? = some l → isComment l = true ∨ ¬ pkg <:+: l) ∧
      findFrom pkg start lines = foundRange pkg (start + k) line := by
  induction lines generalizing start with
  | nil =>
    left
    exact ⟨rfl, by simp⟩
  | cons line rest ih =>
    by_cases hc : isComment line = true
    · have hstep : findFrom pkg start (line :: rest) = findFrom pkg (start + 1) rest := by
        simp [findFrom, hc]
      rcases ih (start + 1) with ⟨h1, h2⟩ | ⟨k, l, hk, hcl, hin, hbefore, hr⟩
      · left
        refine ⟨by rw [hstep, h1], ?_⟩
        intro x hx
        rw [List.mem_cons] at hx
        rcases hx with hx | hx
        · rw [hx]
          exact Or.inl hc
        · exact h2 x hx
      · right
        refine ⟨k + 1, l, by simpa using hk, hcl, hin, ?_, ?_⟩
        · intro j hj x hx
          cases j with
          | zero =>
            simp only [List.getElem?_cons_zero, Option.some.injEq] at hx
            rw [← hx]
            exact Or.inl hc
          | succ j =>
            exact hbefore j (by omega) x (by simpa using hx)
        · rw [hstep, hr]
          congr 1
          omega
    · have hcf : isComment line = false := by simpa using hc
      by_cases hin : pkg <:+: line
      · right
        refine ⟨0, line, by simp, hcf, hin, fun j hj => absurd hj (Nat.not_lt_zero j), ?_⟩
        have hcon := (stringsContains_iff line pkg).mpr hin
        simp [findFrom, hcf, hcon]
      · have hcon : stringsContains line pkg = false := by
          rw [← Bool.not_eq_true, stringsContains_iff]
          exact hin
        have hstep : findFrom pkg start (line :: rest) = findFrom pkg (start + 1) rest := by
          simp [findFrom, hcf, hcon]
        rcases ih (start + 1) with ⟨h1, h2⟩ | ⟨k, l, hk, hcl, hinl, hbefore, hr⟩
        · left
          refine ⟨by rw [hstep, h1], ?_⟩
          intro x hx
          rw [List.mem_cons] at hx
          rcases hx with hx | hx
          · rw [hx]
            exact Or.inr hin
          · exact h2 x hx
        · right
          refine ⟨k + 1, l, by simpa using hk, hcl, hinl, ?_, ?_⟩
          · intro j hj x hx
            cases j with
            | zero =>
              simp only [List.getElem?_cons_zero, Option.some.injEq] at hx
              rw [← hx]
              exact Or.inr hin
            | succ j =>
              exact hbefore j (by omega) x (by simpa using hx)
          · rw [hstep, hr]
            congr 1
            omega

theorem replaceScan_delete (b : Nat) (s : GoString) :
    replaceScan [b] [] 0 s = s.filter (fun x => x ≠ b) := by
  induction s with
  | nil => rfl
  | cons x rest ih =>
    by_cases hx : x = b
    · subst hx
      simp [replaceScan, ih]
    · have hx2 : ¬ b = x := fun e => hx e.symm
      simp [replaceScan, hx, hx2, ih]

theorem stringsSplit_ne_nil (sep : Nat) (s : GoString) : stringsSplit sep s ≠ [] := by
  cases s with
  | nil => simp [stringsSplit]
  | cons b rest =>
    unfold stringsSplit
    by_cases hb : b = sep
    · simp [hb]
    · rw [if_neg hb]
      cases stringsSplit sep rest <;> simp

theorem stringsSplit_of_not_mem (sep : Nat) (l : GoString) (h : sep ∉ l) :
    stringsSplit sep l = [l] := by
  induction l with
  | nil => rfl
  | cons b rest ih =>
    rw [List.mem_cons, not_or] at h
    have hb : ¬ b = sep := fun e => h.1 e.symm
    rw [stringsSplit, if_neg hb, ih h.2]

theorem stringsSplit_append (sep : Nat) (l t : GoString) (h : sep ∉ l) :
    stringsSplit sep (l ++ sep :: t) = l :: stringsSplit sep t := by
  induction l with
  | nil => simp [stringsSplit]
  | cons b rest ih =>
    rw [List.mem_cons, not_or] at h
    have hb : ¬ b = sep := fun e => h.1 e.symm
    rw [List.cons_append, stringsSplit, if_neg hb, ih h.2]

theorem stringsSplit_unique (ls : List GoString) (s : GoString) (hne : ls ≠ [])
    (hno : ∀ line ∈ ls, 10 ∉ line) (hjoin : joinLines ls = s) : ls = stringsSplit 10 s := by
  subst hjoin
  induction ls with
  | nil => exact absurd rfl hne
  | cons l rest ih =>
    cases rest with
    | nil =>
      rw [joinLines, stringsSplit_of_not_mem 10 l (hno l (List.mem_cons_self _ _))]
    | cons l2 rest2 =>
      rw [joinLines, stringsSplit_append 10 l _ (hno l (List.mem_cons_self _ _)),
        ← ih (by simp) (fun x hx => hno x (List.mem_cons_of_mem _ hx))]

theorem stringsSplit_lines (s : GoString) :
    (∀ line ∈ stringsSplit 10 s, 10 ∉ line) ∧ joinLines (stringsSplit 10 s) = s := by
  induction s with
  | nil => simp [stringsSplit, joinLines]
  | cons b rest ih =>
    have hne := stringsSplit_ne_nil 10 rest
    by_cases hb : b = 10
    · subst hb
      rw [stringsSplit, if_pos rfl]
      cases hsp : stringsSplit 10 rest with
      | nil => exact absurd hsp hne
      | cons l ls =>
        rw [hsp] at ih
        refine ⟨?_, ?_⟩
        · intro line hline
          rw [List.mem_cons] at hline
          rcases hline with h | h
          · simp [h]
          · exact ih.1 line h
        · rw [joinLines, ih.2]
          rfl
    · rw [stringsSplit, if_neg hb]
      cases hsp : stringsSplit 10 rest with
      | nil => exact absurd hsp hne
      | cons l ls =>
        rw [hsp] at ih
        simp only
        refine ⟨?_, ?_⟩
        · intro line hline
          rw [List.mem_cons] at hline
          rcases hline with h | h
          · rw [h, List.mem_cons, not_or]
            exact ⟨fun e => hb e.symm, ih.1 l (List.mem_cons_self _ _)⟩
          · exact ih.1 line (List.mem_cons_of_mem _ h)
        · cases ls with
          | nil =>
            rw [joinLines] at ih ⊢
            rw [ih.2]
          | cons l2 ls2 =>
            rw [joinLines] at ih ⊢
            rw [← ih.2]
            rfl

theorem finderLines_IsLinesOf (fileContent : GoString) :
    IsLinesOf fileContent (finderLines fileContent) ∧
    ∀ ls, IsLinesOf fileContent ls → ls = finderLines fileContent := by
  have hdel : stringsReplaceAll fileContent (ascii "\r") [] =
      fileContent.filter (fun b => b ≠ 13) := replaceScan_delete 13 fileContent
  unfold finderLines
  rw [hdel]
  refine ⟨⟨stringsSplit_ne_nil _ _, (stringsSplit_lines _).1, (stringsSplit_lines _).2⟩, ?_⟩
  intro ls hls
  exact stringsSplit_unique ls _ hls.1 hls.2.1 hls.2.2

theorem prefix_rdropWhile_iff (p : Nat → Bool) (u d : GoString) (hu : u ≠ [])
    (hlast : ∀ x, u.getLast? = some x → p x = false) :
    u <+: d.rdropWhile p ↔ u <+: d := by
  constructor
  · intro h
    exact h.trans (List.rdropWhile_prefix p d)
  · intro h
    obtain ⟨c, hc⟩ := h
    obtain ⟨a, x, hax⟩ : ∃ a x, u = a ++ [x] := by
      rcases List.eq_nil_or_concat u with h | ⟨a, x, h⟩
      · exact absurd h hu
      · exact ⟨a, x, by rw [h, List.concat_eq_append]⟩
    have hx : p x = false := hlast x (by rw [hax]; simp)
    obtain ⟨c', hc'⟩ := rdropWhile_keeps p a x hx c
    rw [← hc, hax, hc']
    exact ⟨c', rfl⟩

theorem dropWhile_spaces (line : GoString) :
    ∃ k, line = List.replicate k 32 ++ line.dropWhile (fun b => decide (b ∈ ascii " ")) := by
  induction line with
  | nil => exact ⟨0, rfl⟩
  | cons b rest ih =>
    by_cases hb : b = 32
    · obtain ⟨k, hk⟩ := ih
      refine ⟨k + 1, ?_⟩
      subst hb
      have h32 : decide (32 ∈ ascii " ") = true := by decide
      rw [List.dropWhile_cons]
      simp only [h32, if_true]
      rw [List.replicate_succ, List.cons_append, ← hk]
    · refine ⟨0, ?_⟩
      have hn : decide (b ∈ ascii " ") = false := by simpa [ascii] using hb
      rw [List.dropWhile_cons]
      simp only [hn]
      rfl

theorem dropWhile_replicate_spaces (k : Nat) (d : GoString)
    (hd : ∀ x, d.head? = some x → x ≠ 32) :
    (List.replicate k 32 ++ d).dropWhile (fun b => decide (b ∈ ascii " ")) = d := by
  induction k with
  | zero =>
    cases d with
    | nil => rfl
    | cons x rest =>
      have hn : decide (x ∈ ascii " ") = false := by simpa [ascii] using hd x rfl
      simp only [List.replicate_zero, List.nil_append]
      rw [List.dropWhile_cons]
      simp only [hn]
      rfl
  | succ k ih =>
    have h32 : decide (32 ∈ ascii " ") = true := by decide
    rw [List.replicate_succ, List.cons_append, List.dropWhile_cons]
    simp only [h32, if_true]
    exact ih

theorem isComment_iff (line : GoString) : isComment line = true ↔ IsCommentLine line := by
  have hslash : ∀ d : GoString, stringsHasPrefix
      (d.rdropWhile (fun b => decide (b ∈ ascii " "))) (ascii "//") = true
      ↔ ascii "//" <+: d := by
    intro d
    unfold stringsHasPrefix
    rw [List.isPrefixOf_iff_prefix]
    exact prefix_rdropWhile_iff _ _ d (by decide) (by decide)
  have hhash : ∀ d : GoString, stringsHasPrefix
      (d.rdropWhile (fun b => decide (b ∈ ascii " "))) (ascii "#") = true
      ↔ ascii "#" <+: d := by
    intro d
    unfold stringsHasPrefix
    rw [List.isPrefixOf_iff_prefix]
    exact prefix_rdropWhile_iff _ _ d (by decide) (by decide)
  unfold isComment stringsTrim
  rw [Bool.or_eq_true, hslash, hhash]
  constructor
  · intro h
    obtain ⟨k, hk⟩ := dropWhile_spaces line
    rcases h with ⟨rest, hrest⟩ | ⟨rest, hrest⟩
    · exact ⟨k, rest, Or.inl (by rw [hk, ← hrest]; rfl)⟩
    · exact ⟨k, rest, Or.inr (by rw [hk, ← hrest]; rfl)⟩
  · intro h
    obtain ⟨k, rest, h | h⟩ := h
    · left
      rw [h, dropWhile_replicate_spaces k _ (by simp)]
      exact ⟨rest, rfl⟩
    · right
      rw [h, dropWhile_replicate_spaces k _ (by simp)]
      exact ⟨rest, rfl⟩

/-- C30: for a package name with at least one byte other than space, double
quote and single quote, and the lines of the file content (the content
without its carriage returns, cut at its newlines), `DefaultFinder.find`
returns either the zero range, when every line is a comment (it begins, after
its leading spaces, with "//" or "#") or does not contain the name, or a
range on the first line `i` that is not a comment and contains the name:
Start.Line = End.Line = i, Start.Character is the offset of the first
occurrence of the name in that line, and Start.Character < End.Character <=
the length of the line. -/
theorem DefaultFinder_find_first_matching_line (fileContent pkg : GoString)
    (hpkg : ∃ b ∈ pkg, b ≠ 32 ∧ b ≠ 34 ∧ b ≠ 39) :
    ∃ lines : List GoString,
      IsLinesOf fileContent lines ∧ (∀ ls, IsLinesOf fileContent ls → ls = lines) ∧
      ((DefaultFinder.find fileContent pkg = Range.zero ∧
        ∀ line ∈ lines, IsCommentLine line ∨ ¬ pkg <:+: line) ∨
      ∃ (i : Nat) (line : GoString), lines[i]? = some line ∧
        ¬ IsCommentLine line ∧ pkg <:+: line ∧
        (∀ j < i, ∀ l, lines[j]? = some l → IsCommentLine l ∨ ¬ pkg <:+: l) ∧
        (DefaultFinder.find fileContent pkg).Start.Line = (i : Int) ∧
        (DefaultFinder.find fileContent pkg).End.Line = (i : Int) ∧
        (∃ pre post, line = pre ++ pkg ++ post ∧
          (DefaultFinder.find fileContent pkg).Start.Character = (pre.length : Int) ∧
          ∀ pre' post', line = pre' ++ pkg ++ post' → pre.length ≤ pre'.length) ∧
        (DefaultFinder.find fileContent pkg).Start.Character
          < (DefaultFinder.find fileContent pkg).End.Character ∧
        (DefaultFinder.find fileContent pkg).End.Character ≤ (line.length : Int)) := by
  refine ⟨finderLines fileContent, (finderLines_IsLinesOf fileContent).1,
    (finderLines_IsLinesOf fileContent).2, ?_⟩
  unfold DefaultFinder.find
  rcases findFrom_spec pkg (finderLines fileContent) 0
    with ⟨h1, h2⟩ | ⟨k, line, hk, hcl, hin, hbefore, hr⟩
  · left
    refine ⟨h1, fun line hline => ?_⟩
    rcases h2 line hline with h | h
    · exact Or.inl ((isComment_iff line).mp h)
    · exact Or.inr h
  · right
    rw [Nat.zero_add] at hr
    rw [hr]
    obtain ⟨b1, b2, b3, b4, b5⟩ := foundRange_bounds pkg line k hpkg hin
    refine ⟨k, line, hk, ?_, hin, ?_, b1, b2, b3, b4, b5⟩
    · intro hc
      rw [(isComment_iff line).mpr hc] at hcl
      exact absurd hcl (by simp)
    · intro j hj l hl
      rcases hbefore j hj l hl with h | h
      · exact Or.inl ((isComment_iff l).mp h)
      · exact Or.inr h

theorem DefaultFinder_find_first_matching_line_witness :
    DefaultFinder.find lockfileExample (ascii "lodash")
      = { Start := { Line := 2, Character := 3 }, End := { Line := 2, Character := 16 } } ∧
    ∃ lines : List GoString,
      IsLinesOf lockfileExample lines ∧
      lines = [ascii "  # lodash", ascii "  // lodash", ascii "  \"lodash\": \"1.0\"",
        ascii "lodash"] :=
  ⟨by decide,
    (DefaultFinder_find_first_matching_line lockfileExample (ascii "lodash")
      ⟨108, by decide, by decide, by decide, by decide⟩).imp
      (fun lines h => ⟨h.1, (h.2.1 _ ⟨by decide, by decide, by decide⟩).symm⟩)⟩

/-! ## Properties of the CLI initializer -/

/-- C27: with automatic CLI management enabled and the CLI not installed,
`Init` returns after at most three calls of `installCli`: when the CLI is
not installed after any of them, after exactly three, with the IaC and OSS
products disabled and the error "could not find or download CLI"; when the
CLI is installed after the k-th attempt and not before, after exactly k
attempts, with a nil error and both product flags as they were. -/
theorem Init_makes_at_most_three_attempts {σ : Type} (Installed : σ → Bool)
    (installCli : σ → σ) (s : InitState σ)
    (hmanage : s.ManageCliBinariesAutomatically = true)
    (hnot : Installed s.sys = false) :
    ((∀ k : Nat, 1 ≤ k → k ≤ 3 → Installed (Nat.iterate installCli k s.sys) = false) →
      ∃ s' : InitState σ,
        Initializer.Init Installed installCli s
          = some (s', some (.errorString "could not find or download CLI")) ∧
        s'.installAttempts = s.installAttempts + 3 ∧
        s'.VulnmapIacEnabled = false ∧ s'.VulnmapOssEnabled = false) ∧
    (∀ k : Nat, 1 ≤ k → k ≤ 3 →
      Installed (Nat.iterate installCli k s.sys) = true →
      (∀ j : Nat, 1 ≤ j → j < k → Installed (Nat.iterate installCli j s.sys) = false) →
      ∃ s' : InitState σ,
        Initializer.Init Installed installCli s = some (s', none) ∧
        s'.installAttempts = s.installAttempts + k ∧
        s'.sys = Nat.iterate installCli k s.sys ∧
        s'.VulnmapIacEnabled = s.VulnmapIacEnabled ∧
        s'.VulnmapOssEnabled = s.VulnmapOssEnabled) := by
  constructor
  · intro h
    have h1 : Installed (installCli s.sys) = false := h 1 (by omega) (by omega)
    have h2 : Installed (installCli (installCli s.sys)) = false := h 2 (by omega) (by omega)
    have h3 : Installed (installCli (installCli (installCli s.sys))) = false :=
      h 3 (by omega) (by omega)
    refine ⟨{ s with
      sys := installCli (installCli (installCli s.sys))
      installAttempts := s.installAttempts + 3
      VulnmapIacEnabled := false
      VulnmapOssEnabled := false }, ?_, rfl, rfl, rfl⟩
    simp [Initializer.Init, initLoop, hmanage, hnot, h1, h2, h3, Nat.add_assoc]
  · intro k hk1 hk3 hk hbefore
    have hcases : k = 1 ∨ k = 2 ∨ k = 3 := by omega
    rcases hcases with rfl | rfl | rfl
    · have h1 : Installed (installCli s.sys) = true := hk
      refine ⟨{ s with
        sys := installCli s.sys
        installAttempts := s.installAttempts + 1 }, ?_, rfl, rfl, rfl, rfl⟩
      simp [Initializer.Init, initLoop, hmanage, hnot, h1]
    · have h1 : Installed (installCli s.sys) = false := hbefore 1 (by omega) (by omega)
      have h2 : Installed (installCli (installCli s.sys)) = true := hk
      refine ⟨{ s with
        sys := installCli (installCli s.sys)
        installAttempts := s.installAttempts + 2 }, ?_, rfl, rfl, rfl, rfl⟩
      simp [Initializer.Init, initLoop, hmanage, hnot, h1, h2, Nat.add_assoc]
    · have h1 : Installed (installCli s.sys) = false := hbefore 1 (by omega) (by omega)
      have h2 : Installed (installCli (installCli s.sys)) = false :=
        hbefore 2 (by omega) (by omega)
      have h3 : Installed (installCli (installCli (installCli s.sys))) = true := hk
      refine ⟨{ s with
        sys := installCli (installCli (installCli s.sys))
        installAttempts := s.installAttempts + 3 }, ?_, rfl, rfl, rfl, rfl⟩
      simp [Initializer.Init, initLoop, hmanage, hnot, h1, h2, h3, Nat.add_assoc]

theorem Init_makes_at_most_three_attempts_witness :
    (∃ s' : InitState Nat,
      Initializer.Init (fun n => decide (n = 0)) Nat.pred (initExample 7)
        = some (s', some (.errorString "could not find or download CLI")) ∧
      s'.installAttempts = 3 ∧ s'.VulnmapIacEnabled = false ∧ s'.VulnmapOssEnabled = false) ∧
    (∃ s' : InitState Nat,
      Initializer.Init (fun n => decide (n = 0)) Nat.pred (initExample 2) = some (s', none) ∧
      s'.installAttempts = 2) :=
  have h := Init_makes_at_most_three_attempts (fun n => decide (n = 0)) Nat.pred
    (initExample 7) rfl rfl
  have h2 := Init_makes_at_most_three_attempts (fun n => decide (n = 0)) Nat.pred
    (initExample 2) rfl rfl
  ⟨(h.1 (by decide)).imp (fun _ hs => ⟨hs.1, by simpa [initExample] using hs.2.1, hs.2.2⟩),
    (h2.2 2 (by decide) (by decide) rfl (by decide)).imp
      (fun _ hs => ⟨hs.1, by simpa [initExample] using hs.2.1⟩)⟩

/-! ## Properties of the workspace-edit conversion -/

theorem mapSet_of_not_mem {K V : Type} [DecidableEq K] (m : List (K × V)) (k : K) (v : V)
    (h : k ∉ m.map Prod.fst) : mapSet m k v = m ++ [(k, v)] := by
  induction m with
  | nil => rfl
  | cons kv rest ih =>
    obtain ⟨k0, v0⟩ := kv
    rw [List.map_cons, List.mem_cons, not_or] at h
    have hne : ¬ k0 = k := fun e => h.1 e.symm
    simp only [mapSet, hne, if_false, List.cons_append]
    rw [ih h.2]

theorem foldl_mapSet_distinct {V W : Type} (P : String → String) (g : V → W)
    (changes : List (String × V)) (acc : List (String × W))
    (hnodup : (acc.map Prod.fst ++ changes.map (fun kv => P kv.1)).Nodup) :
    changes.foldl (fun lspMap kv => mapSet lspMap (P kv.1) (g kv.2)) acc
      = acc ++ changes.map (fun kv => (P kv.1, g kv.2)) := by
  induction changes generalizing acc with
  | nil => simp
  | cons kv rest ih =>
    rw [List.foldl_cons]
    have hnot : P kv.1 ∉ acc.map Prod.fst := by
      intro hmem
      rw [List.nodup_append] at hnodup
      exact hnodup.2.2 hmem (by simp)
    rw [mapSet_of_not_mem acc (P kv.1) (g kv.2) hnot, ih]
    · simp
    · simpa [List.map_append, List.append_assoc] using hnodup

theorem ToTextEdits_toList (edits : Slice TextEdit) :
    (ToTextEdits edits).toList = edits.toList.map ToTextEdit := by
  unfold ToTextEdits
  rw [foldl_append_eq_appendAll, Slice.toList_nil_appendAll]

/-- C25, as stated, fails: with a `PathToUri` that makes relative paths
absolute, an edit holding one text edit for "main.go" and one for
"/cwd/main.go" is converted into an edit with a single text edit, the second
one; the first is overwritten. -/
theorem ToWorkspaceEdit_overwrites_same_uri :
    twoPathsOneFileEdit.editCount = 2 ∧
    ToWorkspaceEdit absolutePathToUri (some twoPathsOneFileEdit)
      = some { Changes := [("file:///cwd/main.go",
          Slice.items [{ Range := ⟨⟨9, 0⟩, ⟨9, 4⟩⟩, NewText := "second" }])] } ∧
    (ToWorkspaceEdit absolutePathToUri (some twoPathsOneFileEdit)).map
      LspWorkspaceEdit.editCount = some 1 := by
  decide

theorem mapSet_keys {K V : Type} [DecidableEq K] (m : List (K × V)) (k : K) (v : V) :
    (mapSet m k v).map Prod.fst
      = if k ∈ m.map Prod.fst then m.map Prod.fst else m.map Prod.fst ++ [k] := by
  induction m with
  | nil => simp [mapSet]
  | cons kv rest ih =>
    obtain ⟨k0, v0⟩ := kv
    by_cases hk : k0 = k
    · subst hk
      simp [mapSet]
    · have hk2 : ¬ k = k0 := fun e => hk e.symm
      simp only [mapSet, hk, if_false, List.map_cons, ih, List.mem_cons, hk2, false_or]
      split <;> simp

theorem mapSet_keys_nodup {K V : Type} [DecidableEq K] (m : List (K × V)) (k : K) (v : V)
    (h : (m.map Prod.fst).Nodup) : ((mapSet m k v).map Prod.fst).Nodup := by
  rw [mapSet_keys]
  split
  · exact h
  · rename_i hk
    rw [List.nodup_append]
    exact ⟨h, by simp, by simpa using hk⟩

theorem mapGet_eq_none_iff {K V : Type} [DecidableEq K] (m : List (K × V)) (k : K) :
    mapGet m k = none ↔ k ∉ m.map Prod.fst := by
  induction m with
  | nil => simp [mapGet]
  | cons kv rest ih =>
    obtain ⟨k0, v0⟩ := kv
    by_cases hk : k0 = k
    · simp [mapGet, hk]
    · have hk2 : ¬ k = k0 := fun e => hk e.symm
      simp [mapGet, hk, hk2, ih]

theorem foldl_mapSet_keys_nodup {V W : Type} (P : String → String) (g : V → W)
    (changes : List (String × V)) (acc : List (String × W))
    (h : (acc.map Prod.fst).Nodup) :
    ((changes.foldl (fun lspMap kv => mapSet lspMap (P kv.1) (g kv.2)) acc).map
      Prod.fst).Nodup := by
  induction changes generalizing acc with
  | nil => exact h
  | cons kv rest ih =>
    rw [List.foldl_cons]
    exact ih _ (mapSet_keys_nodup acc _ _ h)

theorem foldl_mapSet_get {V W : Type} (P : String → String) (g : V → W)
    (changes : List (String × V)) (acc : List (String × W)) (u : String) :
    mapGet (changes.foldl (fun lspMap kv => mapSet lspMap (P kv.1) (g kv.2)) acc) u
      = match (changes.filter (fun kv => P kv.1 = u)).getLast? with
        | some kv => some (g kv.2)
        | none => mapGet acc u := by
  induction changes generalizing acc with
  | nil => simp
  | cons kv rest ih =>
    rw [List.foldl_cons, ih]
    by_cases hkv : P kv.1 = u
    · rw [List.filter_cons_of_pos (by simpa using hkv)]
      cases hrest : List.filter (fun kv => decide (P kv.1 = u)) rest with
      | nil => simp [mapGet_mapSet, hkv]
      | cons x xs =>
        obtain ⟨y, hy⟩ : ∃ y, (x :: xs).getLast? = some y :=
          ⟨_, List.getLast?_eq_getLast _ (by simp)⟩
        simp only [List.getLast?_cons_cons, hy]
    · rw [List.filter_cons_of_neg (by simpa using hkv), mapGet_mapSet, if_neg hkv]

/-- C25, amended: `ToWorkspaceEdit` maps nil to nil. For every workspace edit
the result has one entry for each URI that a path of the edit maps to and no
other; the entry of a URI holds, in order, the converted text edits of the
entry converted last among those whose path maps to this URI, so the text
edits of the entries converted before it for the same URI are not in the
result. When no two paths of the edit map to the same URI, the result holds
one entry per input entry, under the URI of its path, with the converted text
edits of that entry, and as many text edits as the input. -/
theorem ToWorkspaceEdit_keeps_last_entry_per_uri (P : String → String) (e : WorkspaceEdit) :
    ToWorkspaceEdit P none = none ∧
    ∃ r : LspWorkspaceEdit, ToWorkspaceEdit P (some e) = some r ∧
      (r.Changes.map Prod.fst).Nodup ∧
      (∀ u, u ∈ r.Changes.map Prod.fst ↔ ∃ kv ∈ e.Changes, P kv.1 = u) ∧
      (∀ u, (mapGet r.Changes u).map Slice.toList
        = ((e.Changes.filter (fun kv => P kv.1 = u)).getLast?).map
            (fun kv => kv.2.toList.map ToTextEdit)) ∧
      ((e.Changes.map (fun kv => P kv.1)).Nodup →
        r.Changes.map (fun kv => (kv.1, kv.2.toList))
          = e.Changes.map (fun kv => (P kv.1, kv.2.toList.map ToTextEdit)) ∧
        r.editCount = e.editCount) := by
  have hget : ∀ u, mapGet (e.Changes.foldl
      (fun lspMap kv => mapSet lspMap (P kv.1) (ToTextEdits kv.2)) []) u
      = ((e.Changes.filter (fun kv => P kv.1 = u)).getLast?).map
          (fun kv => ToTextEdits kv.2) := by
    intro u
    rw [foldl_mapSet_get]
    cases (e.Changes.filter (fun kv => P kv.1 = u)).getLast? <;> rfl
  refine ⟨rfl, ⟨e.Changes.foldl
      (fun (lspMap : List (String × Slice LspTextEdit)) (kv : String × Slice TextEdit) =>
        mapSet lspMap (P kv.1) (ToTextEdits kv.2)) []⟩, rfl, ?_, ?_, ?_, ?_⟩
  · exact foldl_mapSet_keys_nodup P ToTextEdits e.Changes [] (by simp)
  · intro u
    rw [← not_iff_not, ← mapGet_eq_none_iff, hget, Option.map_eq_none',
      List.getLast?_eq_none_iff, List.filter_eq_nil_iff]
    simp
  · intro u
    simp only
    rw [hget, Option.map_map]
    cases (e.Changes.filter (fun kv => P kv.1 = u)).getLast? with
    | none => rfl
    | some kv => simp [ToTextEdits_toList]
  · intro hdistinct
    simp only
    rw [foldl_mapSet_distinct P ToTextEdits e.Changes [] (by simpa using hdistinct)]
    constructor
    · simp [List.map_map, Function.comp_def, ToTextEdits_toList]
    · simp [LspWorkspaceEdit.editCount, WorkspaceEdit.editCount, List.map_map,
        Function.comp_def, Slice.len, ToTextEdits_toList]

theorem ToWorkspaceEdit_keeps_last_entry_per_uri_witness :
    ∃ r : LspWorkspaceEdit,
      ToWorkspaceEdit absolutePathToUri (some twoPathsOneFileEdit) = some r ∧
      (r.Changes.map Prod.fst).Nodup ∧
      (mapGet r.Changes "file:///cwd/main.go").map Slice.toList
        = some [{ Range := ⟨⟨9, 0⟩, ⟨9, 4⟩⟩, NewText := "second" }] :=
  (ToWorkspaceEdit_keeps_last_entry_per_uri absolutePathToUri twoPathsOneFileEdit).2.imp
    (fun _ h => ⟨h.1, h.2.1, (h.2.2.2.1 "file:///cwd/main.go").trans (by decide)⟩)

/-! ## Properties of the code actions added to code issues -/

theorem issueTitle_code (issue : Issue) (d : CodeIssueData)
    (h : issue.AdditionalData = some (.code d)) : ∃ t, issueTitle issue = some t := by
  unfold issueTitle
  rw [h]
  by_cases ht : d.Title ≠ ""
  · exact ⟨d.Title, by simp [ht]⟩
  · exact ⟨issue.ID, by simp [ht]⟩

theorem addAutofixAction_spec
    (nd : String → Option (Unit → Option WorkspaceEdit) →
      Option (Unit → Option CommandData) → Except GoError CodeAction)
    (af : Issue → Unit → Option WorkspaceEdit) (issue : Issue) (d : CodeIssueData)
    (hd : issue.AdditionalData = some (.code d))
    (hnew : ∀ title edit, ∃ action u, nd title (some edit) none = .ok action ∧
      action.Uuid = some u ∧ action.DeferredEdit = some edit) :
    ∃ o action u lens, addAutofixAction nd af issue = some o ∧
      action.Uuid = some u ∧ action.DeferredEdit = some (af issue) ∧
      o.CodeActions = issue.CodeActions.append action ∧
      o.CodelensCommands = issue.CodelensCommands.append lens ∧
      lens.CommandId = CodeFixCommand ∧
      lens.Arguments
        = Slice.items [.uuid u, .str issue.AffectedFilePath, .range issue.Range] ∧
      o.AdditionalData = issue.AdditionalData := by
  obtain ⟨t, ht⟩ := issueTitle_code issue d hd
  obtain ⟨action, u, hok, hu, hedit⟩ :=
    hnew ("⚡ Fix this issue: " ++ t ++ " (Vulnmap)") (af issue)
  have ht1 : issueTitle { issue with CodeActions := issue.CodeActions.append action }
      = some t := by
    rw [← ht]
    rfl
  refine ⟨{ issue with
      CodeActions := issue.CodeActions.append action
      CodelensCommands := issue.CodelensCommands.append
        { Title := "⚡ Fix this issue: " ++ t, CommandId := CodeFixCommand,
          Arguments := Slice.items
            [.uuid u, .str issue.AffectedFilePath, .range issue.Range] } },
    action, u,
    { Title := "⚡ Fix this issue: " ++ t, CommandId := CodeFixCommand,
      Arguments := Slice.items [.uuid u, .str issue.AffectedFilePath, .range issue.Range] },
    ?_, hu, hedit, rfl, rfl, rfl, rfl, rfl⟩
  simp only [addAutofixAction, createDeferredAutofixCodeAction, ht, hok, hu, ht1]

theorem addLearnAction_spec (G : Issue → Except GoError (Option Lesson)) (issue : Issue)
    (d : CodeIssueData) (hd : issue.AdditionalData = some (.code d)) :
    ∃ o learnActions, addLearnAction G issue = some o ∧
      o.CodeActions.toList = issue.CodeActions.toList ++ learnActions ∧
      (∀ a ∈ learnActions, a.DeferredEdit = none ∧ a.DeferredCommand = none) ∧
      o.CodelensCommands = issue.CodelensCommands := by
  obtain ⟨t, ht⟩ := issueTitle_code issue d hd
  unfold addLearnAction createOpenVulnmapLearnCodeAction
  rw [ht]
  simp only
  cases hg : G issue with
  | error err => exact ⟨issue, [], rfl, by simp, by simp, rfl⟩
  | ok lesson =>
    cases lesson with
    | none => exact ⟨issue, [], rfl, by simp, by simp, rfl⟩
    | some lesson =>
      by_cases hurl : lesson.Url ≠ ""
      · simp only [hurl, ne_eq, not_false_eq_true, if_true]
        exact ⟨_,
          [{ Title := "Learn more about " ++ t ++ " (Vulnmap)", IsPreferred := none,
             Edit := none, DeferredEdit := none,
             Command := some { Title := "Learn more about " ++ t ++ " (Vulnmap)",
                               CommandId := OpenBrowserCommand,
                               Arguments := Slice.items [.str lesson.Url] },
             DeferredCommand := none, Uuid := none }], rfl,
          by simp [Slice.toList_append], by simp, rfl⟩
      · simp only [hurl, if_false]
        exact ⟨issue, [], rfl, by simp, by simp, rfl⟩

theorem addIssueActionsAt_code (autoFixEnabled learnEnabled : Bool)
    (nd : String → Option (Unit → Option WorkspaceEdit) →
      Option (Unit → Option CommandData) → Except GoError CodeAction)
    (af : Issue → Unit → Option WorkspaceEdit)
    (G : Issue → Except GoError (Option Lesson)) (issue : Issue) (d : CodeIssueData)
    (hd : issue.AdditionalData = some (.code d)) :
    addIssueActionsAt autoFixEnabled learnEnabled nd af G issue
      = match (if autoFixEnabled && d.IsAutofixable then addAutofixAction nd af issue
          else some issue) with
        | none => none
        | some issue1 => if learnEnabled then addLearnAction G issue1 else some issue1 := by
  unfold addIssueActionsAt
  rw [hd]

theorem addIssueActionsAt_spec (autoFixEnabled learnEnabled : Bool)
    (nd : String → Option (Unit → Option WorkspaceEdit) →
      Option (Unit → Option CommandData) → Except GoError CodeAction)
    (af : Issue → Unit → Option WorkspaceEdit)
    (G : Issue → Except GoError (Option Lesson)) (issue : Issue)
    (hnew : ∀ title edit, ∃ action u, nd title (some edit) none = .ok action ∧
      action.Uuid = some u ∧ action.DeferredEdit = some edit) :
    ∃ o, addIssueActionsAt autoFixEnabled learnEnabled nd af G issue = some o ∧
      (∀ d, autoFixEnabled = true → issue.AdditionalData = some (.code d) →
        d.IsAutofixable = true →
        ∃ action u learnActions lens,
          o.CodeActions.toList = issue.CodeActions.toList ++ action :: learnActions ∧
          action.DeferredEdit = some (af issue) ∧ action.Uuid = some u ∧
          (∀ a ∈ learnActions, a.DeferredEdit = none ∧ a.DeferredCommand = none) ∧
          o.CodelensCommands.toList = issue.CodelensCommands.toList ++ [lens] ∧
          lens.CommandId = "vulnmap.code.fix" ∧
          lens.Arguments
            = Slice.items [.uuid u, .str issue.AffectedFilePath, .range issue.Range]) ∧
      ((∀ d, issue.AdditionalData ≠ some (.code d)) → o = issue) := by
  cases hdata : issue.AdditionalData with
  | none =>
    refine ⟨issue, ?_, ?_, fun _ => rfl⟩
    · unfold addIssueActionsAt
      rw [hdata]
    · intro d _ hd
      cases hd
  | some data =>
    cases data with
    | otherData tag =>
      refine ⟨issue, ?_, ?_, fun _ => rfl⟩
      · unfold addIssueActionsAt
        rw [hdata]
      · intro d _ hd
        cases hd
    | code d =>
      rw [addIssueActionsAt_code autoFixEnabled learnEnabled nd af G issue d hdata]
      by_cases hfix : (autoFixEnabled && d.IsAutofixable) = true
      · obtain ⟨o1, action, u, lens, hstep, hu, hedit, hactions1, hlens1, hid, hargs, hdata1⟩ :=
          addAutofixAction_spec nd af issue d hdata hnew
        rw [if_pos hfix, hstep]
        by_cases hlearn : learnEnabled = true
        · obtain ⟨o, learnActions, ho, hactions, hnone, hlens⟩ :=
            addLearnAction_spec G o1 d (hdata1.trans hdata)
          refine ⟨o, ?_, ?_, ?_⟩
          · simp only [hlearn, if_true]
            exact ho
          · intro d1 _ _ _
            refine ⟨action, u, learnActions, lens, ?_, hedit, hu, hnone, ?_, hid, hargs⟩
            · rw [hactions, hactions1, Slice.toList_append]
              simp
            · rw [hlens, hlens1, Slice.toList_append]
          · intro hno
            exact absurd rfl (hno d)
        · refine ⟨o1, ?_, ?_, ?_⟩
          · simp only [hlearn]
            rfl
          · intro d1 _ _ _
            refine ⟨action, u, [], lens, ?_, hedit, hu, by simp, ?_, hid, hargs⟩
            · rw [hactions1, Slice.toList_append]
            · rw [hlens1, Slice.toList_append]
          · intro hno
            exact absurd rfl (hno d)
      · have hneg : ∀ d1, autoFixEnabled = true → some (IssueAdditionalData.code d) =
            some (.code d1) → d1.IsAutofixable = true → False := by
          intro d1 ha hd h1
          cases hd
          exact hfix (by simp [ha, h1])
        rw [if_neg hfix]
        by_cases hlearn : learnEnabled = true
        · obtain ⟨o, learnActions, ho, _, _, _⟩ := addLearnAction_spec G issue d hdata
          refine ⟨o, ?_, ?_, ?_⟩
          · simp only [hlearn, if_true]
            exact ho
          · intro d1 ha hd h1
            exact (hneg d1 ha hd h1).elim
          · intro hno
            exact absurd rfl (hno d)
        · refine ⟨issue, ?_, ?_, ?_⟩
          · simp only [hlearn]
            rfl
          · intro d1 ha hd h1
            exact (hneg d1 ha hd h1).elim
          · intro _
            rfl

theorem addIssueActionsFrom_spec (autoFixEnabled learnEnabled : Bool)
    (nd : Nat → String → Option (Unit → Option WorkspaceEdit) →
      Option (Unit → Option CommandData) → Except GoError CodeAction)
    (af : Issue → Unit → Option WorkspaceEdit)
    (G : Issue → Except GoError (Option Lesson))
    (hnew : ∀ i title edit, ∃ action u, nd i title (some edit) none = .ok action ∧
      action.Uuid = some u ∧ action.DeferredEdit = some edit)
    (xs : List Issue) (i : Nat) :
    ∃ ys, addIssueActionsFrom autoFixEnabled learnEnabled nd af G i xs = some ys ∧
      ys.length = xs.length ∧
      ∀ j issue, xs[j]? = some issue → ∃ o, ys[j]? = some o ∧
        addIssueActionsAt autoFixEnabled learnEnabled (nd (i + j)) af G issue = some o := by
  induction xs generalizing i with
  | nil => exact ⟨[], rfl, rfl, by simp⟩
  | cons issue rest ih =>
    obtain ⟨o, ho, _⟩ :=
      addIssueActionsAt_spec autoFixEnabled learnEnabled (nd i) af G issue (hnew i)
    obtain ⟨ys, hys, hlen, hat⟩ := ih (i + 1)
    refine ⟨o :: ys, by simp [addIssueActionsFrom, ho, hys], by simp [hlen], ?_⟩
    intro j issue1 hj
    cases j with
    | zero =>
      simp only [List.getElem?_cons_zero, Option.some.injEq] at hj
      subst hj
      exact ⟨o, by simp, by simpa using ho⟩
    | succ j =>
      simp only [List.getElem?_cons_succ] at hj
      obtain ⟨o1, ho1, hstep⟩ := hat j issue1 hj
      refine ⟨o1, by simpa using ho1, ?_⟩
      have hidx : i + (j + 1) = i + 1 + j := by omega
      rw [hidx]
      exact hstep

/-- C28: provided the constructor of deferred actions returns, for a
deferred edit, an action carrying that edit and an identifier,
`Bundle.addIssueActions` returns normally with as many issues as it was
given, and for the issue at every index: with autofix enabled, if its
additional data is `CodeIssueData` with `IsAutofixable` set, its code actions
are the old ones followed by one deferred action (and then at most the learn
action, which is not deferred), and its code-lens commands are the old ones
followed by one command with identifier "vulnmap.code.fix" whose arguments
are, in order, the Uuid of that action, the issue's affected file path and
its range; if its additional data is not `CodeIssueData`, the issue is
unchanged. With autofix and learn actions both disabled the slice is
unchanged. -/
theorem addIssueActions_adds_one_fix_action_and_lens (autoFixEnabled learnEnabled : Bool)
    (newDeferredCodeAction : Nat → String → Option (Unit → Option WorkspaceEdit) →
      Option (Unit → Option CommandData) → Except GoError CodeAction)
    (autofixFunc : Issue → Unit → Option WorkspaceEdit)
    (GetLesson : Issue → Except GoError (Option Lesson)) (issues : Slice Issue)
    (hnew : ∀ i title edit, ∃ action u,
      newDeferredCodeAction i title (some edit) none = .ok action ∧
      action.Uuid = some u ∧ action.DeferredEdit = some edit) :
    ∃ out : Slice Issue, addIssueActions autoFixEnabled learnEnabled newDeferredCodeAction
        autofixFunc GetLesson issues = some out ∧
      out.len = issues.len ∧
      (∀ (i : Nat) (issue : Issue), issues.toList[i]? = some issue →
        ∃ o : Issue, out.toList[i]? = some o ∧
        (∀ d, autoFixEnabled = true → issue.AdditionalData = some (.code d) →
          d.IsAutofixable = true →
          ∃ action u learnActions lens,
            o.CodeActions.toList = issue.CodeActions.toList ++ action :: learnActions ∧
            action.DeferredEdit = some (autofixFunc issue) ∧ action.Uuid = some u ∧
            (∀ a ∈ learnActions, a.DeferredEdit = none ∧ a.DeferredCommand = none) ∧
            o.CodelensCommands.toList = issue.CodelensCommands.toList ++ [lens] ∧
            lens.CommandId = "vulnmap.code.fix" ∧
            lens.Arguments
              = Slice.items [.uuid u, .str issue.AffectedFilePath, .range issue.Range]) ∧
        ((∀ d, issue.AdditionalData ≠ some (.code d)) → o = issue)) ∧
      (autoFixEnabled = false → learnEnabled = false → out = issues) := by
  by_cases hoff : (!autoFixEnabled && !learnEnabled) = true
  · refine ⟨issues, by simp [addIssueActions, hoff], rfl, ?_, fun _ _ => rfl⟩
    intro i issue hi
    refine ⟨issue, hi, ?_, fun _ => rfl⟩
    intro d ha _ _
    rw [ha] at hoff
    simp at hoff
  · have hon : ¬ (autoFixEnabled = false ∧ learnEnabled = false) := by
      intro h
      exact hoff (by simp [h.1, h.2])
    cases issues with
    | nil =>
      refine ⟨Slice.nil, by simp [addIssueActions, hoff], rfl, ?_,
        fun h1 h2 => (hon ⟨h1, h2⟩).elim⟩
      intro i issue hi
      simp [Slice.toList] at hi
    | items xs =>
      obtain ⟨ys, hys, hlen, hat⟩ := addIssueActionsFrom_spec autoFixEnabled learnEnabled
        newDeferredCodeAction autofixFunc GetLesson hnew xs 0
      refine ⟨Slice.items ys, by simp [addIssueActions, hoff, hys], by simpa [Slice.len,
        Slice.toList] using hlen, ?_, fun h1 h2 => (hon ⟨h1, h2⟩).elim⟩
      intro i issue hi
      obtain ⟨o, ho, hstep⟩ := hat i issue hi
      obtain ⟨o1, ho1, hfix, hsame⟩ := addIssueActionsAt_spec autoFixEnabled learnEnabled
        (newDeferredCodeAction (0 + i)) autofixFunc GetLesson issue (hnew (0 + i))
      rw [hstep] at ho1
      cases ho1
      exact ⟨o, ho, hfix, hsame⟩

theorem addIssueActions_adds_one_fix_action_and_lens_witness :
    ∃ out, addIssueActions true false (fun i => NewDeferredCodeAction ⟨i⟩)
        (fun _ _ => some mockEdit) (fun _ => .ok none)
        (Slice.items [ossIssue, autofixableIssue]) = some out ∧
      out.len = 2 ∧
      (out.toList.map (fun o => o.CodelensCommands)) = [Slice.nil, Slice.items
        [{ Title := "⚡ Fix this issue: SQL Injection", CommandId := "vulnmap.code.fix",
           Arguments := Slice.items [.uuid ⟨1⟩, .str "main.go", .range ⟨⟨3, 0⟩, ⟨3, 8⟩⟩] }]] := by
  obtain ⟨out, hout, hlen, _, _⟩ := addIssueActions_adds_one_fix_action_and_lens true false
    (fun i => NewDeferredCodeAction ⟨i⟩) (fun _ _ => some mockEdit) (fun _ => .ok none)
    (Slice.items [ossIssue, autofixableIssue])
    (fun i title edit => ⟨_, ⟨i⟩, rfl, rfl, rfl⟩)
  refine ⟨out, hout, hlen, ?_⟩
  have hval : addIssueActions true false (fun i => NewDeferredCodeAction ⟨i⟩)
      (fun _ _ => some mockEdit) (fun _ => .ok none)
      (Slice.items [ossIssue, autofixableIssue]) = some (Slice.items
        [ossIssue, { autofixableIssue with
          CodeActions := Slice.items
            [{ Title := "⚡ Fix this issue: SQL Injection (Vulnmap)",
               IsPreferred := none, Edit := none, DeferredEdit := some (fun _ => some mockEdit),
               Command := none, DeferredCommand := none, Uuid := some ⟨1⟩ }]
          CodelensCommands := Slice.items
            [{ Title := "⚡ Fix this issue: SQL Injection", CommandId := "vulnmap.code.fix",
               Arguments := Slice.items
                 [.uuid ⟨1⟩, .str "main.go", .range ⟨⟨3, 0⟩, ⟨3, 8⟩⟩] }] }]) := rfl
  rw [hval] at hout
  cases hout
  rfl

/-! ## Properties of the polling loops -/

theorem retrieveAnalysisLoop_reaches_cancellation (completeStatus : String)
    (ctxErr : Nat → Bool) (RunAnalysis : Nat → AnalysisResponse) (timedOut : Nat → Bool)
    (addActions : Slice Issue → Option (Slice Issue)) (n : Nat)
    (hcancel : ctxErr n = true) (fuel cycle : Nat) (hle : cycle ≤ n) (hfuel : n - cycle < fuel)
    (hpolling : ∀ k, cycle ≤ k → k < n → ctxErr k = false ∧ (RunAnalysis k).err = none ∧
      (RunAnalysis k).status.message ≠ completeStatus ∧ timedOut k = false) :
    retrieveAnalysisLoop completeStatus ctxErr RunAnalysis timedOut addActions fuel cycle
      = some { issues := Slice.items [], err := none, runAnalysisCalls := n } := by
  induction fuel generalizing cycle with
  | zero => omega
  | succ fuel ih =>
    by_cases heq : cycle = n
    · subst heq
      simp [retrieveAnalysisLoop, hcancel]
    · have hlt : cycle < n := by omega
      obtain ⟨h1, h2, h3, h4⟩ := hpolling cycle (Nat.le_refl _) hlt
      have hrest := ih (cycle + 1) (by omega) (by omega)
        (fun k hk hkn => hpolling k (by omega) hkn)
      simp [retrieveAnalysisLoop, h1, h2, h3, h4, hrest]

/-- C24: if the bundle has a hash, the poll cycles before cycle `n` find the
context live and the analysis neither failed, nor complete, nor timed out,
and the context is cancelled at the start of cycle `n`, then (with fuel for
more than `n` cycles) `Bundle.retrieveAnalysis` returns, its issue list is
empty, its error is nil, and it has made the `n` calls of the earlier cycles
and no further `RunAnalysis` call. -/
theorem retrieveAnalysis_stops_on_cancellation (BundleHash completeStatus : String)
    (ctxErr : Nat → Bool) (RunAnalysis : Nat → AnalysisResponse) (timedOut : Nat → Bool)
    (addIssueActions : Slice Issue → Option (Slice Issue)) (n fuel : Nat)
    (hhash : BundleHash ≠ "")
    (hpolling : ∀ k, k < n → ctxErr k = false ∧ (RunAnalysis k).err = none ∧
      (RunAnalysis k).status.message ≠ completeStatus ∧ timedOut k = false)
    (hcancel : ctxErr n = true) (hfuel : n < fuel) :
    ∃ result, retrieveAnalysis BundleHash completeStatus ctxErr RunAnalysis timedOut
        addIssueActions fuel = some result ∧
      result.issues.len = 0 ∧ result.issues.toList = [] ∧ result.err = none ∧
      result.runAnalysisCalls = n := by
  refine ⟨{ issues := Slice.items [], err := none, runAnalysisCalls := n }, ?_, rfl, rfl, rfl,
    rfl⟩
  unfold retrieveAnalysis
  rw [if_neg hhash]
  exact retrieveAnalysisLoop_reaches_cancellation completeStatus ctxErr RunAnalysis timedOut
    addIssueActions n hcancel fuel 0 (Nat.zero_le _) (by omega)
    (fun k _ hkn => hpolling k hkn)

theorem retrieveAnalysis_stops_on_cancellation_witness :
    ∃ result, retrieveAnalysis "bundle-hash" "COMPLETE" (fun k => decide (2 ≤ k))
        (fun _ => analyzingResponse) (fun _ => false)
        (addIssueActions true false (fun i => NewDeferredCodeAction ⟨i⟩)
          (fun _ _ => some mockEdit) (fun _ => .ok none)) 3 = some result ∧
      result.issues.len = 0 ∧ result.issues.toList = [] ∧ result.err = none ∧
      result.runAnalysisCalls = 2 :=
  retrieveAnalysis_stops_on_cancellation "bundle-hash" "COMPLETE" (fun k => decide (2 ≤ k))
    (fun _ => analyzingResponse) (fun _ => false)
    (addIssueActions true false (fun i => NewDeferredCodeAction ⟨i⟩)
      (fun _ _ => some mockEdit) (fun _ => .ok none)) 2 3 (by decide)
    (fun k hk => ⟨by simp; omega, rfl,
      (by decide : analyzingResponse.status.message ≠ "COMPLETE"), rfl⟩)
    (by decide) (by decide)

theorem autofixPollLoop_ignores_cancellation (completeStatus : String)
    (cancelled cancelled2 : Nat → Bool) (RunAutofix : Nat → Bool → AutofixResponse)
    (hfake : ∀ calls c1 c2, RunAutofix calls c1 = RunAutofix calls c2)
    (events : List PollEvent) (calls n : Nat) :
    autofixPollLoop completeStatus cancelled RunAutofix calls n events
      = autofixPollLoop completeStatus cancelled2 RunAutofix calls n events := by
  induction events generalizing calls n with
  | nil => rfl
  | cons event events ih =>
    cases event with
    | timeout => rfl
    | tick =>
      unfold autofixPollLoop
      rw [hfake calls (cancelled n) (cancelled2 n), ih]

/-- C23 does not hold of the code: the polling loop of the producer
`Bundle.autofixFunc` returns never looks at its context. With the context
cancelled from the start and a backend that has no fix yet, the producer
calls `RunAutofix` at each of the two ticks and returns only when the
timeout timer fires. -/
theorem autofixFunc_polls_after_cancellation :
    autofixFunc (.ok "main.go") "COMPLETE" (fun _ => true) pendingAutofix
        [.tick, .tick, .timeout]
      = some { edit := none, runAutofixCalls := 2 } := by
  decide

/-! ## Properties of the hovers -/

theorem ReplaceAllString_skip (re : List RegexItem) (repl : List Char) (skip : Nat)
    (l : List Char) :
    ReplaceAllString re repl skip l = ReplaceAllString re repl 0 (l.drop skip) := by
  induction skip generalizing l with
  | zero => rfl
  | succ n ih =>
    cases l with
    | nil => rfl
    | cons b rest =>
      rw [ReplaceAllString, ih]
      rfl

/-- At a position of the scan, either the expression matches and the output
goes on with the replacement and the scan of a shorter text, or the character
is copied. -/
theorem ReplaceAllString_cons (re : List RegexItem) (repl : List Char) (c : Char)
    (rest : List Char) :
    (∃ n, matchItems re (c :: rest) = some (n + 1) ∧
      ReplaceAllString re repl 0 (c :: rest)
        = repl ++ ReplaceAllString re repl 0 (rest.drop n)) ∨
    ((∀ n, matchItems re (c :: rest) ≠ some (n + 1)) ∧
      ReplaceAllString re repl 0 (c :: rest) = c :: ReplaceAllString re repl 0 rest) := by
  cases hm : matchItems re (c :: rest) with
  | none =>
    right
    refine ⟨fun n => by simp, ?_⟩
    rw [ReplaceAllString, hm]
  | some k =>
    cases k with
    | zero =>
      right
      refine ⟨fun n => by simp, ?_⟩
      rw [ReplaceAllString, hm]
    | succ n =>
      left
      refine ⟨n, rfl, ?_⟩
      rw [ReplaceAllString, hm]
      simp only
      rw [ReplaceAllString_skip]

/-- A text without two newlines in a row that does not end in a newline and
starts the sanitized text also starts the original text. -/
theorem prefix_of_ReplaceAllString (re : List RegexItem) (t : List Char)
    (hchain : List.Chain' (fun a b => ¬ (a = '\n' ∧ b = '\n')) t)
    (hlast : t.getLast? ≠ some '\n') (x : List Char)
    (h : t <+: ReplaceAllString re hoverLineBreak 0 x) : t <+: x := by
  induction t generalizing x with
  | nil => exact List.nil_prefix
  | cons a t ih =>
    cases x with
    | nil =>
      rw [ReplaceAllString] at h
      simp at h
    | cons c rest =>
      rcases ReplaceAllString_cons re hoverLineBreak c rest with ⟨n, _, hout⟩ | ⟨_, hout⟩
      · rw [hout, hoverLineBreak, List.cons_append, List.cons_prefix_cons] at h
        obtain ⟨ha, ht⟩ := h
        cases t with
        | nil =>
          rw [ha] at hlast
          exact absurd rfl hlast
        | cons b t =>
          rw [List.cons_append, List.cons_prefix_cons] at ht
          rw [List.chain'_cons] at hchain
          exact absurd ⟨ha, ht.1⟩ hchain.1
      · rw [hout, List.cons_prefix_cons] at h
        rw [List.cons_prefix_cons]
        refine ⟨h.1, ih (List.Chain'.tail hchain) ?_ rest h.2⟩
        cases t with
        | nil => simp
        | cons b t => simpa [List.getLast?_cons_cons] using hlast

theorem IsBrTag_shape (tag : List Char) (h : IsBrTag tag) :
    (∃ t, tag = '<' :: t) ∧
    List.Chain' (fun a b => ¬ (a = '\n' ∧ b = '\n')) tag ∧
    tag.getLast? ≠ some '\n' := by
  obtain ⟨space, slash, hspace, hslash, rfl⟩ := h
  rcases hspace with rfl | ⟨c, _, rfl⟩ <;> rcases hslash with rfl | rfl <;>
    refine ⟨⟨_, rfl⟩, ?_, ?_⟩ <;> simp [List.chain'_cons]

theorem matchItems_of_IsBrTag (tag : List Char) (h : IsBrTag tag) (u : List Char) :
    ∃ n, matchItems brRegex (tag ++ u) = some (n + 1) := by
  obtain ⟨space, slash, hspace, hslash, rfl⟩ := h
  have hgt : isRegexSpace '>' = false := by decide
  have hsl : isRegexSpace '/' = false := by decide
  rcases hspace with rfl | ⟨c, hc, rfl⟩ <;> rcases hslash with rfl | rfl
  · exact ⟨3, by simp [matchItems, brRegex, hgt]⟩
  · exact ⟨4, by simp [matchItems, brRegex, hsl]⟩
  · exact ⟨4, by simp [matchItems, brRegex, hc]⟩
  · exact ⟨5, by simp [matchItems, brRegex, hc]⟩

theorem no_br_tag_in_ReplaceAllString (tag : List Char) (htag : IsBrTag tag) (n : Nat)
    (x : List Char) (hlen : x.length ≤ n) :
    ¬ tag <:+: ReplaceAllString brRegex hoverLineBreak 0 x := by
  obtain ⟨⟨t, ht⟩, hchain, hlast⟩ := IsBrTag_shape tag htag
  induction n generalizing x with
  | zero =>
    have hx : x = [] := List.length_eq_zero.mp (Nat.le_zero.mp hlen)
    subst hx
    rw [ReplaceAllString, List.infix_nil, ht]
    simp
  | succ n ih =>
    cases x with
    | nil =>
      rw [ReplaceAllString, List.infix_nil, ht]
      simp
    | cons c rest =>
      have hrest : rest.length ≤ n := by simpa using hlen
      intro hin
      rcases ReplaceAllString_cons brRegex hoverLineBreak c rest with ⟨k, _, hout⟩ | ⟨hno, hout⟩
      · rw [hout, hoverLineBreak, List.cons_append, List.cons_append, List.nil_append,
          List.infix_cons_iff, List.infix_cons_iff] at hin
        rcases hin with hpre | hpre | hinfix
        · rw [ht, List.cons_prefix_cons] at hpre
          exact absurd hpre.1 (by decide)
        · rw [ht, List.cons_prefix_cons] at hpre
          exact absurd hpre.1 (by decide)
        · exact ih (rest.drop k) (by rw [List.length_drop]; omega) hinfix
      · have hin2 := hin
        rw [hout, List.infix_cons_iff] at hin2
        rcases hin2 with hpre | hinfix
        · rw [← hout] at hpre
          obtain ⟨u, hu⟩ := prefix_of_ReplaceAllString brRegex tag hchain hlast (c :: rest) hpre
          obtain ⟨m, hm⟩ := matchItems_of_IsBrTag tag htag u
          rw [hu] at hm
          exact hno m hm
        · exact ih rest hrest hinfix

theorem string_join_cons (a : String) (l : List String) :
    String.join (a :: l) = a ++ String.join l := by
  have hfold : ∀ (l : List String) (s : String),
      l.foldl (fun r s => r ++ s) s = s ++ l.foldl (fun r s => r ++ s) "" := by
    intro l
    induction l with
    | nil => intro s; simp
    | cons b l ih =>
      intro s
      rw [List.foldl_cons, ih, List.foldl_cons, ih ("" ++ b)]
      simp [String.append_assoc]
  unfold String.join
  rw [List.foldl_cons, hfold]
  simp

theorem foldl_reference_lines (refs : List Reference) (start : String) :
    refs.foldl (fun message reference =>
        message ++ ("[" ++ reference.Title ++ "](" ++ reference.Url ++ ")\n\n")) start
      = start ++ String.join (refs.map (fun reference =>
          "[" ++ reference.Title ++ "](" ++ reference.Url ++ ")\n\n")) := by
  induction refs generalizing start with
  | nil => simp [String.join]
  | cons r rest ih =>
    rw [List.foldl_cons, ih, List.map_cons, string_join_cons]
    simp [String.append_assoc]

theorem hoverText_eq (i : Issue) :
    hoverText i
      = (if i.FormattedMessage ≠ "" then i.FormattedMessage else i.Message) ++
        (if i.References.toList = [] then ""
         else "\n\nReferences:\n\n" ++ String.join (i.References.toList.map
           (fun reference => "[" ++ reference.Title ++ "](" ++ reference.Url ++ ")\n\n"))) := by
  have hmsg : (if i.FormattedMessage.length > 0 then i.FormattedMessage else i.Message)
      = (if i.FormattedMessage ≠ "" then i.FormattedMessage else i.Message) := by
    by_cases h : i.FormattedMessage ≠ ""
    · rw [if_pos h, if_pos ((string_length_pos_iff _).mpr h)]
    · rw [if_neg h, if_neg (fun hl => h ((string_length_pos_iff _).mp hl))]
  unfold hoverText
  simp only [hmsg]
  by_cases hrefs : i.References.toList = []
  · have hlen : ¬ i.References.len > 0 := by simp [Slice.len, hrefs]
    rw [if_neg hlen, if_pos hrefs]
    simp
  · have hlen : i.References.len > 0 := by
      simpa [Slice.len, List.length_pos] using hrefs
    rw [if_pos hlen, if_neg hrefs, foldl_reference_lines, String.append_assoc]

/-- The hovers of TestToHovers: the three tags become six newlines. -/
theorem ToHovers_of_test_issue :
    (ToHovers (Slice.items [brTestIssue])).toList.map (fun h => h.Message)
      = ["\n\n\n\n\n\n"] := by
  decide

theorem matchItems_slash_close (u : List Char) (m : Nat)
    (h : matchItems [.opt (fun c => c = '/'), .lit '>'] u = some m) :
    (∃ v, u = '>' :: v ∧ m = 1) ∨ (∃ v, u = '/' :: '>' :: v ∧ m = 2) := by
  cases u with
  | nil => simp [matchItems] at h
  | cons x v =>
    by_cases hx : x = '/'
    · subst hx
      cases v with
      | nil => simp [matchItems] at h
      | cons y w =>
        by_cases hy : y = '>'
        · subst hy
          simp [matchItems] at h
          exact Or.inr ⟨w, rfl, h.symm⟩
        · simp [matchItems, hy] at h
    · by_cases hgt : x = '>'
      · subst hgt
        simp [matchItems] at h
        exact Or.inl ⟨v, rfl, h.symm⟩
      · simp [matchItems, hx, hgt] at h

theorem matchItems_brRegex_sound (s : List Char) (n : Nat)
    (h : matchItems brRegex s = some n) :
    ∃ tag rest, IsBrTag tag ∧ s = tag ++ rest ∧ tag.length = n := by
  have hnot : ∀ x : Char, isRegexSpace x = true → x ≠ '/' ∧ x ≠ '>' := by
    intro x hx
    constructor <;> (intro e; subst e; revert hx; decide)
  match s, h with
  | [], h => simp [matchItems, brRegex] at h
  | [_], h => simp [matchItems, brRegex] at h
  | [_, _], h => simp [matchItems, brRegex] at h
  | x0 :: x1 :: x2 :: t, h =>
    by_cases h0 : x0 = '<'
    · by_cases h1 : x1 = 'b'
      · by_cases h2 : x2 = 'r'
        · subst h0 h1 h2
          simp only [matchItems, brRegex, if_true, Option.map_map, Option.map_eq_some'] at h
          obtain ⟨k, hk, hn⟩ := h
          simp only [Function.comp] at hn
          cases t with
          | nil => simp [matchItems] at hk
          | cons x t' =>
            by_cases hsp : isRegexSpace x = true
            · rw [matchItems, if_pos hsp] at hk
              cases hm : matchItems [.opt (fun c => c = '/'), .lit '>'] t' with
              | some m =>
                rw [hm] at hk
                simp only [Option.some.injEq] at hk
                rcases matchItems_slash_close t' m hm with ⟨v, hv, hm1⟩ | ⟨v, hv, hm2⟩
                · exact ⟨['<', 'b', 'r', x, '>'], v,
                    ⟨[x], [], Or.inr ⟨x, hsp, rfl⟩, Or.inl rfl, rfl⟩, by simp [hv], by
                      simp; omega⟩
                · exact ⟨['<', 'b', 'r', x, '/', '>'], v,
                    ⟨[x], ['/'], Or.inr ⟨x, hsp, rfl⟩, Or.inr rfl, rfl⟩, by simp [hv], by
                      simp; omega⟩
              | none =>
                rw [hm] at hk
                simp only at hk
                rcases matchItems_slash_close (x :: t') k hk with ⟨v, hv, _⟩ | ⟨v, hv, _⟩
                · exact absurd (List.cons.inj hv).1 (hnot x hsp).2
                · exact absurd (List.cons.inj hv).1 (hnot x hsp).1
            · rw [matchItems, if_neg hsp] at hk
              rcases matchItems_slash_close (x :: t') k hk with ⟨v, hv, hm1⟩ | ⟨v, hv, hm2⟩
              · exact ⟨['<', 'b', 'r', '>'], v,
                  ⟨[], [], Or.inl rfl, Or.inl rfl, rfl⟩, by simp [hv], by simp; omega⟩
              · exact ⟨['<', 'b', 'r', '/', '>'], v,
                  ⟨[], ['/'], Or.inl rfl, Or.inr rfl, rfl⟩, by simp [hv], by simp; omega⟩
        · simp [matchItems, brRegex, h2] at h
      · simp [matchItems, brRegex, h1] at h
    · simp [matchItems, brRegex, h0] at h

theorem IsBrTag_prefix_unique (t1 t2 r1 r2 : List Char) (h1 : IsBrTag t1) (h2 : IsBrTag t2)
    (h : t1 ++ r1 = t2 ++ r2) : t1 = t2 ∧ r1 = r2 := by
  obtain ⟨n1, hn1⟩ := matchItems_of_IsBrTag t1 h1 r1
  obtain ⟨a, b, _, hab, hlen⟩ := matchItems_brRegex_sound (t1 ++ r1) (n1 + 1) hn1
  have key : ∀ t r, IsBrTag t → t ++ r = t1 ++ r1 → t.length = n1 + 1 := by
    intro t r ht e
    obtain ⟨space, slash, hspace, hslash, rfl⟩ := ht
    have hgt : isRegexSpace '>' = false := by decide
    have hsl : isRegexSpace '/' = false := by decide
    rw [← e] at hn1
    rcases hspace with rfl | ⟨c, hc, rfl⟩ <;> rcases hslash with rfl | rfl
    · simp [matchItems, brRegex, hgt] at hn1
      simp [← hn1]
    · simp [matchItems, brRegex, hsl] at hn1
      simp [← hn1]
    · simp [matchItems, brRegex, hc] at hn1
      simp [← hn1]
    · simp [matchItems, brRegex, hc] at hn1
      simp [← hn1]
  have l1 := key t1 r1 h1 rfl
  have l2 := key t2 r2 h2 h.symm
  exact List.append_inj h (l1.trans l2.symm)

theorem BrSanitized_of_ReplaceAllString (n : Nat) (s : List Char) (hlen : s.length ≤ n) :
    BrSanitized s (ReplaceAllString brRegex hoverLineBreak 0 s) := by
  induction n generalizing s with
  | zero =>
    have hs : s = [] := List.length_eq_zero.mp (Nat.le_zero.mp hlen)
    subst hs
    rw [ReplaceAllString]
    exact BrSanitized.nil
  | succ n ih =>
    cases s with
    | nil =>
      rw [ReplaceAllString]
      exact BrSanitized.nil
    | cons c rest =>
      have hrest : rest.length ≤ n := by simpa using hlen
      rcases ReplaceAllString_cons brRegex hoverLineBreak c rest with ⟨k, hm, hout⟩ | ⟨hno, hout⟩
      · obtain ⟨tag, after, htag, hsplit, hl⟩ := matchItems_brRegex_sound (c :: rest) (k + 1) hm
        have hafter : after = rest.drop k := by
          have h1 : (c :: rest).drop (k + 1) = after := by
            rw [hsplit, ← hl, List.drop_left]
          rw [← h1]
          rfl
        rw [hout, hoverLineBreak]
        exact BrSanitized.tag (c :: rest) tag (rest.drop k) _ htag (by rw [← hafter]; exact hsplit)
          (ih (rest.drop k) (by rw [List.length_drop]; omega))
      · rw [hout]
        refine BrSanitized.keep c rest _ ?_ (ih rest hrest)
        intro tag htag hpre
        obtain ⟨u, hu⟩ := hpre
        obtain ⟨m, hm⟩ := matchItems_of_IsBrTag tag htag u
        rw [hu] at hm
        exact hno m hm

theorem BrSanitized_unique (s o1 o2 : List Char) (h1 : BrSanitized s o1)
    (h2 : BrSanitized s o2) : o1 = o2 := by
  induction h1 generalizing o2 with
  | nil =>
    cases h2 with
    | nil => rfl
    | tag _ tag rest out htag hs _ =>
      obtain ⟨⟨t, ht⟩, _, _⟩ := IsBrTag_shape tag htag
      rw [ht] at hs
      simp at hs
  | tag s tag rest out htag hs _ ih =>
    cases h2 with
    | nil =>
      obtain ⟨⟨t, ht⟩, _, _⟩ := IsBrTag_shape tag htag
      rw [ht] at hs
      simp at hs
    | tag _ tag2 rest2 out2 htag2 hs2 hrest2 =>
      obtain ⟨_, hr⟩ := IsBrTag_prefix_unique tag tag2 rest rest2 htag htag2 (hs.symm.trans hs2)
      rw [← hr] at hrest2
      rw [ih out2 hrest2]
    | keep c rest2 out2 hno _ =>
      exact absurd ⟨rest, hs.symm⟩ (hno tag htag)
  | keep c rest out hno _ ih =>
    cases h2 with
    | tag _ tag2 rest2 out2 htag2 hs2 _ =>
      exact absurd ⟨rest2, hs2.symm⟩ (hno tag2 htag2)
    | keep _ _ out2 _ hrest2 =>
      rw [ih out2 hrest2]

/-- C26: `converter.ToHovers` returns one hover per issue, in the same order,
with the issue's ID and range. Its message comes from the text made of the
formatted message if that is not empty and of the message otherwise, followed
if the issue has references by the references section: going through this
text from the left, every tag "<br", at most one whitespace character, at
most one slash, ">" is replaced by two newlines and every other character is
kept, the message is the only text obtained so, and no such tag is left in
it. -/
theorem ToHovers_one_sanitized_hover_per_issue (issues : Slice Issue) :
    List.Forall₂
      (fun (i : Issue) (h : Hover) =>
        h.Id = i.ID ∧ h.Range = i.Range ∧
        ∃ text : String,
          text = (if i.FormattedMessage ≠ "" then i.FormattedMessage else i.Message) ++
            (if i.References.toList = [] then ""
             else "\n\nReferences:\n\n" ++ String.join (i.References.toList.map
               (fun reference =>
                 "[" ++ reference.Title ++ "](" ++ reference.Url ++ ")\n\n"))) ∧
          BrSanitized text.data h.Message.data ∧
          (∀ out, BrSanitized text.data out → out = h.Message.data) ∧
          h.Message.data = ReplaceAllString brRegex ['\n', '\n'] 0 text.data ∧
          ∀ tag, IsBrTag tag → ¬ tag <:+: h.Message.data)
      issues.toList (ToHovers issues).toList := by
  unfold ToHovers
  rw [foldl_append_eq_appendAll, Slice.toList_nil_appendAll, List.forall₂_map_right_iff,
    List.forall₂_same]
  intro i _
  refine ⟨rfl, rfl, hoverText i, hoverText_eq i, ?_, ?_, rfl, ?_⟩
  · exact BrSanitized_of_ReplaceAllString _ _ (Nat.le_refl _)
  · intro out hout
    exact BrSanitized_unique _ _ _ hout
      (BrSanitized_of_ReplaceAllString _ _ (Nat.le_refl _))
  · intro tag htag
    exact no_br_tag_in_ReplaceAllString tag htag _ _ (Nat.le_refl _)

end VulnmapLs
